import Mathlib

/-!
# bencode-c: a shallow embedding of the decoder and its specification

The decoder of `bencode.c` is embedded as pure functions over an explicit
decoder state.  Pointers into the caller's buffer are offsets into the byte
list `m`; a null pointer is `none`.  Values of type `size_t` are natural
numbers, reduced modulo `2 ^ w` where the C arithmetic can wrap.  The block
that `realloc` hands out for the nesting stack is a list of frames whose
length is the number of frames that fit in it, so that a store past its end
is visible: every operation that C leaves undefined yields `none`.
-/

set_option autoImplicit false

/-! ## Return codes (bencode.h) -/

@[reducible] def BENCODE_ERROR_OOM : Int := -4
@[reducible] def BENCODE_ERROR_BAD_KEY : Int := -3
@[reducible] def BENCODE_ERROR_EOF : Int := -2
@[reducible] def BENCODE_ERROR_INVALID : Int := -1
@[reducible] def BENCODE_DONE : Int := 0
@[reducible] def BENCODE_INTEGER : Int := 1
@[reducible] def BENCODE_STRING : Int := 2
@[reducible] def BENCODE_LIST_BEGIN : Int := 3
@[reducible] def BENCODE_LIST_END : Int := 4
@[reducible] def BENCODE_DICT_BEGIN : Int := 5
@[reducible] def BENCODE_DICT_END : Int := 6

/-! ## Data model (bencode.h) -/

/-- The `flags` member of a stack frame: the three bits
`BENCODE_FLAG_FIRST`, `BENCODE_FLAG_DICT` and `BENCODE_FLAG_EXPECT_VALUE`. -/
structure Flags where
  first : Bool
  dict : Bool
  expect_value : Bool
  deriving DecidableEq, Repr

/-- One element of `ctx->stack`: `key` is a pointer into the input (an offset,
`none` for the null pointer), `keylen` its length. -/
structure Frame where
  key : Option Nat
  keylen : Nat
  flags : Flags
  deriving DecidableEq, Repr

/-- The decoder state `struct bencode`.  `tok` and `buf` are offsets into the
input buffer (`tok = none` is the null pointer); `stack` is `none` for the null
pointer and otherwise the allocated block, one entry per frame it can hold. -/
structure bencode where
  tok : Option Nat
  toklen : Nat
  buf : Nat
  buflen : Nat
  stack : Option (List Frame)
  cap : Nat
  size : Nat
  deriving DecidableEq, Repr

/-- What the C code leaves to the platform: the width `w` of `size_t`, the
value of `sizeof(ctx->stack[0])`, which requests `realloc` grants (by byte
count), and the indeterminate content of freshly allocated frames. -/
structure Platform where
  w : Nat
  frame_bytes : Nat
  realloc_ok : Nat → Bool
  junk : Frame

/-! ## Initialisation -/

/-- The function `bencode_reinit(ctx, buf, len)`; the new buffer starts at offset 0. -/
def bencode_reinit (ctx : bencode) (len : Nat) : bencode :=
  { ctx with tok := none, toklen := 0, buf := 0, buflen := len, size := 0 }

/-- The function `bencode_init(ctx, buf, len)`; the buffer starts at offset 0. -/
def bencode_init (len : Nat) : bencode :=
  { tok := none, toklen := 0, buf := 0, buflen := len, stack := none, cap := 0, size := 0 }

/-! ## Cursor -/

/-- The function `bencode_get`: `-1` when no byte remains, else the byte under
the cursor, which advances by one.  Reading outside the buffer is undefined. -/
def bencode_get (m : List Nat) (ctx : bencode) : Option (Int × bencode) :=
  if ctx.buflen = 0 then some (-1, ctx)
  else
    match m[ctx.buf]? with
    | none => none
    | some b => some ((b : Int), { ctx with buflen := ctx.buflen - 1, buf := ctx.buf + 1 })

/-- The function `bencode_peek`: as `bencode_get`, without advancing. -/
def bencode_peek (m : List Nat) (ctx : bencode) : Option Int :=
  if ctx.buflen = 0 then some (-1)
  else
    match m[ctx.buf]? with
    | none => none
    | some b => some (b : Int)

/-! ## Nesting stack -/

/-- The function `bencode_push`: `none` stands for the return value
`(size_t)-1`, in which case `ctx` is left as it was; otherwise the index
of the new frame and the updated state.  The recorded capacity `cap` is not
assigned anywhere in the function. -/
def bencode_push (P : Platform) (ctx : bencode) : Option (Nat × bencode) :=
  if ctx.size = ctx.cap then
    let newcap : Nat :=
      match ctx.stack with
      | none => 64
      | some _ => (ctx.cap * 2) % 2 ^ P.w
    if ctx.stack.isSome && newcap = 0 then none
    else
      let bytes := (newcap * P.frame_bytes) % 2 ^ P.w
      if bytes = 0 then none
      else if P.realloc_ok bytes = false then none
      else
        let old := ctx.stack.getD []
        let newstack := (old ++ List.replicate (bytes / P.frame_bytes) P.junk).take
          (bytes / P.frame_bytes)
        some (ctx.size, { ctx with stack := some newstack, size := ctx.size + 1 })
  else some (ctx.size, { ctx with size := ctx.size + 1 })

/-! ## Token recognisers -/

/-- The loop `do c = bencode_get(ctx); while (c >= 0x30 && c <= 0x39);`.
The first argument bounds the number of further iterations; the callers pass
`ctx.buflen`, which is enough because `bencode_get` returns `-1` once no byte
remains (`get_digits_exit`). -/
def get_digits (m : List Nat) : Nat → bencode → Option (Int × bencode)
  | 0, ctx => bencode_get m ctx
  | fuel + 1, ctx =>
    match bencode_get m ctx with
    | none => none
    | some (c, ctx1) =>
      if 0x30 ≤ c ∧ c ≤ 0x39 then get_digits m fuel ctx1 else some (c, ctx1)

/-- The part of `bencode_integer` after its `switch`: `c` is the first digit. -/
def integer_tail (m : List Nat) (c : Int) (ctx : bencode) : Option (Int × bencode) :=
  if c < 0x30 ∨ c > 0x39 then some (BENCODE_ERROR_INVALID, ctx)
  else
    match get_digits m ctx.buflen ctx with
    | none => none
    | some (c1, ctx1) =>
      if c1 = -1 then some (BENCODE_ERROR_EOF, ctx1)
      else if c1 ≠ 0x65 then some (BENCODE_ERROR_INVALID, ctx1)
      else
        match ctx1.tok with
        | none => none
        | some t => some (BENCODE_INTEGER, { ctx1 with toklen := ctx1.buf - t - 1 })

/-- The function `bencode_integer`, entered after the `i` has been consumed. -/
def bencode_integer (m : List Nat) (ctx : bencode) : Option (Int × bencode) :=
  let ctx0 := { ctx with tok := some ctx.buf }
  match bencode_get m ctx0 with
  | none => none
  | some (c, ctx1) =>
    if c = -1 then some (BENCODE_ERROR_EOF, ctx1)
    else if c = 0x2d then
      match bencode_get m ctx1 with
      | none => none
      | some (c2, ctx2) =>
        if c2 = -1 then some (BENCODE_ERROR_EOF, ctx2)
        else if c2 < 0x31 ∨ c2 > 0x39 then some (BENCODE_ERROR_INVALID, ctx2)
        else integer_tail m c2 ctx2
    else if c = 0x30 then
      match bencode_get m ctx1 with
      | none => none
      | some (c2, ctx2) =>
        if c2 = -1 then some (BENCODE_ERROR_EOF, ctx2)
        else if c2 ≠ 0x65 then some (BENCODE_ERROR_INVALID, ctx2)
        else some (BENCODE_INTEGER, { ctx2 with toklen := 1 })
    else integer_tail m c ctx1

/-- The loop `for (; tok < buf - 1; tok++)` of `bencode_string` that decodes the
length; the first argument is the number of digits left, the second the local
pointer `tok`.  The Boolean is `false` when the loop is left by
`return BENCODE_ERROR_EOF` (the overflow test fired). -/
def decode_length (P : Platform) (m : List Nat) : Nat → Nat → bencode → Option (Bool × bencode)
  | 0, _, ctx => some (true, ctx)
  | k + 1, tok, ctx =>
    match m[tok]? with
    | none => none
    | some b =>
      let n : Nat := (((ctx.toklen : Int) * 10 + ((b : Int) - 0x30)) % (2 : Int) ^ P.w).toNat
      if n < ctx.toklen then some (false, ctx)
      else decode_length P m k (tok + 1) { ctx with toklen := n }

/-- The function `bencode_string`, entered after the first digit (`1`..`9`)
has been consumed. -/
def bencode_string (P : Platform) (m : List Nat) (ctx : bencode) : Option (Int × bencode) :=
  let tok := ctx.buf - 1
  match get_digits m ctx.buflen ctx with
  | none => none
  | some (c, ctx1) =>
    if c = -1 then some (BENCODE_ERROR_EOF, ctx1)
    else if c ≠ 0x3a then some (BENCODE_ERROR_INVALID, ctx1)
    else
      let ctx2 := { ctx1 with tok := some ctx1.buf, toklen := 0 }
      match decode_length P m (ctx2.buf - 1 - tok) tok ctx2 with
      | none => none
      | some (false, ctx3) => some (BENCODE_ERROR_EOF, ctx3)
      | some (true, ctx3) =>
        if ctx3.buflen < ctx3.toklen then some (BENCODE_ERROR_EOF, ctx3)
        else some (BENCODE_STRING,
          { ctx3 with buf := ctx3.buf + ctx3.toklen, buflen := ctx3.buflen - ctx3.toklen })

/-! ## Dispatcher -/

/-- Sign of the first difference of two byte sequences, compared as unsigned bytes. -/
def cmp_bytes : List Nat → List Nat → Int
  | x :: xs, y :: ys => if x < y then -1 else if y < x then 1 else cmp_bytes xs ys
  | _, _ => 0

/-- The library function `memcmp(m + a, m + b, n)`; undefined when one of the
two ranges leaves the buffer. -/
def memcmp (m : List Nat) (a b n : Nat) : Option Int :=
  if a + n ≤ m.length ∧ b + n ≤ m.length then
    some (cmp_bytes ((m.drop a).take n) ((m.drop b).take n))
  else none

/-- Result of the first part of `bencode_next`: an early `return`, or the
state to go on with together with `keyptr` (the index of the frame whose
`key` member it points to, `none` for the null pointer). -/
inductive Entered where
  | ret (r : Int) (ctx : bencode)
  | go (ctx : bencode) (keyptr : Option Nat)
  deriving DecidableEq, Repr

/-- Lines 159-181 of `bencode_next`: bookkeeping and shape check on the top frame. -/
def next_enter (m : List Nat) (ctx : bencode) : Option Entered :=
  if ctx.size ≠ 0 then
    match ctx.stack with
    | none => none
    | some blk =>
      match blk[ctx.size - 1]? with
      | none => none
      | some f =>
        let f1 := { f with flags := { f.flags with first := false } }
        if f1.flags.dict then
          match bencode_peek m ctx with
          | none => none
          | some c =>
            if f1.flags.expect_value then
              if c = 0x65 then
                some (.ret BENCODE_ERROR_INVALID
                  { ctx with stack := some (blk.set (ctx.size - 1) f1) })
              else
                let f2 := { f1 with flags := { f1.flags with expect_value := false } }
                some (.go { ctx with stack := some (blk.set (ctx.size - 1) f2) } none)
            else
              if c ≠ 0x65 ∧ (c < 0x30 ∨ c > 0x39) then
                some (.ret BENCODE_ERROR_INVALID
                  { ctx with stack := some (blk.set (ctx.size - 1) f1) })
              else
                let f2 := { f1 with flags := { f1.flags with expect_value := true } }
                some (.go { ctx with stack := some (blk.set (ctx.size - 1) f2) }
                  (some (ctx.size - 1)))
        else some (.go { ctx with stack := some (blk.set (ctx.size - 1) f1) } none)
  else if ctx.buflen = 0 then
    some (.ret (if ctx.tok.isSome then BENCODE_DONE else BENCODE_ERROR_EOF) ctx)
  else some (.go ctx none)

/-- Store `f` into `ctx->stack[i]`; undefined when the slot is outside the
allocated block. -/
def stack_store (ctx : bencode) (i : Nat) (f : Frame → Frame) : Option bencode :=
  match ctx.stack with
  | none => none
  | some blk =>
    match blk[i]? with
    | none => none
    | some old => some { ctx with stack := some (blk.set i (f old)) }

/-- Lines 183-232 of `bencode_next`: the `switch` on the consumed byte.  The
Boolean is `true` when the `switch` is left by `break` (or falls through),
`false` when it is left by `return`. -/
def next_switch (P : Platform) (m : List Nat) (ctx : bencode) : Option (Bool × Int × bencode) :=
  match bencode_get m ctx with
  | none => none
  | some (c, ctx1) =>
    if c = -1 then some (false, BENCODE_ERROR_EOF, ctx1)
    else if c = 0x64 then
      match bencode_push P ctx1 with
      | none => some (false, BENCODE_ERROR_OOM, ctx1)
      | some (i, ctx2) =>
        match stack_store ctx2 i (fun _ =>
            { key := none, keylen := 0,
              flags := { first := true, dict := true, expect_value := false } }) with
        | none => none
        | some ctx3 => some (false, BENCODE_DICT_BEGIN, ctx3)
    else if c = 0x65 then
      if ctx1.size = 0 then some (false, BENCODE_ERROR_INVALID, ctx1)
      else
        let ctx2 := { ctx1 with size := ctx1.size - 1 }
        match ctx2.stack with
        | none => none
        | some blk =>
          match blk[ctx2.size]? with
          | none => none
          | some f =>
            if f.flags.dict then some (false, BENCODE_DICT_END, ctx2)
            else some (false, BENCODE_LIST_END, ctx2)
    else if c = 0x69 then
      match bencode_integer m ctx1 with
      | none => none
      | some (r, ctx2) => some (false, r, ctx2)
    else if c = 0x6c then
      match bencode_push P ctx1 with
      | none => some (false, BENCODE_ERROR_OOM, ctx1)
      | some (i, ctx2) =>
        match stack_store ctx2 i (fun old =>
            { old with flags := { first := true, dict := false, expect_value := false } }) with
        | none => none
        | some ctx3 => some (false, BENCODE_LIST_BEGIN, ctx3)
    else if c = 0x30 then
      match bencode_get m ctx1 with
      | none => none
      | some (c2, ctx2) =>
        if c2 = -1 then some (false, BENCODE_ERROR_EOF, ctx2)
        else if c2 ≠ 0x3a then some (false, BENCODE_ERROR_INVALID, ctx2)
        else some (true, BENCODE_STRING, { ctx2 with tok := some ctx2.buf, toklen := 0 })
    else if 0x31 ≤ c ∧ c ≤ 0x39 then
      match bencode_string P m ctx1 with
      | none => none
      | some (r, ctx2) => some (true, r, ctx2)
    else some (true, BENCODE_ERROR_INVALID, ctx1)

/-- Lines 234-252 of `bencode_next`: the key ordering check, reached by `break`
with result `r`. -/
def next_key (m : List Nat) (keyptr : Option Nat) (r : Int) (ctx : bencode) :
    Option (Int × bencode) :=
  match keyptr with
  | none => some (r, ctx)
  | some i =>
    if r = BENCODE_STRING then
      match ctx.stack, ctx.tok with
      | some blk, some tok =>
        match blk[i]? with
        | none => none
        | some f =>
          let accept : Option (Int × bencode) :=
            some (r, { ctx with
              stack := some (blk.set i { f with key := some tok, keylen := ctx.toklen }) })
          match f.key with
          | none => accept
          | some key =>
            if ctx.toklen < f.keylen then
              match memcmp m tok key ctx.toklen with
              | none => none
              | some d => if d ≤ 0 then some (BENCODE_ERROR_BAD_KEY, ctx) else accept
            else if f.keylen < ctx.toklen then
              match memcmp m tok key f.keylen with
              | none => none
              | some d => if d < 0 then some (BENCODE_ERROR_BAD_KEY, ctx) else accept
            else
              match memcmp m tok key ctx.toklen with
              | none => none
              | some d => if d ≤ 0 then some (BENCODE_ERROR_BAD_KEY, ctx) else accept
      | _, _ => none
    else some (r, ctx)

/-- The function `bencode_next`: the return code and the state it leaves, or
`none` when the call has undefined behaviour (an access outside the input
buffer or outside the allocated stack block). -/
def bencode_next (P : Platform) (m : List Nat) (ctx : bencode) : Option (Int × bencode) :=
  match next_enter m ctx with
  | none => none
  | some (.ret r ctx1) => some (r, ctx1)
  | some (.go ctx1 keyptr) =>
    match next_switch P m ctx1 with
    | none => none
    | some (false, r, ctx2) => some (r, ctx2)
    | some (true, r, ctx2) => next_key m keyptr r ctx2

/-! ## Helper macros (bencode.h) -/

/-- The macro `BENCODE_FIRST(ctx)`. -/
def BENCODE_FIRST (ctx : bencode) : Option Bool :=
  if ctx.size ≠ 0 then
    match ctx.stack with
    | none => none
    | some blk => (blk[ctx.size - 1]?).map (fun f => f.flags.first)
  else some (!ctx.tok.isSome)

/-- The macro `BENCODE_IS_VALUE(ctx)`. -/
def BENCODE_IS_VALUE (ctx : bencode) : Option Bool :=
  if ctx.size ≠ 0 then
    match ctx.stack with
    | none => none
    | some blk => (blk[ctx.size - 1]?).map (fun f => f.flags.dict && f.flags.expect_value)
  else some false

/-! ## Driving the decoder -/

/-- The bytes of the view `(tok, toklen)` of a state. -/
def view (m : List Nat) (ctx : bencode) : List Nat :=
  match ctx.tok with
  | none => []
  | some t => (m.drop t).take ctx.toklen

/-- What a caller observes of one call, as the test driver records it: the
return code and, for `BENCODE_INTEGER` and `BENCODE_STRING`, the bytes of the view. -/
def observe (m : List Nat) (r : Int) (ctx : bencode) : Int × List Nat :=
  (r, if r = BENCODE_INTEGER ∨ r = BENCODE_STRING then view m ctx else [])

/-- The `n` successive calls of `bencode_next` starting from `ctx`: what each
call showed, and the final state. -/
def calls (P : Platform) (m : List Nat) : Nat → bencode → Option (List (Int × List Nat) × bencode)
  | 0, ctx => some ([], ctx)
  | n + 1, ctx =>
    match bencode_next P m ctx with
    | none => none
    | some (r, ctx1) =>
      match calls P m n ctx1 with
      | none => none
      | some (obs, ctx2) => some (observe m r ctx1 :: obs, ctx2)

/-- A platform with a 64-bit `size_t`, 24-byte frames and a `realloc` that
always succeeds. -/
def lp64 : Platform :=
  { w := 64, frame_bytes := 24, realloc_ok := fun _ => true,
    junk := { key := none, keylen := 0, flags := ⟨false, false, false⟩ } }

/-- The bytes of an ASCII string. -/
def bytes (s : String) : List Nat := s.toList.map Char.toNat

/-- Decode the text `s` with `n` calls on a fresh decoder (64-bit platform). -/
def decode (s : String) (n : Nat) : Option (List (Int × List Nat)) :=
  (calls lp64 (bytes s) n (bencode_init (bytes s).length)).map Prod.fst

/-! ## The wire format (spec §6) -/

/-- A decimal digit `0`..`9`. -/
def is_digit (b : Nat) : Bool := decide (0x30 ≤ b ∧ b ≤ 0x39)

/-- A decimal numeral `0` | `[1-9][0-9]*`. -/
def canon_nat : List Nat → Bool
  | [] => false
  | d :: ds => (decide (d = 0x30) && ds.isEmpty) || (decide (0x31 ≤ d ∧ d ≤ 0x39) && ds.all is_digit)

/-- The value of a sequence of decimal digits. -/
def decval (ds : List Nat) : Nat := ds.foldl (fun a d => a * 10 + (d - 0x30)) 0

/-- The integer literals of the grammar line `-`? (`0` | `[1-9][0-9]*`). -/
def int_regex (lit : List Nat) : Bool :=
  match lit with
  | [] => false
  | c :: ds => if c = 0x2d then canon_nat ds else canon_nat (c :: ds)

/-- The canonical integer literals of spec §4.3: `0` | `-`? `[1-9][0-9]*`
(a `-` only before a nonzero digit). -/
def canon_int (lit : List Nat) : Bool :=
  match lit with
  | [] => false
  | c :: ds => if c = 0x2d then canon_nat ds && decide (ds ≠ [0x30]) else canon_nat (c :: ds)

/-- Decimal digits of `n`, most significant first, in front of `acc`. -/
def dec_aux : Nat → Nat → List Nat → List Nat
  | 0, _, acc => acc
  | fuel + 1, n, acc =>
    if n < 10 then (0x30 + n) :: acc else dec_aux fuel (n / 10) ((0x30 + n % 10) :: acc)

/-- The decimal numeral of `n`. -/
def dec (n : Nat) : List Nat := dec_aux (n + 1) n []

/-- A bencode value; integers carry their literal text, strings their payload. -/
inductive Value where
  | int (lit : List Nat)
  | str (s : List Nat)
  | list (items : List Value)
  | dict (entries : List (List Nat × Value))

/-- The text of a string with payload `s`: `<length>:<s>`. -/
def ser_str (s : List Nat) : List Nat := dec s.length ++ 0x3a :: s

mutual
/-- The serialization of a value. -/
def ser : Value → List Nat
  | .int lit => 0x69 :: (lit ++ [0x65])
  | .str s => ser_str s
  | .list xs => 0x6c :: (serL xs ++ [0x65])
  | .dict es => 0x64 :: (serD es ++ [0x65])
/-- The serialization of the items of a list. -/
def serL : List Value → List Nat
  | [] => []
  | v :: vs => ser v ++ serL vs
/-- The serialization of the entries of a dictionary. -/
def serD : List (List Nat × Value) → List Nat
  | [] => []
  | (k, v) :: es => ser_str k ++ (ser v ++ serD es)
end

mutual
/-- The pre-order tokenization of a value: return codes with their views. -/
def toks : Value → List (Int × List Nat)
  | .int lit => [(BENCODE_INTEGER, lit)]
  | .str s => [(BENCODE_STRING, s)]
  | .list xs => (BENCODE_LIST_BEGIN, []) :: (toksL xs ++ [(BENCODE_LIST_END, [])])
  | .dict es => (BENCODE_DICT_BEGIN, []) :: (toksD es ++ [(BENCODE_DICT_END, [])])
/-- The tokens of the items of a list. -/
def toksL : List Value → List (Int × List Nat)
  | [] => []
  | v :: vs => toks v ++ toksL vs
/-- The tokens of the entries of a dictionary. -/
def toksD : List (List Nat × Value) → List (Int × List Nat)
  | [] => []
  | (k, v) :: es => (BENCODE_STRING, k) :: (toks v ++ toksD es)
end

mutual
/-- Nesting depth: the number of containers around the innermost value. -/
def depth : Value → Nat
  | .int _ => 0
  | .str _ => 0
  | .list xs => depthL xs + 1
  | .dict es => depthD es + 1
/-- The largest depth among the items of a list. -/
def depthL : List Value → Nat
  | [] => 0
  | v :: vs => max (depth v) (depthL vs)
/-- The largest depth among the values of a dictionary. -/
def depthD : List (List Nat × Value) → Nat
  | [] => 0
  | (_, v) :: es => max (depth v) (depthD es)
end

mutual
/-- The value contains an integer or a string (a dictionary key counts). -/
def leafy : Value → Bool
  | .int _ => true
  | .str _ => true
  | .list xs => leafyL xs
  | .dict es => leafyD es
/-- Some item of the list contains an integer or a string. -/
def leafyL : List Value → Bool
  | [] => false
  | v :: vs => leafy v || leafyL vs
/-- The dictionary has an entry. -/
def leafyD : List (List Nat × Value) → Bool
  | [] => false
  | _ :: _ => true
end

mutual
/-- Well-formed values: canonical integer literals, and in every dictionary
keys that strictly ascend in lexicographic byte order. -/
def wf : Value → Bool
  | .int lit => canon_int lit
  | .str _ => true
  | .list xs => wfL xs
  | .dict es => wfD none es
/-- Well-formed list items. -/
def wfL : List Value → Bool
  | [] => true
  | v :: vs => wf v && wfL vs
/-- Well-formed dictionary entries after the key `prev`. -/
def wfD : Option (List Nat) → List (List Nat × Value) → Bool
  | _, [] => true
  | prev, (k, v) :: es =>
    (match prev with
      | none => true
      | some p => decide (p < k)) && wf v && wfD (some k) es
end

/-- The spec's key ordering law (§4.4) for a previous key `P` and a candidate
`K`: on the first `min(p,k)` bytes `K` sorts strictly after `P`, or they tie
there and `k > p`. -/
def key_law (P K : List Nat) : Bool :=
  let n := min P.length K.length
  decide (P.take n < K.take n) || (decide (P.take n = K.take n) && decide (P.length < K.length))

/-! ## Vocabulary for the statements -/

/-- The cursor of `ctx` stands in front of the bytes `rest` of the buffer `m`,
and `buflen` counts exactly them. -/
def At (m : List Nat) (ctx : bencode) (rest : List Nat) : Prop :=
  m.drop ctx.buf = rest ∧ ctx.buflen = rest.length

/-- The state `ctx` with its cursor moved forward by `n` bytes. -/
def advance (ctx : bencode) (n : Nat) : bencode :=
  { ctx with buf := ctx.buf + n, buflen := ctx.buflen - n }

/-- The top frame as the first part of `bencode_next` leaves it when the next
element is in value position. -/
def entered_value (f : Frame) : Frame :=
  if f.flags.dict then { f with flags := { first := false, dict := true, expect_value := false } }
  else { f with flags := { f.flags with first := false } }

/-- The live frames with `entered_value` applied to the top one. -/
def enter_top : List Frame → List Frame
  | [] => []
  | [f] => [entered_value f]
  | f :: g :: fs => f :: enter_top (g :: fs)

/-- The nesting stack of `ctx` holds exactly the live frames `fs` (outermost
first) at the bottom of a block of 64 frames, or is still unallocated and
empty; the recorded capacity is 0. -/
def Stk (ctx : bencode) (fs : List Frame) : Prop :=
  ctx.cap = 0 ∧ ctx.size = fs.length ∧
  match ctx.stack with
  | none => fs = []
  | some blk => blk.length = 64 ∧ ∃ junk, blk = fs ++ junk

/-- The top live frame, if any, awaits a value. -/
def ValuePos (fs : List Frame) : Prop :=
  ∀ f, fs.getLast? = some f → f.flags.dict = false ∨ f.flags.expect_value = true

/-- The platform can serve the first allocation of the stack: 64 frames fit
in `size_t` bytes and `realloc` grants them. -/
def grants (P : Platform) : Prop :=
  0 < P.frame_bytes ∧ 64 * P.frame_bytes < 2 ^ P.w ∧ P.realloc_ok (64 * P.frame_bytes) = true

/-- The frame `f` records `prev` as the last accepted key of its dictionary
(`none`: no key yet). -/
def KeyIs (m : List Nat) (f : Frame) (prev : Option (List Nat)) : Prop :=
  match prev with
  | none => f.key = none
  | some p => ∃ k, f.key = some k ∧ k + f.keylen ≤ m.length ∧ (m.drop k).take f.keylen = p

/-- The state `ctx1` differs from `ctx` at most in the cursor, which only
moved forward inside the same buffer, and in the token view. -/
def Moved (ctx ctx1 : bencode) : Prop :=
  ctx1.stack = ctx.stack ∧ ctx1.cap = ctx.cap ∧ ctx1.size = ctx.size ∧
    ctx1.buf + ctx1.buflen = ctx.buf + ctx.buflen ∧ ctx.buf ≤ ctx1.buf

/-- The ways the `switch` of `bencode_next` can end. -/
inductive SwitchCase (P : Platform) (m : List Nat) (ctx : bencode) :
    Bool → Int → bencode → Prop where
  | leaf (b : Bool) (r : Int) (ctx1 : bencode) (hm : Moved ctx ctx1)
      (hr : r = BENCODE_ERROR_EOF ∨ r = BENCODE_ERROR_OOM ∨ r = BENCODE_ERROR_INVALID ∨
        r = BENCODE_INTEGER ∨
        (r = BENCODE_STRING ∧ b = true ∧
          ∃ t, ctx1.tok = some t ∧ t + ctx1.toklen = ctx1.buf ∧ ctx.buf ≤ t))
      (hb : b = false → r ≠ BENCODE_STRING)
      (hx : (r = BENCODE_INTEGER → bencode_peek m ctx = some 0x69 ∧
              ∃ t, ctx1.tok = some t ∧ ctx.buf < t ∧ t + ctx1.toklen ≤ ctx1.buf) ∧
            (r = BENCODE_ERROR_OOM →
              bencode_peek m ctx = some 0x64 ∨ bencode_peek m ctx = some 0x6c) ∧
            (r = BENCODE_STRING → ∃ c, bencode_peek m ctx = some c ∧ 0x30 ≤ c ∧ c ≤ 0x39)) :
      SwitchCase P m ctx b r ctx1
  | dict_begin (cx : bencode) (stk : Option (List Frame)) (blk : List Frame) (old : Frame)
      (hg : bencode_get m ctx = some (0x64, cx))
      (hp : bencode_push P cx = some (cx.size, { cx with stack := stk, size := cx.size + 1 }))
      (hs : stk = some blk) (ho : blk[cx.size]? = some old) :
      SwitchCase P m ctx false BENCODE_DICT_BEGIN
        { cx with stack := some (blk.set cx.size ⟨none, 0, ⟨true, true, false⟩⟩),
                  size := cx.size + 1 }
  | list_begin (cx : bencode) (stk : Option (List Frame)) (blk : List Frame) (old : Frame)
      (hg : bencode_get m ctx = some (0x6c, cx))
      (hp : bencode_push P cx = some (cx.size, { cx with stack := stk, size := cx.size + 1 }))
      (hs : stk = some blk) (ho : blk[cx.size]? = some old) :
      SwitchCase P m ctx false BENCODE_LIST_BEGIN
        { cx with stack := some (blk.set cx.size
                    { old with flags := ⟨true, false, false⟩ }),
                  size := cx.size + 1 }
  | container_end (cx : bencode) (blk : List Frame) (f : Frame)
      (hg : bencode_get m ctx = some (0x65, cx)) (hsz : cx.size ≠ 0)
      (hs : cx.stack = some blk) (hf : blk[cx.size - 1]? = some f) :
      SwitchCase P m ctx false (if f.flags.dict then BENCODE_DICT_END else BENCODE_LIST_END)
        { cx with size := cx.size - 1 }

/-- The ways the first part of `bencode_next` can end. -/
inductive EnterCase (m : List Nat) (ctx : bencode) : Entered → Prop where
  | at_end (h0 : ctx.size = 0) (hb : ctx.buflen = 0) :
      EnterCase m ctx (.ret (if ctx.tok.isSome then BENCODE_DONE else BENCODE_ERROR_EOF) ctx)
  | top (h0 : ctx.size = 0) (hb : ctx.buflen ≠ 0) : EnterCase m ctx (.go ctx none)
  | item (blk : List Frame) (f : Frame) (hz : ctx.size ≠ 0) (hs : ctx.stack = some blk)
      (hf : blk[ctx.size - 1]? = some f) (hd : f.flags.dict = false) :
      EnterCase m ctx (.go { ctx with stack := some (blk.set (ctx.size - 1)
        { f with flags := { f.flags with first := false } }) } none)
  | value (blk : List Frame) (f : Frame) (c : Int) (hz : ctx.size ≠ 0)
      (hs : ctx.stack = some blk) (hf : blk[ctx.size - 1]? = some f) (hd : f.flags.dict = true)
      (he : f.flags.expect_value = true) (hp : bencode_peek m ctx = some c) (hc : c ≠ 0x65) :
      EnterCase m ctx (.go { ctx with stack := some (blk.set (ctx.size - 1)
        { f with flags := ⟨false, true, false⟩ }) } none)
  | no_value (blk : List Frame) (f : Frame) (hz : ctx.size ≠ 0)
      (hs : ctx.stack = some blk) (hf : blk[ctx.size - 1]? = some f) (hd : f.flags.dict = true)
      (he : f.flags.expect_value = true) (hp : bencode_peek m ctx = some 0x65) :
      EnterCase m ctx (.ret BENCODE_ERROR_INVALID { ctx with stack := some (blk.set (ctx.size - 1)
        { f with flags := ⟨false, true, true⟩ }) })
  | key (blk : List Frame) (f : Frame) (c : Int) (hz : ctx.size ≠ 0)
      (hs : ctx.stack = some blk) (hf : blk[ctx.size - 1]? = some f) (hd : f.flags.dict = true)
      (he : f.flags.expect_value = false) (hp : bencode_peek m ctx = some c)
      (hc : c = 0x65 ∨ (0x30 ≤ c ∧ c ≤ 0x39)) :
      EnterCase m ctx (.go { ctx with stack := some (blk.set (ctx.size - 1)
        { f with flags := ⟨false, true, true⟩ }) } (some (ctx.size - 1)))
  | no_key (blk : List Frame) (f : Frame) (c : Int) (hz : ctx.size ≠ 0)
      (hs : ctx.stack = some blk) (hf : blk[ctx.size - 1]? = some f) (hd : f.flags.dict = true)
      (he : f.flags.expect_value = false) (hp : bencode_peek m ctx = some c)
      (hc : c ≠ 0x65 ∧ (c < 0x30 ∨ c > 0x39)) :
      EnterCase m ctx (.ret BENCODE_ERROR_INVALID { ctx with stack := some (blk.set (ctx.size - 1)
        { f with flags := ⟨false, true, false⟩ }) })

/-- The length that the loop of `bencode_string` accumulates from the digits
`ds`, starting from `t`, in `size_t` arithmetic: the Boolean is `false` when
the overflow test of the loop fires, and the number is `toklen` on leaving. -/
def wrap_len (P : Platform) : List Nat → Nat → Bool × Nat
  | [], t => (true, t)
  | d :: ds, t =>
    let n : Nat := (((t : Int) * 10 + ((d : Int) - 0x30)) % (2 : Int) ^ P.w).toNat
    if n < t then (false, t) else wrap_len P ds n

/-- The value `n` lists deep: `nested 0` is the empty list, `nested (n + 1)` the
list whose only item is `nested n`. -/
def nested : Nat → Value
  | 0 => .list []
  | n + 1 => .list [nested n]

/-- A platform with a 32-bit `size_t`, 12-byte frames and a `realloc` that
always succeeds. -/
def ilp32 : Platform :=
  { w := 32, frame_bytes := 12, realloc_ok := fun _ => true,
    junk := { key := none, keylen := 0, flags := ⟨false, false, false⟩ } }

/-! ## The keys a caller sees -/

/-- The live frames `fs` of `ctx` (outermost first) lie at the bottom of its
stack block; the recorded capacity is 0. -/
def Live (ctx : bencode) (fs : List Frame) : Prop :=
  ctx.cap = 0 ∧ ctx.size = fs.length ∧
  match ctx.stack with
  | none => fs = []
  | some blk => ∃ junk, blk = fs ++ junk

/-- The state that `d1:ai0e1:b` is in after DictBegin, the key `a` and its value. -/
def after_first_entry : bencode :=
  { tok := some 5, toklen := 1, buf := 7, buflen := 3,
    stack := some ((⟨some 3, 1, ⟨false, true, false⟩⟩ : Frame) :: List.replicate 63 lp64.junk),
    cap := 0, size := 1 }

/-! ## Integer texts -/

/-- The bytes `rest` begin with a canonical integer literal immediately
followed by `e`. -/
def IntegerText (rest : List Nat) : Prop :=
  ∃ lit post, rest = lit ++ 0x65 :: post ∧ canon_int lit = true

/-- The bytes `rest` begin with a literal of the grammar line `-`? (`0` |
`[1-9][0-9]*`) immediately followed by `e`. -/
def RegexText (rest : List Nat) : Prop :=
  ∃ lit post, rest = lit ++ 0x65 :: post ∧ int_regex lit = true

/-- The input ends inside an integer: `rest` is a proper initial part of a
canonical literal followed by `e`. -/
def IntegerCut (rest : List Nat) : Prop :=
  ∃ lit suf, canon_int lit = true ∧ suf ≠ [] ∧ rest ++ suf = lit ++ [0x65]

/-! ## The effect of one call on the live frames -/

/-- How one call of `bencode_next` that returned `r` and left the state `ctx1`
changed the live frames (outermost first): the frames before, the return
code, the frames after. -/
inductive FrameStep (m : List Nat) (ctx1 : bencode) : List Frame → Int → List Frame → Prop where
  | none_open (r : Int) (hr : r ≤ BENCODE_STRING) : FrameStep m ctx1 [] r []
  | failed (fs0 : List Frame) (f g : Frame) (r : Int) (hr : r < 0)
      (hk : g.key = f.key) (hl : g.keylen = f.keylen) (hd : g.flags.dict = f.flags.dict)
      (hf : g.flags.first = false)
      (he : f.flags.dict = false → g.flags.expect_value = f.flags.expect_value)
      (hb : r = BENCODE_ERROR_BAD_KEY → f.flags.dict = true ∧ f.flags.expect_value = false ∧
        ∃ k t, f.key = some k ∧ ctx1.tok = some t ∧
          (t + ctx1.toklen ≤ m.length → k + f.keylen ≤ m.length →
            ¬ (m.drop k).take f.keylen < (m.drop t).take ctx1.toklen)) :
      FrameStep m ctx1 (fs0 ++ [f]) r (fs0 ++ [g])
  | value (fs0 : List Frame) (f : Frame) (r : Int)
      (hr : r = BENCODE_INTEGER ∨ r = BENCODE_STRING)
      (hv : f.flags.dict = false ∨ f.flags.expect_value = true) :
      FrameStep m ctx1 (fs0 ++ [f]) r (fs0 ++ [entered_value f])
  | key (fs0 : List Frame) (f : Frame) (t : Nat) (hd : f.flags.dict = true)
      (he : f.flags.expect_value = false) (ht : ctx1.tok = some t)
      (hord : ∀ k, f.key = some k → t + ctx1.toklen ≤ m.length → k + f.keylen ≤ m.length →
        (m.drop k).take f.keylen < (m.drop t).take ctx1.toklen) :
      FrameStep m ctx1 (fs0 ++ [f]) BENCODE_STRING
        (fs0 ++ [⟨some t, ctx1.toklen, ⟨false, true, true⟩⟩])
  | list_begin (fs : List Frame) (old : Frame) (hv : ValuePos fs) :
      FrameStep m ctx1 fs BENCODE_LIST_BEGIN
        (enter_top fs ++ [{ old with flags := ⟨true, false, false⟩ }])
  | dict_begin (fs : List Frame) (hv : ValuePos fs) :
      FrameStep m ctx1 fs BENCODE_DICT_BEGIN
        (enter_top fs ++ [⟨none, 0, ⟨true, true, false⟩⟩])
  | list_end (fs0 : List Frame) (f : Frame) (hd : f.flags.dict = false) :
      FrameStep m ctx1 (fs0 ++ [f]) BENCODE_LIST_END fs0
  | dict_end (fs0 : List Frame) (f : Frame) (hd : f.flags.dict = true)
      (he : f.flags.expect_value = false) :
      FrameStep m ctx1 (fs0 ++ [f]) BENCODE_DICT_END fs0

/-- A frame below the top: its `FIRST` and `EXPECT_VALUE` bits are clear. -/
def Settled (f : Frame) : Prop :=
  f.flags.first = false ∧ f.flags.expect_value = false

/-- The flags of the live frames are consistent: every frame below the top is
settled, and a list frame on top does not expect a value. -/
def Tidy (fs : List Frame) : Prop :=
  (∀ f ∈ fs.dropLast, Settled f) ∧
    ∀ f, fs.getLast? = some f → f.flags.dict = false → f.flags.expect_value = false

/-- The invariant of every run: the cursor and the remaining length add up to
the buffer, the live frames lie at the bottom of the block, and their flags
are consistent. -/
def RunInv (m : List Nat) (ctx : bencode) (fs : List Frame) : Prop :=
  ctx.buf + ctx.buflen = m.length ∧ Live ctx fs ∧ Tidy fs

/-! ## Pairing of Begin and End tokens -/

/-- The kinds (`true`: dictionary) of the containers that are open after a
call returned `r`, given those open before it. -/
def open_step (ks : List Bool) (r : Int) : List Bool :=
  if r = BENCODE_LIST_BEGIN then ks ++ [false]
  else if r = BENCODE_DICT_BEGIN then ks ++ [true]
  else if r = BENCODE_LIST_END ∨ r = BENCODE_DICT_END then ks.dropLast
  else ks

/-- The kinds of the Begin tokens among the return codes `rs` that no later
End token has matched, oldest first. -/
def open_kinds (rs : List Int) : List Bool := rs.foldl open_step []

/-- The number of Begin tokens among the return codes `rs`. -/
def begins (rs : List Int) : Nat :=
  rs.countP (fun r => decide (r = BENCODE_LIST_BEGIN ∨ r = BENCODE_DICT_BEGIN))

/-- The number of End tokens among the return codes `rs`. -/
def ends (rs : List Int) : Nat :=
  rs.countP (fun r => decide (r = BENCODE_LIST_END ∨ r = BENCODE_DICT_END))

/-- The next element is a dictionary key: the top frame is a dictionary that
does not await a value. -/
def key_position (ctx : bencode) : Option Bool :=
  if ctx.size ≠ 0 then
    match ctx.stack with
    | none => none
    | some blk => (blk[ctx.size - 1]?).map (fun f => f.flags.dict && !f.flags.expect_value)
  else some false

/-! ## Reusing a decoder -/

/-- Decode the text `s` with `n` calls on a fresh decoder, then call
`bencode_reinit` on the text `s2` and decode it with `n2` calls (64-bit
platform); the result is what the calls after the reinitialisation showed. -/
def redecode (s : String) (n : Nat) (s2 : String) (n2 : Nat) : Option (List (Int × List Nat)) :=
  match calls lp64 (bytes s) n (bencode_init (bytes s).length) with
  | none => none
  | some (_, ctx) => (calls lp64 (bytes s2) n2 (bencode_reinit ctx (bytes s2).length)).map Prod.fst

/-- The cursor offset `buf` after decoding the text `s` with `n` calls on a
fresh decoder (64-bit platform), together with what the calls showed. -/
def cursor_after (s : String) (n : Nat) : Option (List (Int × List Nat) × Nat) :=
  (calls lp64 (bytes s) n (bencode_init (bytes s).length)).map (fun p => (p.1, p.2.buf))

/-! ## Driving the decoder to the end -/

/-- The number of tokens (positive return codes) among what the calls showed. -/
def tokens (obs : List (Int × List Nat)) : Nat :=
  obs.countP (fun o => decide (0 < o.1))

/-- The driver loop `do r = bencode_next(ctx); while (r > 0);`, cut off after
`fuel` calls: `none` is undefined behaviour, `some none` means that the calls
allowed did not suffice, and `some (some k)` that the `k`-th call was the
first to return a value `≤ 0`. -/
def drive (P : Platform) (m : List Nat) : Nat → bencode → Option (Option Nat)
  | 0, _ => some none
  | fuel + 1, ctx =>
    match bencode_next P m ctx with
    | none => none
    | some (r, ctx1) =>
      if r ≤ 0 then some (some 1)
      else (drive P m fuel ctx1).map (Option.map (· + 1))


/-! # Cursor lemmas -/

theorem advance_zero (ctx : bencode) : advance ctx 0 = ctx := by
  cases ctx; simp [advance]

theorem advance_advance (ctx : bencode) (a b : Nat) :
    advance (advance ctx a) b = advance ctx (a + b) := by
  cases ctx; simp [advance, Nat.add_assoc, Nat.sub_sub]

theorem at_advance {m : List Nat} {ctx : bencode} (xs : List Nat) {r : List Nat}
    (h : At m ctx (xs ++ r)) : At m (advance ctx xs.length) r := by
  obtain ⟨h1, h2⟩ := h
  refine ⟨?_, ?_⟩
  · show m.drop (ctx.buf + xs.length) = r
    rw [← List.drop_drop, h1, List.drop_left]
  · show ctx.buflen - xs.length = r.length
    rw [h2, List.length_append]; omega

theorem at_getElem {m : List Nat} {ctx : bencode} {b : Nat} {rest : List Nat}
    (h : At m ctx (b :: rest)) : m[ctx.buf]? = some b := by
  have h1 := h.1
  have : (m.drop ctx.buf)[0]? = some b := by rw [h1]; simp
  simpa [List.getElem?_drop] using this

theorem at_step {m : List Nat} {ctx : bencode} {b : Nat} {rest : List Nat}
    (h : At m ctx (b :: rest)) : At m (advance ctx 1) rest :=
  at_advance [b] h

theorem get_cons {m : List Nat} {ctx : bencode} {b : Nat} {rest : List Nat}
    (h : At m ctx (b :: rest)) :
    bencode_get m ctx = some ((b : Int), advance ctx 1) := by
  have hb : ctx.buflen ≠ 0 := by rw [h.2]; simp
  simp [bencode_get, hb, at_getElem h, advance]

theorem get_nil {m : List Nat} {ctx : bencode} (h : At m ctx []) :
    bencode_get m ctx = some (-1, ctx) := by
  have hb : ctx.buflen = 0 := by rw [h.2]; simp
  simp [bencode_get, hb]

theorem peek_cons {m : List Nat} {ctx : bencode} {b : Nat} {rest : List Nat}
    (h : At m ctx (b :: rest)) : bencode_peek m ctx = some (b : Int) := by
  have hb : ctx.buflen ≠ 0 := by rw [h.2]; simp
  simp [bencode_peek, hb, at_getElem h]

theorem peek_nil {m : List Nat} {ctx : bencode} (h : At m ctx []) :
    bencode_peek m ctx = some (-1) := by
  have hb : ctx.buflen = 0 := by rw [h.2]; simp
  simp [bencode_peek, hb]

theorem is_digit_iff (b : Nat) : is_digit b = true ↔ (0x30 : Int) ≤ b ∧ (b : Int) ≤ 0x39 := by
  simp [is_digit]

theorem get_digits_succ (m : List Nat) (fuel : Nat) (ctx ctx1 : bencode) (c : Int)
    (h : bencode_get m ctx = some (c, ctx1)) :
    get_digits m (fuel + 1) ctx =
      if 0x30 ≤ c ∧ c ≤ 0x39 then get_digits m fuel ctx1 else some (c, ctx1) := by
  simp only [get_digits, h]

/-- The digit loop over a run of digits `ds` followed by a non-digit `c`. -/
theorem get_digits_run {m : List Nat} (ds : List Nat) :
    ∀ (fuel : Nat) (ctx : bencode) (c : Nat) (rest : List Nat),
      At m ctx (ds ++ c :: rest) → (∀ d ∈ ds, is_digit d = true) → is_digit c = false →
      ds.length ≤ fuel →
      get_digits m fuel ctx = some ((c : Int), advance ctx (ds.length + 1)) := by
  induction ds with
  | nil =>
    intro fuel ctx c rest h _ hc _
    have hc' : ¬ ((0x30 : Int) ≤ c ∧ (c : Int) ≤ 0x39) := by
      rw [← is_digit_iff]; simp [hc]
    cases fuel with
    | zero => simpa [get_digits] using get_cons h
    | succ n => rw [get_digits_succ m n ctx _ _ (get_cons h), if_neg hc']; rfl
  | cons d ds ih =>
    intro fuel ctx c rest h hd hc hf
    have hd' : (0x30 : Int) ≤ d ∧ (d : Int) ≤ 0x39 := by
      rw [← is_digit_iff]; exact hd d (List.mem_cons_self _ _)
    cases fuel with
    | zero => simp at hf
    | succ n =>
      have hstep := ih n (advance ctx 1) c rest (at_step h)
        (fun x hx => hd x (List.mem_cons_of_mem _ hx)) hc (by simpa using hf)
      rw [get_digits_succ m n ctx _ _ (get_cons h), if_pos hd', hstep, advance_advance]
      simp [Nat.add_comm, Nat.add_left_comm]

/-- The digit loop over a run of digits `ds` that ends the input. -/
theorem get_digits_end {m : List Nat} (ds : List Nat) :
    ∀ (fuel : Nat) (ctx : bencode),
      At m ctx ds → (∀ d ∈ ds, is_digit d = true) → ds.length ≤ fuel →
      get_digits m fuel ctx = some (-1, advance ctx ds.length) := by
  induction ds with
  | nil =>
    intro fuel ctx h _ _
    cases fuel with
    | zero => simpa [get_digits, advance_zero] using get_nil h
    | succ n =>
      rw [get_digits_succ m n ctx _ _ (get_nil h), if_neg (by decide)]
      simp [advance_zero]
  | cons d ds ih =>
    intro fuel ctx h hd hf
    have hd' : (0x30 : Int) ≤ d ∧ (d : Int) ≤ 0x39 := by
      rw [← is_digit_iff]; exact hd d (List.mem_cons_self _ _)
    cases fuel with
    | zero => simp at hf
    | succ n =>
      have hstep := ih n (advance ctx 1) (at_step h)
        (fun x hx => hd x (List.mem_cons_of_mem _ hx)) (by simpa using hf)
      rw [get_digits_succ m n ctx _ _ (get_cons h), if_pos hd', hstep, advance_advance]
      simp [Nat.add_comm]


/-! # The string recogniser -/

/-- Place-value accumulation starting from `a`. -/
theorem decval_cons (d : Nat) (ds : List Nat) :
    decval (d :: ds) = ds.foldl (fun a d => a * 10 + (d - 0x30)) (d - 0x30) := by
  simp [decval]

theorem foldl_dec_mono (ds : List Nat) :
    ∀ a : Nat, a ≤ ds.foldl (fun a d => a * 10 + (d - 0x30)) a := by
  induction ds with
  | nil => intro a; simp
  | cons d ds ih =>
    intro a
    have := ih (a * 10 + (d - 0x30))
    simp only [List.foldl_cons]
    omega

theorem decode_step_val (W t b : Nat) (hb : 0x30 ≤ b) (h : t * 10 + (b - 0x30) < W) :
    ((((t : Int) * 10 + ((b : Int) - 0x30)) % (W : Int)).toNat) = t * 10 + (b - 0x30) := by
  have e : ((t : Int) * 10 + ((b : Int) - 0x30)) = ((t * 10 + (b - 0x30) : Nat) : Int) := by
    omega
  rw [e, Int.emod_eq_of_lt (by omega) (by exact_mod_cast h)]
  exact Int.toNat_ofNat _

theorem decode_length_ok (P : Platform) {m : List Nat} (ds : List Nat) :
    ∀ (tok : Nat) (ctx : bencode) (rest : List Nat),
      m.drop tok = ds ++ rest → (∀ d ∈ ds, is_digit d = true) →
      ds.foldl (fun a d => a * 10 + (d - 0x30)) ctx.toklen < 2 ^ P.w →
      decode_length P m ds.length tok ctx =
        some (true, { ctx with toklen := ds.foldl (fun a d => a * 10 + (d - 0x30)) ctx.toklen }) := by
  induction ds with
  | nil => intro tok ctx rest _ _ _; simp [decode_length]
  | cons d ds ih =>
    intro tok ctx rest hm hd hlt
    have hget : m[tok]? = some d := by
      have : (m.drop tok)[0]? = some d := by rw [hm]; simp
      simpa [List.getElem?_drop] using this
    have hd0 : 0x30 ≤ d := by
      have := hd d (List.mem_cons_self _ _)
      simp [is_digit] at this; omega
    simp only [List.foldl_cons] at hlt ⊢
    have hmono := foldl_dec_mono ds (ctx.toklen * 10 + (d - 0x30))
    have hval := decode_step_val (2 ^ P.w) ctx.toklen d hd0 (by omega)
    have hm' : m.drop (tok + 1) = ds ++ rest := by
      rw [← List.drop_drop, hm]; simp
    have hrec := ih (tok + 1) { ctx with toklen := ctx.toklen * 10 + (d - 0x30) } rest hm'
      (fun x hx => hd x (List.mem_cons_of_mem _ hx)) hlt
    simp only [decode_length, List.length_cons, hget]
    have hcast : ((2 : Int) ^ P.w) = ((2 ^ P.w : Nat) : Int) := by push_cast; rfl
    rw [hcast, hval, if_neg (by omega), hrec]

/-- The string recogniser on `<digits>:<payload>`, the first digit `d` already
consumed from the state `ctx0`. -/
theorem string_ok (P : Platform) {m : List Nat} {ctx0 : bencode} (d : Nat) (ds s post : List Nat)
    (h : At m ctx0 (d :: (ds ++ 0x3a :: (s ++ post))))
    (hd : ∀ x ∈ d :: ds, is_digit x = true)
    (hv : decval (d :: ds) = s.length) (hw : s.length < 2 ^ P.w) :
    bencode_string P m (advance ctx0 1) =
      some (BENCODE_STRING,
        { advance ctx0 (ds.length + 2 + s.length) with
          tok := some (ctx0.buf + (ds.length + 2)), toklen := s.length }) := by
  have h1 : At m (advance ctx0 1) (ds ++ 0x3a :: (s ++ post)) := at_step h
  have hlen : ds.length ≤ (advance ctx0 1).buflen := by
    rw [h1.2]; simp
  have hrun := get_digits_run ds _ _ 0x3a (s ++ post) h1
    (fun x hx => hd x (List.mem_cons_of_mem _ hx)) (by decide) hlen
  rw [advance_advance] at hrun
  have h2 : At m (advance ctx0 (1 + (ds.length + 1))) (s ++ post) := by
    have := at_advance (d :: (ds ++ [0x3a])) (r := s ++ post) (by simpa using h)
    simpa [Nat.add_comm, Nat.add_left_comm] using this
  have hbuflen : (advance ctx0 (1 + (ds.length + 1))).buflen = (s ++ post).length := h2.2
  have hdec := decode_length_ok P (d :: ds) ctx0.buf
    { advance ctx0 (1 + (ds.length + 1)) with
      tok := some (advance ctx0 (1 + (ds.length + 1))).buf, toklen := 0 }
    (0x3a :: (s ++ post)) (by simpa using h.1) hd
    (by
      have := hv
      simp only [decval] at this
      simp only [this]; exact hw)
  have hfold : (d :: ds).foldl (fun a d => a * 10 + (d - 0x30)) 0 = s.length := hv
  have hcount : (advance ctx0 (1 + (ds.length + 1))).buf - 1 - ctx0.buf
      = (d :: ds).length := by
    simp [advance]; omega
  have htok : (advance ctx0 1).buf - 1 = ctx0.buf := by simp [advance]
  simp only [hfold] at hdec
  have hge : ¬ ((advance ctx0 (1 + (ds.length + 1))).buflen < s.length) := by
    rw [hbuflen]; simp
  simp only [bencode_string, hrun, htok, hcount]
  rw [if_neg (by decide), if_neg (by decide)]
  simp only [hdec, if_neg hge]
  simp [advance]
  omega


/-! # The integer recogniser -/

theorem canon_nat_cases {ds : List Nat} (h : canon_nat ds = true) :
    ds = [0x30] ∨ ∃ d r, ds = d :: r ∧ 0x31 ≤ d ∧ d ≤ 0x39 ∧ ∀ x ∈ r, is_digit x = true := by
  cases ds with
  | nil => simp [canon_nat] at h
  | cons d r =>
    simp only [canon_nat, Bool.or_eq_true, Bool.and_eq_true, decide_eq_true_eq,
      List.isEmpty_iff, List.all_eq_true] at h
    rcases h with ⟨h1, h2⟩ | ⟨⟨h1, h2⟩, h3⟩
    · left; rw [h1, h2]
    · right; exact ⟨d, r, rfl, h1, h2, h3⟩

theorem canon_nat_digits {ds : List Nat} (h : canon_nat ds = true) :
    ∀ x ∈ ds, is_digit x = true := by
  rcases canon_nat_cases h with rfl | ⟨d, r, rfl, h1, h2, h3⟩
  · simp [is_digit]
  · intro x hx
    rcases List.mem_cons.1 hx with rfl | hx
    · simp [is_digit]; omega
    · exact h3 x hx

theorem canon_int_cases {lit : List Nat} (h : canon_int lit = true) :
    lit = [0x30] ∨
    (∃ d r, lit = d :: r ∧ 0x31 ≤ d ∧ d ≤ 0x39 ∧ ∀ x ∈ r, is_digit x = true) ∨
    (∃ d r, lit = 0x2d :: d :: r ∧ 0x31 ≤ d ∧ d ≤ 0x39 ∧ ∀ x ∈ r, is_digit x = true) := by
  cases lit with
  | nil => simp [canon_int] at h
  | cons c ds =>
    simp only [canon_int] at h
    by_cases hc : c = 0x2d
    · subst hc
      simp only [if_true, Bool.and_eq_true, decide_eq_true_eq] at h
      rcases canon_nat_cases h.1 with h0 | ⟨d, r, rfl, h1, h2, h3⟩
      · exact absurd h0 h.2
      · right; right; exact ⟨d, r, rfl, h1, h2, h3⟩
    · rw [if_neg hc] at h
      rcases canon_nat_cases h with h0 | ⟨d, r, h0, h1, h2, h3⟩
      · left; exact h0
      · right; left; exact ⟨d, r, h0, h1, h2, h3⟩

/-- The tail of the integer recogniser on `<digits>e`, the first digit `d`
already consumed. -/
theorem integer_tail_ok {m : List Nat} {c : bencode} (t d : Nat) (r post : List Nat)
    (h : At m c (r ++ 0x65 :: post)) (htok : c.tok = some t)
    (h1 : 0x31 ≤ d) (h2 : d ≤ 0x39) (hr : ∀ x ∈ r, is_digit x = true) :
    integer_tail m (d : Int) c =
      some (BENCODE_INTEGER,
        { advance c (r.length + 1) with toklen := c.buf + (r.length + 1) - t - 1 }) := by
  have hlen : r.length ≤ c.buflen := by rw [h.2]; simp
  have hrun := get_digits_run r _ _ 0x65 post h hr (by decide) hlen
  have hd : ¬ ((d : Int) < 0x30 ∨ (d : Int) > 0x39) := by omega
  simp only [integer_tail, if_neg hd, hrun]
  rw [if_neg (by decide), if_neg (by decide)]
  have : (advance c (r.length + 1)).tok = some t := htok
  simp only [this]
  rfl

/-- The integer recogniser on a canonical literal followed by `e`. -/
theorem integer_ok {m : List Nat} {ctx : bencode} (lit post : List Nat)
    (h : At m ctx (lit ++ 0x65 :: post)) (hc : canon_int lit = true) :
    bencode_integer m ctx =
      some (BENCODE_INTEGER,
        { advance ctx (lit.length + 1) with tok := some ctx.buf, toklen := lit.length }) := by
  have hA : ∀ rest, At m ctx rest → At m { ctx with tok := some ctx.buf } rest := fun _ h => h
  rcases canon_int_cases hc with rfl | ⟨d, r, rfl, h1, h2, h3⟩ | ⟨d, r, rfl, h1, h2, h3⟩
  · have g1 := get_cons (hA _ h)
    have g2 := get_cons (at_step (hA _ h))
    simp only [bencode_integer, g1, g2, advance_advance]
    simp [advance]
  · have g1 := get_cons (hA _ h)
    have ht := integer_tail_ok (c := advance { ctx with tok := some ctx.buf } 1) ctx.buf d r post
      (at_step (hA _ h)) rfl h1 h2 h3
    have e1 : ¬ ((d : Int) = -1) := by omega
    have e2 : ¬ ((d : Int) = 0x2d) := by omega
    have e3 : ¬ ((d : Int) = 0x30) := by omega
    simp only [bencode_integer, g1, if_neg e1, if_neg e2, if_neg e3, ht, advance_advance]
    simp [advance]
    omega
  · have g1 := get_cons (hA _ h)
    have g2 := get_cons (at_step (hA _ h))
    have ht := integer_tail_ok
      (c := advance (advance { ctx with tok := some ctx.buf } 1) 1) ctx.buf d r post
      (at_step (at_step (hA _ h))) rfl h1 h2 h3
    have e1 : ¬ ((d : Int) = -1) := by omega
    have e2 : ¬ ((d : Int) < 0x31 ∨ (d : Int) > 0x39) := by omega
    rw [advance_advance] at ht g2
    simp only [bencode_integer, g1, g2, if_neg e1, if_neg e2, ht, advance_advance]
    simp [advance]
    omega


/-! # Stack lemmas and the first part of `bencode_next` -/

theorem getElem?_mid {α : Type} (fs : List α) (f : α) (junk : List α) :
    (fs ++ f :: junk)[fs.length]? = some f := by
  induction fs with
  | nil => simp
  | cons a fs ih => simpa using ih

theorem set_mid {α : Type} (fs : List α) (f g : α) (junk : List α) :
    (fs ++ f :: junk).set fs.length g = fs ++ g :: junk := by
  induction fs with
  | nil => simp
  | cons a fs ih => simp [ih]

theorem enter_top_concat (fs : List Frame) (f : Frame) :
    enter_top (fs ++ [f]) = fs ++ [entered_value f] := by
  induction fs with
  | nil => rfl
  | cons a fs ih =>
    cases fs with
    | nil => rfl
    | cons b fs =>
      show a :: enter_top (b :: (fs ++ [f])) = a :: b :: (fs ++ [entered_value f])
      rw [show enter_top (b :: (fs ++ [f])) = b :: (fs ++ [entered_value f]) from ih]

theorem enter_top_length (fs : List Frame) : (enter_top fs).length = fs.length := by
  rcases List.eq_nil_or_concat fs with rfl | ⟨fs0, f, rfl⟩
  · rfl
  · rw [List.concat_eq_append, enter_top_concat]; simp

theorem with_stack_self (ctx : bencode) : { ctx with stack := ctx.stack } = ctx := by
  cases ctx; rfl

/-- A state whose top live frame is `f`: the block behind it. -/
theorem Stk.top {ctx : bencode} {fs : List Frame} {f : Frame} (h : Stk ctx (fs ++ [f])) :
    ctx.cap = 0 ∧ ctx.size = fs.length + 1 ∧
    ∃ junk, ctx.stack = some (fs ++ f :: junk) ∧ (fs ++ f :: junk).length = 64 := by
  obtain ⟨h1, h2, h3⟩ := h
  refine ⟨h1, by simpa using h2, ?_⟩
  cases hs : ctx.stack with
  | none => rw [hs] at h3; simp at h3
  | some blk =>
    rw [hs] at h3
    obtain ⟨hl, junk, hb⟩ := h3
    refine ⟨junk, ?_, ?_⟩
    · rw [hb]; simp
    · rw [← hl, hb]; simp

theorem Stk.mk_top {ctx : bencode} {fs : List Frame} {f : Frame} {j : List Frame}
    (h1 : ctx.cap = 0) (h2 : ctx.size = fs.length + 1)
    (h3 : ctx.stack = some (fs ++ f :: j)) (h4 : (fs ++ f :: j).length = 64) :
    Stk ctx (fs ++ [f]) := by
  refine ⟨h1, by simpa using h2, ?_⟩
  rw [h3]
  exact ⟨h4, j, by simp⟩

/-- The first part of `bencode_next` in value position, in front of a byte
other than `e`. -/
theorem enter_value_pos {m : List Nat} {ctx : bencode} {fs : List Frame} {c : Nat}
    {rest : List Nat} (hs : Stk ctx fs) (hv : ValuePos fs) (h : At m ctx (c :: rest))
    (hc : c ≠ 0x65) :
    ∃ stk, next_enter m ctx = some (.go { ctx with stack := stk } none) ∧
      Stk { ctx with stack := stk } (enter_top fs) ∧ (fs = [] → stk = ctx.stack) := by
  rcases List.eq_nil_or_concat fs with rfl | ⟨fs0, f, rfl⟩
  · refine ⟨ctx.stack, ?_, ?_, fun _ => rfl⟩
    · have h0 : ctx.size = 0 := hs.2.1
      have hb : ctx.buflen ≠ 0 := by rw [h.2]; simp
      rw [with_stack_self]
      simp [next_enter, h0, hb]
    · rw [with_stack_self]; exact hs
  · rw [List.concat_eq_append] at hs hv ⊢
    obtain ⟨h1, h2, junk, h3, h4⟩ := hs.top
    have hsz : ctx.size ≠ 0 := by omega
    have hidx : ctx.size - 1 = fs0.length := by omega
    have hpeek := peek_cons h
    have hce : ¬ ((c : Int) = 0x65) := by omega
    have hvp := hv f (by simp)
    rw [enter_top_concat]
    by_cases hd : f.flags.dict = true
    · have he : f.flags.expect_value = true := by
        rcases hvp with hvp | hvp
        · rw [hd] at hvp; cases hvp
        · exact hvp
      refine ⟨some (fs0 ++ entered_value f :: junk), ?_, ?_, fun hnil => by simp at hnil⟩
      · unfold next_enter
        rw [if_pos hsz]
        simp only [h3, hidx, getElem?_mid, hpeek, hd, he, set_mid]
        simp [hce, entered_value, hd]
      · exact Stk.mk_top (j := junk) h1 h2 rfl (by simpa using h4)
    · have hd' : f.flags.dict = false := by simpa using hd
      refine ⟨some (fs0 ++ entered_value f :: junk), ?_, ?_, fun hnil => by simp at hnil⟩
      · unfold next_enter
        rw [if_pos hsz]
        simp only [h3, hidx, getElem?_mid, hd', set_mid]
        simp [entered_value, hd']
      · exact Stk.mk_top (j := junk) h1 h2 rfl (by simpa using h4)


/-! # Decimal numerals -/

theorem decval_append_single (ds : List Nat) (x : Nat) :
    decval (ds ++ [x]) = decval ds * 10 + (x - 0x30) := by
  simp [decval, List.foldl_append]

theorem dec_aux_spec : ∀ (fuel n : Nat) (acc : List Nat), n < fuel →
    ∃ ds, dec_aux fuel n acc = ds ++ acc ∧ decval ds = n ∧
      ((n = 0 ∧ ds = [0x30]) ∨
       (0 < n ∧ ∃ d r, ds = d :: r ∧ 0x31 ≤ d ∧ d ≤ 0x39 ∧ ∀ x ∈ r, is_digit x = true)) := by
  intro fuel
  induction fuel with
  | zero => intro n acc h; omega
  | succ fuel ih =>
    intro n acc h
    by_cases h10 : n < 10
    · refine ⟨[0x30 + n], by simp [dec_aux, h10], by simp [decval], ?_⟩
      by_cases h0 : n = 0
      · left; simp [h0]
      · right; exact ⟨by omega, 0x30 + n, [], rfl, by omega, by omega, by simp⟩
    · have hq : n / 10 < fuel := by omega
      obtain ⟨ds, e1, e2, e3⟩ := ih (n / 10) ((0x30 + n % 10) :: acc) hq
      refine ⟨ds ++ [0x30 + n % 10], ?_, ?_, ?_⟩
      · simp [dec_aux, h10, e1]
      · rw [decval_append_single, e2]; omega
      · right
        refine ⟨by omega, ?_⟩
        rcases e3 with ⟨e0, _⟩ | ⟨_, d, r, rfl, hd1, hd2, hr⟩
        · omega
        · refine ⟨d, r ++ [0x30 + n % 10], by simp, hd1, hd2, ?_⟩
          intro x hx
          rcases List.mem_append.1 hx with hx | hx
          · exact hr x hx
          · have : x = 0x30 + n % 10 := by simpa using hx
            simp [is_digit, this]; omega

/-- The numeral `dec n`: it is `0` or starts with a nonzero digit, and its value is `n`. -/
theorem dec_spec (n : Nat) :
    decval (dec n) = n ∧
      ((n = 0 ∧ dec n = [0x30]) ∨
       (0 < n ∧ ∃ d r, dec n = d :: r ∧ 0x31 ≤ d ∧ d ≤ 0x39 ∧ ∀ x ∈ r, is_digit x = true)) := by
  obtain ⟨ds, e1, e2, e3⟩ := dec_aux_spec (n + 1) n [] (by omega)
  have : dec n = ds := by simp [dec, e1]
  rw [this]
  exact ⟨e2, e3⟩

theorem canon_nat_dec (n : Nat) : canon_nat (dec n) = true := by
  rcases (dec_spec n).2 with ⟨_, h⟩ | ⟨_, d, r, h, h1, h2, h3⟩
  · rw [h]; rfl
  · rw [h]; simp [canon_nat, h1, h2]; right; exact h3

/-! # The `switch` of `bencode_next` on integers and strings -/

theorem switch_int (P : Platform) {m : List Nat} {ctx : bencode} (lit post : List Nat)
    (h : At m ctx (0x69 :: (lit ++ 0x65 :: post))) (hc : canon_int lit = true) :
    next_switch P m ctx =
      some (false, BENCODE_INTEGER,
        { advance ctx (lit.length + 2) with tok := some (ctx.buf + 1), toklen := lit.length }) := by
  have g := get_cons h
  have hi := integer_ok lit post (at_step h) hc
  simp only [next_switch, g]
  rw [if_neg (by decide), if_neg (by decide), if_neg (by decide), if_pos (by decide)]
  simp only [hi, advance_advance]
  simp [advance]
  omega

/-- The `switch` on `<numeral>:<payload>`. -/
theorem switch_str (P : Platform) {m : List Nat} {ctx : bencode} (ds s post : List Nat)
    (h : At m ctx (ds ++ 0x3a :: (s ++ post))) (hc : canon_nat ds = true)
    (hv : decval ds = s.length) (hw : s.length < 2 ^ P.w) :
    next_switch P m ctx =
      some (true, BENCODE_STRING,
        { advance ctx (ds.length + 1 + s.length) with
          tok := some (ctx.buf + (ds.length + 1)), toklen := s.length }) := by
  rcases canon_nat_cases hc with rfl | ⟨d, r, rfl, h1, h2, h3⟩
  · have hs : s = [] := by
      have : s.length = 0 := by rw [← hv]; rfl
      exact List.length_eq_zero.1 this
    subst hs
    have g1 := get_cons h
    have g2 := get_cons (at_step h)
    simp only [next_switch, g1, g2]
    rw [if_neg (by decide), if_neg (by decide), if_neg (by decide), if_neg (by decide),
      if_neg (by decide), if_pos (by decide), if_neg (by decide), if_neg (by decide)]
    simp [advance]
    omega
  · have g1 := get_cons h
    have hd : ∀ x ∈ d :: r, is_digit x = true := canon_nat_digits hc
    have hs := string_ok P d r s post h hd hv hw
    have e1 : ¬ ((d : Int) = -1) := by omega
    have e2 : ¬ ((d : Int) = 0x64) := by omega
    have e3 : ¬ ((d : Int) = 0x65) := by omega
    have e4 : ¬ ((d : Int) = 0x69) := by omega
    have e5 : ¬ ((d : Int) = 0x6c) := by omega
    have e6 : ¬ ((d : Int) = 0x30) := by omega
    have e7 : (0x31 : Int) ≤ d ∧ (d : Int) ≤ 0x39 := by omega
    simp only [next_switch, g1, if_neg e1, if_neg e2, if_neg e3, if_neg e4, if_neg e5,
      if_neg e6, if_pos e7, hs]
    simp [advance]


/-! # Single calls of `bencode_next` on well-formed input -/

theorem view_eq {m : List Nat} {ctx : bencode} {t : Nat} {s r : List Nat}
    (ht : ctx.tok = some t) (hl : ctx.toklen = s.length) (hm : m.drop t = s ++ r) :
    view m ctx = s := by
  simp [view, ht, hl, hm]

theorem at_drop_add {m : List Nat} {ctx : bencode} (xs : List Nat) {r : List Nat}
    (h : At m ctx (xs ++ r)) : m.drop (ctx.buf + xs.length) = r :=
  (at_advance xs h).1

theorem next_of_go (P : Platform) {m : List Nat} {ctx ctx1 : bencode} {kp : Option Nat}
    (h : next_enter m ctx = some (.go ctx1 kp)) :
    bencode_next P m ctx =
      match next_switch P m ctx1 with
      | none => none
      | some (false, r, ctx2) => some (r, ctx2)
      | some (true, r, ctx2) => next_key m kp r ctx2 := by
  unfold bencode_next
  rw [h]
  try rfl

theorem at_move {m : List Nat} {ctx ctx' : bencode} (xs : List Nat) {rest : List Nat}
    (h : At m ctx (xs ++ rest)) (hb : ctx'.buf = ctx.buf + xs.length)
    (hl : ctx'.buflen = ctx.buflen - xs.length) : At m ctx' rest := by
  have := at_advance xs h
  exact ⟨by rw [hb]; exact this.1, by rw [hl]; exact this.2⟩

/-- An integer in value position. -/
theorem step_int (P : Platform) {m : List Nat} {ctx : bencode} {fs : List Frame}
    (lit rest : List Nat) (hs : Stk ctx fs) (hv : ValuePos fs)
    (h : At m ctx (0x69 :: (lit ++ 0x65 :: rest))) (hc : canon_int lit = true) :
    ∃ ctx', bencode_next P m ctx = some (BENCODE_INTEGER, ctx') ∧ view m ctx' = lit ∧
      At m ctx' rest ∧ Stk ctx' (enter_top fs) ∧ ctx'.tok.isSome = true := by
  obtain ⟨stk, he, hs1, _⟩ := enter_value_pos hs hv h (by decide)
  have h1 : At m { ctx with stack := stk } (0x69 :: (lit ++ 0x65 :: rest)) := h
  have hsw := switch_int P lit rest h1 hc
  refine ⟨{ advance { ctx with stack := stk } (lit.length + 2) with
    tok := some (ctx.buf + 1), toklen := lit.length }, ?_, ?_, ?_, ?_, ?_⟩
  · rw [next_of_go P he, hsw]
  · refine view_eq (t := ctx.buf + 1) (r := 0x65 :: rest) rfl rfl ?_
    have := at_drop_add [0x69] (r := lit ++ 0x65 :: rest) h
    simpa using this
  · exact at_move (0x69 :: (lit ++ [0x65])) (by simpa using h)
      (by simp [advance]) (by simp [advance])
  · exact hs1
  · rfl

/-- A string in value position. -/
theorem step_str (P : Platform) {m : List Nat} {ctx : bencode} {fs : List Frame}
    (ds s rest : List Nat) (hs : Stk ctx fs) (hv : ValuePos fs)
    (h : At m ctx (ds ++ 0x3a :: (s ++ rest))) (hc : canon_nat ds = true)
    (hval : decval ds = s.length) (hw : s.length < 2 ^ P.w) :
    ∃ ctx', bencode_next P m ctx = some (BENCODE_STRING, ctx') ∧ view m ctx' = s ∧
      At m ctx' rest ∧ Stk ctx' (enter_top fs) ∧ ctx'.tok.isSome = true := by
  obtain ⟨d, r, rfl⟩ : ∃ d r, ds = d :: r := by
    cases ds with
    | nil => simp [canon_nat] at hc
    | cons d r => exact ⟨d, r, rfl⟩
  have hd : d ≠ 0x65 := by
    have := canon_nat_digits hc d (List.mem_cons_self _ _)
    simp [is_digit] at this; omega
  obtain ⟨stk, he, hs1, _⟩ := enter_value_pos hs hv (by simpa using h) hd
  have h1 : At m { ctx with stack := stk } (d :: r ++ 0x3a :: (s ++ rest)) := h
  have hsw := switch_str P (d :: r) s rest h1 hc hval hw
  refine ⟨{ advance { ctx with stack := stk } ((d :: r).length + 1 + s.length) with
    tok := some (ctx.buf + ((d :: r).length + 1)), toklen := s.length }, ?_, ?_, ?_, ?_, ?_⟩
  · rw [next_of_go P he, hsw]; rfl
  · refine view_eq (t := ctx.buf + ((d :: r).length + 1)) (r := rest) rfl rfl ?_
    have := at_drop_add (d :: r ++ [0x3a]) (r := s ++ rest) (by simpa using h)
    simpa using this
  · exact at_move (d :: r ++ 0x3a :: s) (by simpa using h)
      (by simp [advance]; omega) (by simp [advance]; omega)
  · exact hs1
  · rfl


/-! # Byte comparison and the key ordering law -/

theorem lt_cons_cons (a b : Nat) (x y : List Nat) :
    a :: x < b :: y ↔ a < b ∨ (a = b ∧ x < y) := by
  constructor
  · intro h
    cases h with
    | cons h => exact Or.inr ⟨rfl, h⟩
    | rel h => exact Or.inl h
  · rintro (h | ⟨rfl, h⟩)
    · exact List.Lex.rel h
    · exact List.Lex.cons h

theorem nil_lt_iff (y : List Nat) : ([] : List Nat) < y ↔ y ≠ [] := by
  cases y with
  | nil => simp
  | cons b y => simp; exact List.Lex.nil

theorem not_lt_nil' (x : List Nat) : ¬ x < ([] : List Nat) := by
  intro h; cases h

/-- On sequences of equal length `cmp_bytes` is the sign of the lexicographic comparison. -/
theorem cmp_bytes_spec : ∀ (x y : List Nat), x.length = y.length →
    (cmp_bytes x y < 0 ↔ x < y) ∧ (cmp_bytes x y = 0 ↔ x = y) ∧ (0 < cmp_bytes x y ↔ y < x)
  | [], [], _ => by simp [cmp_bytes]
  | [], _ :: _, h => by simp at h
  | _ :: _, [], h => by simp at h
  | a :: x, b :: y, h => by
    have ih := cmp_bytes_spec x y (by simpa using h)
    simp only [cmp_bytes, lt_cons_cons]
    by_cases h1 : a < b
    · simp only [if_pos h1]
      refine ⟨by simp [h1], by simp; omega, by simp; omega⟩
    · by_cases h2 : b < a
      · simp only [if_neg h1, if_pos h2]
        refine ⟨by simp; omega, by simp; omega, by simp [h2]⟩
      · have e : a = b := by omega
        subst e
        simp only [if_neg h1]
        simpa using ih

/-- Lexicographic order in terms of the common-length prefixes. -/
theorem lt_iff_take : ∀ (p k : List Nat),
    p < k ↔ p.take (min p.length k.length) < k.take (min p.length k.length) ∨
      (p.take (min p.length k.length) = k.take (min p.length k.length) ∧ p.length < k.length)
  | [], k => by
    cases k with
    | nil => simp
    | cons b k => simp; exact List.Lex.nil
  | a :: p, [] => by
    simp
  | a :: p, b :: k => by
    have ih := lt_iff_take p k
    have hmin : min (a :: p).length (b :: k).length = min p.length k.length + 1 := by
      simp [Nat.succ_min_succ]
    rw [hmin]
    simp only [List.take_succ_cons, lt_cons_cons, List.length_cons, List.cons.injEq]
    rw [ih]
    constructor
    · rintro (h | ⟨rfl, h | ⟨h1, h2⟩⟩)
      · exact Or.inl (Or.inl h)
      · exact Or.inl (Or.inr ⟨rfl, h⟩)
      · exact Or.inr ⟨⟨rfl, h1⟩, by omega⟩
    · rintro ((h | ⟨rfl, h⟩) | ⟨⟨rfl, h1⟩, h2⟩)
      · exact Or.inl h
      · exact Or.inr ⟨rfl, Or.inl h⟩
      · exact Or.inr ⟨rfl, Or.inr ⟨h1, by omega⟩⟩

/-- The law of spec §4.4 is strict lexicographic order. -/
theorem key_law_iff (p k : List Nat) : key_law p k = true ↔ p < k := by
  rw [lt_iff_take p k]
  simp [key_law]

theorem memcmp_eq {m : List Nat} {a b n : Nat} (ha : a + n ≤ m.length) (hb : b + n ≤ m.length) :
    memcmp m a b n = some (cmp_bytes ((m.drop a).take n) ((m.drop b).take n)) := by
  simp [memcmp, ha, hb]

theorem slice_length {m : List Nat} {a n : Nat} (h : a + n ≤ m.length) :
    ((m.drop a).take n).length = n := by
  simp; omega

/-- The three-way comparison of `bencode_next` rejects exactly the candidates
that do not sort strictly after the previous key. -/
theorem key_compare {m : List Nat} (tok toklen key keylen : Nat)
    (ht : tok + toklen ≤ m.length) (hk : key + keylen ≤ m.length) :
    (if toklen < keylen then
        (memcmp m tok key toklen).map (fun d => decide (d ≤ 0))
      else if keylen < toklen then
        (memcmp m tok key keylen).map (fun d => decide (d < 0))
      else (memcmp m tok key toklen).map (fun d => decide (d ≤ 0)))
      = some (decide ¬ ((m.drop key).take keylen < (m.drop tok).take toklen)) := by
  set K := (m.drop tok).take toklen with hK
  set Pk := (m.drop key).take keylen with hP
  have lK : K.length = toklen := slice_length ht
  have lP : Pk.length = keylen := slice_length hk
  have hlt := lt_iff_take Pk K
  rw [lK, lP] at hlt
  by_cases h1 : toklen < keylen
  · rw [if_pos h1, memcmp_eq (by omega) (by omega)]
    have hmin : min keylen toklen = toklen := by omega
    have e1 : (m.drop key).take toklen = Pk.take toklen := by
      rw [hP, List.take_take]; congr 1; omega
    have e2 : K.take toklen = K := by rw [List.take_of_length_le (by omega)]
    have sp := cmp_bytes_spec K (Pk.take toklen) (by simp [lK, lP]; omega)
    rw [hmin, e2] at hlt
    rw [← hK, e1]
    simp only [Option.map_some', Option.some.injEq, decide_eq_decide]
    rw [hlt, ← sp.2.2]
    constructor
    · intro h; omega
    · intro h; omega
  · rw [if_neg h1]
    by_cases h2 : keylen < toklen
    · rw [if_pos h2, memcmp_eq (by omega) (by omega)]
      have hmin : min keylen toklen = keylen := by omega
      have e1 : (m.drop tok).take keylen = K.take keylen := by
        rw [hK, List.take_take]; congr 1; omega
      have e2 : Pk.take keylen = Pk := by rw [List.take_of_length_le (by omega)]
      have sp := cmp_bytes_spec (K.take keylen) Pk (by simp [lK, lP]; omega)
      rw [hmin, e2] at hlt
      rw [← hP, e1]
      simp only [Option.map_some', Option.some.injEq, decide_eq_decide]
      rw [hlt, ← sp.2.2]
      have hz : Pk = K.take keylen ↔ cmp_bytes (K.take keylen) Pk = 0 := by
        rw [sp.2.1]; exact eq_comm
      constructor
      · intro h
        rintro (h' | ⟨h', _⟩)
        · omega
        · have := hz.1 h'; omega
      · intro h
        by_contra hn
        apply h
        by_cases h0 : cmp_bytes (K.take keylen) Pk = 0
        · exact Or.inr ⟨hz.2 h0, h2⟩
        · exact Or.inl (by omega)
    · rw [if_neg h2, memcmp_eq (by omega) (by omega)]
      have e : keylen = toklen := by omega
      have hmin : min keylen toklen = toklen := by omega
      have e1 : Pk.take toklen = Pk := by rw [List.take_of_length_le (by omega)]
      have e2 : K.take toklen = K := by rw [List.take_of_length_le (by omega)]
      have e3 : (m.drop key).take toklen = Pk := by rw [hP, e]
      have sp := cmp_bytes_spec K Pk (by rw [lK, lP, e])
      rw [hmin, e1, e2] at hlt
      rw [← hK, e3]
      simp only [Option.map_some', Option.some.injEq, decide_eq_decide]
      rw [hlt, ← sp.2.2]
      constructor
      · intro h; omega
      · intro h; omega


/-! # The key check of `bencode_next` -/

/-- The key check on a frame that already holds a key: the candidate is
accepted, and stored, iff it sorts strictly after the stored key. -/
theorem next_key_some {m : List Nat} {c : bencode} {blk : List Frame} {f : Frame}
    (i tok key : Nat) (hstk : c.stack = some blk) (htok : c.tok = some tok)
    (hf : blk[i]? = some f) (hkey : f.key = some key)
    (ht : tok + c.toklen ≤ m.length) (hk : key + f.keylen ≤ m.length) :
    next_key m (some i) BENCODE_STRING c =
      if (m.drop key).take f.keylen < (m.drop tok).take c.toklen then
        some (BENCODE_STRING, { c with
          stack := some (blk.set i { f with key := some tok, keylen := c.toklen }) })
      else some (BENCODE_ERROR_BAD_KEY, c) := by
  have hc := key_compare tok c.toklen key f.keylen ht hk
  unfold next_key
  simp only [hstk, htok, hf, hkey, if_true]
  by_cases h1 : c.toklen < f.keylen
  · rw [if_pos h1] at hc ⊢
    obtain ⟨d, hd, hdec⟩ := Option.map_eq_some'.1 hc
    rw [hd]
    by_cases hlt : (m.drop key).take f.keylen < (m.drop tok).take c.toklen
    · have : ¬ d ≤ 0 := by simpa [hlt] using hdec
      simp [hlt, this]
    · have : d ≤ 0 := by simpa [hlt] using hdec
      simp [hlt, this]
  · rw [if_neg h1] at hc ⊢
    by_cases h2 : f.keylen < c.toklen
    · rw [if_pos h2] at hc ⊢
      obtain ⟨d, hd, hdec⟩ := Option.map_eq_some'.1 hc
      rw [hd]
      by_cases hlt : (m.drop key).take f.keylen < (m.drop tok).take c.toklen
      · have : ¬ d < 0 := by simpa [hlt] using hdec
        simp [hlt, this]
      · have : d < 0 := by simpa [hlt] using hdec
        simp [hlt, this]
    · rw [if_neg h2] at hc ⊢
      obtain ⟨d, hd, hdec⟩ := Option.map_eq_some'.1 hc
      rw [hd]
      by_cases hlt : (m.drop key).take f.keylen < (m.drop tok).take c.toklen
      · have : ¬ d ≤ 0 := by simpa [hlt] using hdec
        simp [hlt, this]
      · have : d ≤ 0 := by simpa [hlt] using hdec
        simp [hlt, this]

/-- The key check on a frame without a key: the first key is accepted. -/
theorem next_key_none {m : List Nat} {ctx : bencode} {blk : List Frame} {f : Frame}
    (i tok : Nat) (hstk : ctx.stack = some blk) (htok : ctx.tok = some tok)
    (hf : blk[i]? = some f) (hkey : f.key = none) :
    next_key m (some i) BENCODE_STRING ctx =
      some (BENCODE_STRING, { ctx with
        stack := some (blk.set i { f with key := some tok, keylen := ctx.toklen }) }) := by
  unfold next_key
  simp only [hstk, htok, hf, hkey, if_true]

/-- The first part of `bencode_next` in key position, in front of a digit or `e`. -/
theorem enter_key_pos {m : List Nat} {ctx : bencode} {fs : List Frame} {f : Frame} {c : Nat}
    {rest : List Nat} (hs : Stk ctx (fs ++ [f])) (hd : f.flags.dict = true)
    (he : f.flags.expect_value = false) (h : At m ctx (c :: rest))
    (hc : c = 0x65 ∨ is_digit c = true) :
    ∃ junk, ctx.stack = some (fs ++ f :: junk) ∧ (fs ++ f :: junk).length = 64 ∧
      next_enter m ctx = some (.go { ctx with stack := some (fs ++
        { f with flags := { first := false, dict := true, expect_value := true } } :: junk) }
        (some fs.length)) := by
  obtain ⟨h1, h2, junk, h3, h4⟩ := hs.top
  refine ⟨junk, h3, h4, ?_⟩
  have hsz : ctx.size ≠ 0 := by omega
  have hidx : ctx.size - 1 = fs.length := by omega
  have hpeek := peek_cons h
  have hcc : ¬ ((c : Int) ≠ 0x65 ∧ ((c : Int) < 0x30 ∨ (c : Int) > 0x39)) := by
    rcases hc with hc | hc
    · subst hc; decide
    · simp [is_digit] at hc; omega
  unfold next_enter
  rw [if_pos hsz]
  simp only [h3, hidx, getElem?_mid, hpeek, hd, he, set_mid, if_true]
  rw [if_neg hcc]
  simp


/-! # Keys, container begin and container end -/

/-- An acceptable key in key position: it is returned and stored in the frame. -/
theorem step_key (P : Platform) {m : List Nat} {ctx : bencode} {fs : List Frame} {f : Frame}
    (prev : Option (List Nat)) (ds k rest : List Nat) (hs : Stk ctx (fs ++ [f]))
    (hd : f.flags.dict = true) (he : f.flags.expect_value = false) (hp : KeyIs m f prev)
    (h : At m ctx (ds ++ 0x3a :: (k ++ rest))) (hc : canon_nat ds = true)
    (hval : decval ds = k.length) (hw : k.length < 2 ^ P.w)
    (hord : ∀ p, prev = some p → p < k) :
    ∃ ctx' f', bencode_next P m ctx = some (BENCODE_STRING, ctx') ∧ view m ctx' = k ∧
      At m ctx' rest ∧ Stk ctx' (fs ++ [f']) ∧ ctx'.tok.isSome = true ∧
      f'.flags = { first := false, dict := true, expect_value := true } ∧
      KeyIs m f' (some k) := by
  obtain ⟨d, r, rfl⟩ : ∃ d r, ds = d :: r := by
    cases ds with
    | nil => simp [canon_nat] at hc
    | cons d r => exact ⟨d, r, rfl⟩
  have hdig : is_digit d = true := canon_nat_digits hc d (List.mem_cons_self _ _)
  obtain ⟨junk, h3, h4, hent⟩ := enter_key_pos hs hd he (by simpa using h) (Or.inr hdig)
  obtain ⟨hcap, hsize, _⟩ := hs.top
  set f1 : Frame := { f with flags := { first := false, dict := true, expect_value := true } }
    with hf1
  set ctx1 : bencode := { ctx with stack := some (fs ++ f1 :: junk) } with hctx1
  have h1 : At m ctx1 (d :: r ++ 0x3a :: (k ++ rest)) := h
  have hsw := switch_str P (d :: r) k rest h1 hc hval hw
  set ctx2 : bencode := { advance ctx1 ((d :: r).length + 1 + k.length) with
    tok := some (ctx1.buf + ((d :: r).length + 1)), toklen := k.length } with hctx2
  have hdrop : m.drop (ctx.buf + ((d :: r).length + 1)) = k ++ rest := by
    have := at_drop_add (d :: r ++ [0x3a]) (r := k ++ rest) (by simpa using h)
    simpa using this
  have hslice : (m.drop (ctx.buf + ((d :: r).length + 1))).take k.length = k := by
    rw [hdrop]; simp
  have hbound : ctx.buf + ((d :: r).length + 1) + k.length ≤ m.length := by
    have := congrArg List.length h.1
    simp at this ⊢
    omega
  have hnext : bencode_next P m ctx = next_key m (some fs.length) BENCODE_STRING ctx2 := by
    rw [next_of_go P hent, hsw]
  have hacc : next_key m (some fs.length) BENCODE_STRING ctx2 =
      some (BENCODE_STRING, { ctx2 with stack := some ((fs ++ f1 :: junk).set fs.length
        { f1 with key := some (ctx.buf + ((d :: r).length + 1)), keylen := k.length }) }) := by
    cases hprev : prev with
    | none =>
      rw [hprev] at hp
      exact next_key_none fs.length _ rfl rfl (getElem?_mid _ _ _) hp
    | some p =>
      rw [hprev] at hp
      obtain ⟨key, hk1, hk2, hk3⟩ := hp
      have := next_key_some (m := m) (c := ctx2) (f := f1) fs.length
        (ctx.buf + ((d :: r).length + 1)) key rfl rfl (getElem?_mid _ _ _) hk1 hbound hk2
      rw [this]
      have hlt : (m.drop key).take f1.keylen <
          (m.drop (ctx.buf + ((d :: r).length + 1))).take ctx2.toklen := by
        show (m.drop key).take f.keylen < (m.drop (ctx.buf + ((d :: r).length + 1))).take k.length
        rw [hk3, hslice]; exact hord p hprev
      rw [if_pos hlt]
  rw [set_mid] at hacc
  refine ⟨_, { f1 with key := some (ctx.buf + ((d :: r).length + 1)), keylen := k.length },
    hnext.trans hacc, ?_, ?_, ?_, rfl, rfl, ?_⟩
  · exact view_eq (t := ctx.buf + ((d :: r).length + 1)) (r := rest) rfl rfl hdrop
  · exact at_move (d :: r ++ 0x3a :: k) (by simpa using h)
      (by simp [hctx2, hctx1, advance]; omega) (by simp [hctx2, hctx1, advance]; omega)
  · exact Stk.mk_top (j := junk) hcap hsize rfl (by simpa using h4)
  · exact ⟨_, rfl, hbound, hslice⟩

/-- A key that does not sort strictly after the previous key of its
dictionary: `BENCODE_ERROR_BAD_KEY`, the view is the offending key, the stored
key stays. -/
theorem step_key_bad (P : Platform) {m : List Nat} {ctx : bencode} {fs : List Frame} {f : Frame}
    (p ds k rest : List Nat) (hs : Stk ctx (fs ++ [f]))
    (hd : f.flags.dict = true) (he : f.flags.expect_value = false) (hp : KeyIs m f (some p))
    (h : At m ctx (ds ++ 0x3a :: (k ++ rest))) (hc : canon_nat ds = true)
    (hval : decval ds = k.length) (hw : k.length < 2 ^ P.w)
    (hord : ¬ p < k) :
    ∃ ctx', bencode_next P m ctx = some (BENCODE_ERROR_BAD_KEY, ctx') ∧ view m ctx' = k ∧
      At m ctx' rest ∧
      Stk ctx' (fs ++ [{ f with flags := { first := false, dict := true, expect_value := true } }])
      := by
  obtain ⟨d, r, rfl⟩ : ∃ d r, ds = d :: r := by
    cases ds with
    | nil => simp [canon_nat] at hc
    | cons d r => exact ⟨d, r, rfl⟩
  have hdig : is_digit d = true := canon_nat_digits hc d (List.mem_cons_self _ _)
  obtain ⟨junk, h3, h4, hent⟩ := enter_key_pos hs hd he (by simpa using h) (Or.inr hdig)
  obtain ⟨hcap, hsize, _⟩ := hs.top
  set f1 : Frame := { f with flags := { first := false, dict := true, expect_value := true } }
    with hf1
  set ctx1 : bencode := { ctx with stack := some (fs ++ f1 :: junk) } with hctx1
  have h1 : At m ctx1 (d :: r ++ 0x3a :: (k ++ rest)) := h
  have hsw := switch_str P (d :: r) k rest h1 hc hval hw
  set ctx2 : bencode := { advance ctx1 ((d :: r).length + 1 + k.length) with
    tok := some (ctx1.buf + ((d :: r).length + 1)), toklen := k.length } with hctx2
  have hdrop : m.drop (ctx.buf + ((d :: r).length + 1)) = k ++ rest := by
    have := at_drop_add (d :: r ++ [0x3a]) (r := k ++ rest) (by simpa using h)
    simpa using this
  have hslice : (m.drop (ctx.buf + ((d :: r).length + 1))).take k.length = k := by
    rw [hdrop]; simp
  have hbound : ctx.buf + ((d :: r).length + 1) + k.length ≤ m.length := by
    have := congrArg List.length h.1
    simp at this ⊢
    omega
  have hnext : bencode_next P m ctx = next_key m (some fs.length) BENCODE_STRING ctx2 := by
    rw [next_of_go P hent, hsw]
  obtain ⟨key, hk1, hk2, hk3⟩ := hp
  have hrej := next_key_some (m := m) (c := ctx2) (f := f1) fs.length
    (ctx.buf + ((d :: r).length + 1)) key rfl rfl (getElem?_mid _ _ _) hk1 hbound hk2
  have hnlt : ¬ ((m.drop key).take f1.keylen <
      (m.drop (ctx.buf + ((d :: r).length + 1))).take ctx2.toklen) := by
    show ¬ ((m.drop key).take f.keylen < (m.drop (ctx.buf + ((d :: r).length + 1))).take k.length)
    rw [hk3, hslice]; exact hord
  rw [if_neg hnlt] at hrej
  refine ⟨ctx2, hnext.trans hrej, ?_, ?_, ?_⟩
  · exact view_eq (t := ctx.buf + ((d :: r).length + 1)) (r := rest) rfl rfl hdrop
  · exact at_move (d :: r ++ 0x3a :: k) (by simpa using h)
      (by simp [hctx2, hctx1, advance]; omega) (by simp [hctx2, hctx1, advance]; omega)
  · exact Stk.mk_top (j := junk) hcap hsize rfl (by simpa using h4)


theorem Stk.mk {ctx : bencode} {fs j : List Frame}
    (h1 : ctx.cap = 0) (h2 : ctx.size = fs.length)
    (h3 : ctx.stack = some (fs ++ j)) (h4 : (fs ++ j).length = 64) :
    Stk ctx fs := by
  refine ⟨h1, h2, ?_⟩
  rw [h3]
  exact ⟨h4, j, rfl⟩

/-- A push inside the first block: on a fresh decoder it allocates 64 frames,
below an open container it takes the next slot. -/
theorem push_ok (P : Platform) {ctx : bencode} {fs : List Frame} (hs : Stk ctx fs)
    (h0 : fs = [] → ctx.stack = none) (hlt : fs.length < 64) (hP : grants P) :
    ∃ j junk, bencode_push P ctx =
        some (fs.length, { ctx with stack := some (fs ++ j :: junk), size := fs.length + 1 }) ∧
      (fs ++ j :: junk).length = 64 := by
  obtain ⟨hcap, hsize, hstk⟩ := hs
  obtain ⟨hfb, hbytes, hre⟩ := hP
  rcases List.eq_nil_or_concat fs with rfl | ⟨fs0, f, hfs⟩
  · have hnone := h0 rfl
    refine ⟨P.junk, List.replicate 63 P.junk, ?_, by simp⟩
    have hsz : ctx.size = ctx.cap := by rw [hcap, hsize]; rfl
    have hmod : 64 * P.frame_bytes % 2 ^ P.w = 64 * P.frame_bytes := Nat.mod_eq_of_lt hbytes
    have hne : ¬ (64 * P.frame_bytes = 0) := by omega
    have hdiv : 64 * P.frame_bytes / P.frame_bytes = 64 := Nat.mul_div_cancel _ hfb
    unfold bencode_push
    rw [if_pos hsz]
    simp only [hnone, Option.isSome_none, Bool.false_and, hmod, if_neg hne, hre, hdiv,
      Option.getD_none, List.nil_append, List.length_nil]
    simp [hsize, List.replicate_succ]
  · have hne : fs ≠ [] := by rw [hfs]; simp
    have hsz : ¬ (ctx.size = ctx.cap) := by
      rw [hcap, hsize]
      intro h
      exact hne (List.length_eq_zero.1 h)
    cases hst : ctx.stack with
    | none => rw [hst] at hstk; exact absurd hstk hne
    | some blk =>
      rw [hst] at hstk
      obtain ⟨hl, junk, hb⟩ := hstk
      cases junk with
      | nil => rw [hb] at hl; simp at hl; omega
      | cons j junk =>
        refine ⟨j, junk, ?_, by rw [← hb]; exact hl⟩
        unfold bencode_push
        rw [if_neg hsz, hsize, ← hb, ← hst]

theorem store_mid {c : bencode} {fs junk : List Frame} {j : Frame} (g : Frame → Frame)
    (h : c.stack = some (fs ++ j :: junk)) :
    stack_store c fs.length g = some { c with stack := some (fs ++ g j :: junk) } := by
  simp only [stack_store, h, getElem?_mid, set_mid]

/-- The byte `l` in value position opens a list. -/
theorem step_open_list (P : Platform) {m : List Nat} {ctx : bencode} {fs : List Frame}
    (rest : List Nat) (hs : Stk ctx fs) (hv : ValuePos fs) (h0 : fs = [] → ctx.stack = none)
    (hlt : fs.length < 64) (hP : grants P) (h : At m ctx (0x6c :: rest)) :
    ∃ ctx' f, bencode_next P m ctx = some (BENCODE_LIST_BEGIN, ctx') ∧ At m ctx' rest ∧
      Stk ctx' (enter_top fs ++ [f]) ∧ ctx'.tok = ctx.tok ∧
      f.flags = { first := true, dict := false, expect_value := false } := by
  obtain ⟨stk, he, hs1, hstk⟩ := enter_value_pos hs hv h (by decide)
  set ctx1 : bencode := { ctx with stack := stk } with hctx1
  have h1 : At m ctx1 (0x6c :: rest) := h
  have g := get_cons h1
  have hs2 : Stk (advance ctx1 1) (enter_top fs) := hs1
  have h0' : enter_top fs = [] → (advance ctx1 1).stack = none := by
    intro hnil
    have : fs = [] := by
      have := congrArg List.length hnil
      rw [enter_top_length] at this
      exact List.length_eq_zero.1 this
    show stk = none
    rw [hstk this]; exact h0 this
  obtain ⟨j, junk, hpush, hlen⟩ := push_ok P hs2 h0' (by rw [enter_top_length]; exact hlt) hP
  have hst := store_mid (c := { advance ctx1 1 with
      stack := some (enter_top fs ++ j :: junk), size := (enter_top fs).length + 1 })
    (fun old => { old with flags := { first := true, dict := false, expect_value := false } })
    rfl
  refine ⟨{ advance ctx1 1 with
      stack := some (enter_top fs ++
        { j with flags := { first := true, dict := false, expect_value := false } } :: junk),
      size := (enter_top fs).length + 1 },
    { j with flags := { first := true, dict := false, expect_value := false } },
    ?_, ?_, ?_, ?_, rfl⟩
  · rw [next_of_go P he]
    simp only [next_switch, g]
    rw [if_neg (by decide), if_neg (by decide), if_neg (by decide), if_neg (by decide),
      if_pos (by decide)]
    simp only [hpush, hst]
  · exact at_step h1
  · exact Stk.mk_top (j := junk) hs2.1 rfl rfl (by simpa using hlen)
  · rfl

/-- The byte `d` in value position opens a dictionary. -/
theorem step_open_dict (P : Platform) {m : List Nat} {ctx : bencode} {fs : List Frame}
    (rest : List Nat) (hs : Stk ctx fs) (hv : ValuePos fs) (h0 : fs = [] → ctx.stack = none)
    (hlt : fs.length < 64) (hP : grants P) (h : At m ctx (0x64 :: rest)) :
    ∃ ctx', bencode_next P m ctx = some (BENCODE_DICT_BEGIN, ctx') ∧ At m ctx' rest ∧
      Stk ctx' (enter_top fs ++ [(⟨none, 0, ⟨true, true, false⟩⟩ : Frame)]) ∧
      ctx'.tok = ctx.tok := by
  obtain ⟨stk, he, hs1, hstk⟩ := enter_value_pos hs hv h (by decide)
  set ctx1 : bencode := { ctx with stack := stk } with hctx1
  have h1 : At m ctx1 (0x64 :: rest) := h
  have g := get_cons h1
  have hs2 : Stk (advance ctx1 1) (enter_top fs) := hs1
  have h0' : enter_top fs = [] → (advance ctx1 1).stack = none := by
    intro hnil
    have : fs = [] := by
      have := congrArg List.length hnil
      rw [enter_top_length] at this
      exact List.length_eq_zero.1 this
    show stk = none
    rw [hstk this]; exact h0 this
  obtain ⟨j, junk, hpush, hlen⟩ := push_ok P hs2 h0' (by rw [enter_top_length]; exact hlt) hP
  have hst := store_mid (c := { advance ctx1 1 with
      stack := some (enter_top fs ++ j :: junk), size := (enter_top fs).length + 1 })
    (fun _ => (⟨none, 0, ⟨true, true, false⟩⟩ : Frame))
    rfl
  refine ⟨{ advance ctx1 1 with
      stack := some (enter_top fs ++ (⟨none, 0, ⟨true, true, false⟩⟩ : Frame) :: junk),
      size := (enter_top fs).length + 1 }, ?_, ?_, ?_, ?_⟩
  · rw [next_of_go P he]
    simp only [next_switch, g]
    rw [if_neg (by decide), if_pos (by decide)]
    simp only [hpush, hst]
  · exact at_step h1
  · exact Stk.mk_top (j := junk) hs2.1 rfl rfl (by simpa using hlen)
  · rfl

/-- The byte `e` closes the open container: a list, or a dictionary that
does not await a value. -/
theorem step_close (P : Platform) {m : List Nat} {ctx : bencode} {fs : List Frame} {f : Frame}
    (rest : List Nat) (hs : Stk ctx (fs ++ [f]))
    (hf : f.flags.dict = false ∨ f.flags.expect_value = false) (h : At m ctx (0x65 :: rest)) :
    ∃ ctx', bencode_next P m ctx =
        some (if f.flags.dict then BENCODE_DICT_END else BENCODE_LIST_END, ctx') ∧
      At m ctx' rest ∧ Stk ctx' fs ∧ ctx'.tok = ctx.tok := by
  obtain ⟨hcap, hsize, junk, hstk, hlen⟩ := hs.top
  have hsz : ctx.size ≠ 0 := by omega
  have hidx : ctx.size - 1 = fs.length := by omega
  have key : ∃ f' kp, next_enter m ctx = some (.go { ctx with stack := some (fs ++ f' :: junk) } kp)
      ∧ f'.flags.dict = f.flags.dict := by
    by_cases hd : f.flags.dict = true
    · have he : f.flags.expect_value = false := by
        rcases hf with hf | hf
        · rw [hd] at hf; cases hf
        · exact hf
      obtain ⟨junk', h3, _, hent⟩ := enter_key_pos hs hd he h (Or.inl rfl)
      have : junk' = junk := by
        rw [hstk] at h3
        have := Option.some.inj h3
        simpa using this.symm
      subst this
      exact ⟨_, _, hent, by simp [hd]⟩
    · have hd' : f.flags.dict = false := by simpa using hd
      refine ⟨{ f with flags := { f.flags with first := false } }, none, ?_, rfl⟩
      unfold next_enter
      rw [if_pos hsz]
      simp only [hstk, hidx, getElem?_mid, hd', set_mid]
      simp
  obtain ⟨f', kp, hent, hdict⟩ := key
  set ctx1 : bencode := { ctx with stack := some (fs ++ f' :: junk) } with hctx1
  have h1 : At m ctx1 (0x65 :: rest) := h
  have g := get_cons h1
  have hsz1 : ¬ ((advance ctx1 1).size = 0) := hsz
  have hidx1 : (advance ctx1 1).size - 1 = fs.length := hidx
  refine ⟨{ advance ctx1 1 with size := (advance ctx1 1).size - 1 }, ?_, ?_, ?_, rfl⟩
  · rw [next_of_go P hent]
    simp only [next_switch, g]
    rw [if_neg (by decide), if_neg (by decide), if_pos (by decide), if_neg hsz1]
    have hblk : (advance ctx1 1).stack = some (fs ++ f' :: junk) := rfl
    simp only [hblk, hidx1, getElem?_mid, hdict]
    cases f.flags.dict <;> rfl
  · exact at_step h1
  · exact Stk.mk (j := f' :: junk) hcap hidx rfl (by simpa using hlen)


/-! # Sequences of calls on well-formed input -/

theorem calls_cons (P : Platform) {m : List Nat} {ctx ctx1 ctx2 : bencode} {r : Int} {n : Nat}
    {obs : List (Int × List Nat)} (h1 : bencode_next P m ctx = some (r, ctx1))
    (h2 : calls P m n ctx1 = some (obs, ctx2)) :
    calls P m (n + 1) ctx = some (observe m r ctx1 :: obs, ctx2) := by
  simp only [calls, h1, h2]

theorem calls_app (P : Platform) {m : List Nat} : ∀ (a b : Nat) {ctx c1 c2 : bencode}
    {o1 o2 : List (Int × List Nat)}, calls P m a ctx = some (o1, c1) →
    calls P m b c1 = some (o2, c2) → calls P m (a + b) ctx = some (o1 ++ o2, c2)
  | 0, b, ctx, c1, c2, o1, o2, h1, h2 => by
    simp only [calls, Option.some.injEq, Prod.mk.injEq] at h1
    obtain ⟨rfl, rfl⟩ := h1
    simpa using h2
  | a + 1, b, ctx, c1, c2, o1, o2, h1, h2 => by
    simp only [calls] at h1
    cases hn : bencode_next P m ctx with
    | none => rw [hn] at h1; cases h1
    | some x =>
      obtain ⟨r, cx⟩ := x
      rw [hn] at h1
      simp only at h1
      cases hc : calls P m a cx with
      | none => rw [hc] at h1; cases h1
      | some y =>
        obtain ⟨oa, ca⟩ := y
        rw [hc] at h1
        simp only [Option.some.injEq, Prod.mk.injEq] at h1
        obtain ⟨rfl, rfl⟩ := h1
        have := calls_app P a b hc h2
        have e : a + 1 + b = (a + b) + 1 := by omega
        rw [e, calls_cons P hn this]
        rfl

theorem calls_one (P : Platform) {m : List Nat} {ctx ctx1 : bencode} {r : Int}
    (h1 : bencode_next P m ctx = some (r, ctx1)) :
    calls P m 1 ctx = some ([observe m r ctx1], ctx1) :=
  calls_cons P h1 rfl

theorem at_length_le {m : List Nat} {ctx : bencode} {xs : List Nat} (h : At m ctx xs) :
    xs.length ≤ m.length := by
  have := congrArg List.length h.1
  simp at this
  omega

theorem entered_value_dict (f : Frame) : (entered_value f).flags.dict = f.flags.dict := by
  unfold entered_value
  cases h : f.flags.dict <;> simp [h]

theorem entered_value_key (f : Frame) (h : f.flags.dict = true) :
    entered_value f = { f with flags := { first := false, dict := true, expect_value := false } }
    := by
  simp [entered_value, h]

theorem valuePos_concat (fs : List Frame) (f : Frame)
    (h : f.flags.dict = false ∨ f.flags.expect_value = true) : ValuePos (fs ++ [f]) := by
  intro g hg
  simp at hg
  subst hg
  exact h

theorem ser_str_canon (k : List Nat) :
    canon_nat (dec k.length) = true ∧ decval (dec k.length) = k.length :=
  ⟨canon_nat_dec _, (dec_spec _).1⟩


/-! # The decoder on a well-formed value -/

theorem observe_plain (m : List Nat) (r : Int) (ctx : bencode)
    (h1 : r ≠ BENCODE_INTEGER) (h2 : r ≠ BENCODE_STRING) : observe m r ctx = (r, []) := by
  simp [observe, h1, h2]

theorem observe_int (m : List Nat) (ctx : bencode) :
    observe m BENCODE_INTEGER ctx = (BENCODE_INTEGER, view m ctx) := by
  simp [observe]

theorem observe_str (m : List Nat) (ctx : bencode) :
    observe m BENCODE_STRING ctx = (BENCODE_STRING, view m ctx) := by
  simp [observe]

mutual
/-- Decoding one well-formed value that starts under the cursor, in value
position and with room for its nesting on the stack. -/
theorem parse_value (P : Platform) (m : List Nat) (hP : grants P) (hw : m.length < 2 ^ P.w) :
    ∀ (v : Value) (ctx : bencode) (fs : List Frame) (rest : List Nat),
      wf v = true → At m ctx (ser v ++ rest) → Stk ctx fs → ValuePos fs →
      (fs = [] → ctx.stack = none) → fs.length + depth v ≤ 64 →
      ∃ ctx', calls P m (toks v).length ctx = some (toks v, ctx') ∧ At m ctx' rest ∧
        Stk ctx' (enter_top fs) ∧ ctx'.tok.isSome = (ctx.tok.isSome || leafy v)
  | .int lit, ctx, fs, rest, hwf, hat, hs, hv, _, _ => by
    simp only [wf] at hwf
    obtain ⟨ctx', h1, h2, h3, h4, h5⟩ := step_int P lit rest hs hv (by simpa [ser] using hat) hwf
    refine ⟨ctx', ?_, h3, h4, by simp [leafy, h5]⟩
    have := calls_one P h1
    rw [observe_int, h2] at this
    simpa [toks] using this
  | .str s, ctx, fs, rest, _, hat, hs, hv, _, _ => by
    have hat' : At m ctx (dec s.length ++ 0x3a :: (s ++ rest)) := by
      simpa [ser, ser_str] using hat
    have hlen : s.length < 2 ^ P.w := by
      have := at_length_le hat'
      simp at this
      omega
    obtain ⟨ctx', h1, h2, h3, h4, h5⟩ := step_str P (dec s.length) s rest hs hv hat'
      (ser_str_canon s).1 (ser_str_canon s).2 hlen
    refine ⟨ctx', ?_, h3, h4, by simp [leafy, h5]⟩
    have := calls_one P h1
    rw [observe_str, h2] at this
    simpa [toks] using this
  | .list xs, ctx, fs, rest, hwf, hat, hs, hv, h0, hd => by
    simp only [wf] at hwf
    simp only [depth] at hd
    have hat' : At m ctx (0x6c :: (serL xs ++ 0x65 :: rest)) := by simpa [ser] using hat
    obtain ⟨c1, f, a1, a2, a3, a4, a5⟩ := step_open_list P _ hs hv h0 (by omega) hP hat'
    have hfd : f.flags.dict = false := by rw [a5]
    obtain ⟨c2, f', b1, b2, b3, b4, b5⟩ := parse_items P m hP hw xs c1 (enter_top fs) f
      (0x65 :: rest) hwf a2 a3 hfd (by rw [enter_top_length]; omega)
    obtain ⟨c3, d1, d2, d3, d4⟩ := step_close P rest b3 (Or.inl b4) b2
    rw [b4] at d1
    refine ⟨c3, ?_, d2, d3, ?_⟩
    · have e1 := calls_one P a1
      have e3 := calls_one P d1
      have := calls_app P _ _ (calls_app P _ _ e1 b1) e3
      rw [observe_plain m _ _ (by decide) (by decide)] at this
      simp only [Bool.false_eq_true, if_false] at this
      rw [observe_plain m _ _ (by decide) (by decide)] at this
      simpa [toks, Nat.add_comm, Nat.add_left_comm] using this
    · rw [d4, b5, a4]; simp [leafy]
  | .dict es, ctx, fs, rest, hwf, hat, hs, hv, h0, hd => by
    simp only [wf] at hwf
    simp only [depth] at hd
    have hat' : At m ctx (0x64 :: (serD es ++ 0x65 :: rest)) := by simpa [ser] using hat
    obtain ⟨c1, a1, a2, a3, a4⟩ := step_open_dict P _ hs hv h0 (by omega) hP hat'
    obtain ⟨c2, f', b1, b2, b3, b4, b5, b6⟩ := parse_entries P m hP hw es none c1 (enter_top fs)
      (⟨none, 0, ⟨true, true, false⟩⟩ : Frame)
      (0x65 :: rest) hwf a2 a3 rfl rfl rfl (by rw [enter_top_length]; omega)
    obtain ⟨c3, d1, d2, d3, d4⟩ := step_close P rest b3 (Or.inr b5) b2
    rw [b4] at d1
    refine ⟨c3, ?_, d2, d3, ?_⟩
    · have e1 := calls_one P a1
      have e3 := calls_one P d1
      have := calls_app P _ _ (calls_app P _ _ e1 b1) e3
      rw [observe_plain m _ _ (by decide) (by decide)] at this
      simp only [if_true] at this
      rw [observe_plain m _ _ (by decide) (by decide)] at this
      simpa [toks, Nat.add_comm, Nat.add_left_comm] using this
    · rw [d4, b6, a4]; simp [leafy]
/-- Decoding the items of an open list. -/
theorem parse_items (P : Platform) (m : List Nat) (hP : grants P) (hw : m.length < 2 ^ P.w) :
    ∀ (xs : List Value) (ctx : bencode) (fs : List Frame) (f : Frame) (rest : List Nat),
      wfL xs = true → At m ctx (serL xs ++ rest) → Stk ctx (fs ++ [f]) →
      f.flags.dict = false → fs.length + 1 + depthL xs ≤ 64 →
      ∃ ctx' f', calls P m (toksL xs).length ctx = some (toksL xs, ctx') ∧ At m ctx' rest ∧
        Stk ctx' (fs ++ [f']) ∧ f'.flags.dict = false ∧
        ctx'.tok.isSome = (ctx.tok.isSome || leafyL xs)
  | [], ctx, fs, f, rest, _, hat, hs, hf, _ => by
    refine ⟨ctx, f, by simp [toksL, calls], by simpa [serL] using hat, hs, hf, by simp [leafyL]⟩
  | v :: vs, ctx, fs, f, rest, hwf, hat, hs, hf, hd => by
    simp only [wfL, Bool.and_eq_true] at hwf
    simp only [depthL] at hd
    have hat' : At m ctx (ser v ++ (serL vs ++ rest)) := by simpa [serL] using hat
    obtain ⟨c1, a1, a2, a3, a4⟩ := parse_value P m hP hw v ctx (fs ++ [f]) _ hwf.1 hat' hs
      (valuePos_concat fs f (Or.inl hf)) (by simp) (by simp; omega)
    rw [enter_top_concat] at a3
    obtain ⟨c2, f', b1, b2, b3, b4, b5⟩ := parse_items P m hP hw vs c1 fs (entered_value f) rest
      hwf.2 a2 a3 (by rw [entered_value_dict]; exact hf) (by omega)
    refine ⟨c2, f', ?_, b2, b3, b4, ?_⟩
    · have := calls_app P _ _ a1 b1
      simpa [toksL] using this
    · rw [b5, a4]; simp [leafyL, Bool.or_assoc]
/-- Decoding the entries of an open dictionary whose last key is `prev`. -/
theorem parse_entries (P : Platform) (m : List Nat) (hP : grants P) (hw : m.length < 2 ^ P.w) :
    ∀ (es : List (List Nat × Value)) (prev : Option (List Nat)) (ctx : bencode)
      (fs : List Frame) (f : Frame) (rest : List Nat),
      wfD prev es = true → At m ctx (serD es ++ rest) → Stk ctx (fs ++ [f]) →
      f.flags.dict = true → f.flags.expect_value = false → KeyIs m f prev →
      fs.length + 1 + depthD es ≤ 64 →
      ∃ ctx' f', calls P m (toksD es).length ctx = some (toksD es, ctx') ∧ At m ctx' rest ∧
        Stk ctx' (fs ++ [f']) ∧ f'.flags.dict = true ∧ f'.flags.expect_value = false ∧
        ctx'.tok.isSome = (ctx.tok.isSome || leafyD es)
  | [], prev, ctx, fs, f, rest, _, hat, hs, hf, he, _, _ => by
    refine ⟨ctx, f, by simp [toksD, calls], by simpa [serD] using hat, hs, hf, he,
      by simp [leafyD]⟩
  | (k, v) :: es, prev, ctx, fs, f, rest, hwf, hat, hs, hf, he, hk, hd => by
    simp only [wfD, Bool.and_eq_true] at hwf
    simp only [depthD] at hd
    have hat' : At m ctx (dec k.length ++ 0x3a :: (k ++ (ser v ++ (serD es ++ rest)))) := by
      simpa [serD, ser_str] using hat
    have hlen : k.length < 2 ^ P.w := by
      have := at_length_le hat'
      simp at this
      omega
    have hord : ∀ p, prev = some p → p < k := by
      intro p hp
      have := hwf.1.1
      rw [hp] at this
      simpa using this
    obtain ⟨c1, f1, a1, a2, a3, a4, a5, a6, a7⟩ := step_key P prev (dec k.length) k _ hs hf he hk
      hat' (ser_str_canon k).1 (ser_str_canon k).2 hlen hord
    have hf1d : f1.flags.dict = true := by rw [a6]
    obtain ⟨c2, b1, b2, b3, b4⟩ := parse_value P m hP hw v c1 (fs ++ [f1]) _ hwf.1.2 a3 a4
      (valuePos_concat fs f1 (Or.inr (by rw [a6]))) (by simp) (by simp; omega)
    rw [enter_top_concat, entered_value_key f1 hf1d] at b3
    obtain ⟨c3, f', d1, d2, d3, d4, d5, d6⟩ := parse_entries P m hP hw es (some k) c2 fs
      { f1 with flags := { first := false, dict := true, expect_value := false } } rest
      hwf.2 b2 b3 rfl rfl a7 (by omega)
    refine ⟨c3, f', ?_, d2, d3, d4, d5, ?_⟩
    · have e1 := calls_one P a1
      rw [observe_str, a2] at e1
      have := calls_app P _ _ (calls_app P _ _ e1 b1) d1
      simpa [toksD, Nat.add_comm, Nat.add_left_comm] using this
    · rw [d6, b4, a5]; simp [leafyD]
end


/-! # What every call preserves, on arbitrary input -/

theorem Moved.refl (ctx : bencode) : Moved ctx ctx := ⟨rfl, rfl, rfl, rfl, Nat.le_refl _⟩

theorem Moved.trans {a b c : bencode} (h1 : Moved a b) (h2 : Moved b c) : Moved a c :=
  ⟨h2.1.trans h1.1, h2.2.1.trans h1.2.1, h2.2.2.1.trans h1.2.2.1,
    h2.2.2.2.1.trans h1.2.2.2.1, Nat.le_trans h1.2.2.2.2 h2.2.2.2.2⟩

theorem get_moved {m : List Nat} {ctx ctx1 : bencode} {c : Int}
    (h : bencode_get m ctx = some (c, ctx1)) :
    Moved ctx ctx1 ∧ ctx1.tok = ctx.tok ∧ ctx1.toklen = ctx.toklen ∧
      ((c = -1 ∧ ctx1 = ctx ∧ ctx.buflen = 0) ∨
       (0 ≤ c ∧ ctx1.buf = ctx.buf + 1 ∧ ctx.buflen ≠ 0 ∧ m[ctx.buf]? = some c.toNat)) := by
  unfold bencode_get at h
  by_cases hb : ctx.buflen = 0
  · rw [if_pos hb] at h
    simp only [Option.some.injEq, Prod.mk.injEq] at h
    obtain ⟨rfl, rfl⟩ := h
    exact ⟨Moved.refl _, rfl, rfl, Or.inl ⟨rfl, rfl, hb⟩⟩
  · rw [if_neg hb] at h
    cases hg : m[ctx.buf]? with
    | none => rw [hg] at h; cases h
    | some b =>
      rw [hg] at h
      simp only [Option.some.injEq, Prod.mk.injEq] at h
      obtain ⟨rfl, rfl⟩ := h
      refine ⟨⟨rfl, rfl, rfl, ?_, ?_⟩, rfl, rfl, Or.inr ⟨by omega, rfl, hb, by simp⟩⟩
      · show ctx.buf + 1 + (ctx.buflen - 1) = ctx.buf + ctx.buflen
        omega
      · show ctx.buf ≤ ctx.buf + 1
        omega

theorem get_digits_moved {m : List Nat} : ∀ (fuel : Nat) {ctx ctx1 : bencode} {c : Int},
    get_digits m fuel ctx = some (c, ctx1) →
    Moved ctx ctx1 ∧ ctx1.tok = ctx.tok ∧ ctx1.toklen = ctx.toklen ∧
      (c = -1 ∨ (0 ≤ c ∧ ctx.buf < ctx1.buf))
  | 0, ctx, ctx1, c, h => by
    obtain ⟨h1, h2, h3, h4⟩ := get_moved (show bencode_get m ctx = some (c, ctx1) from h)
    refine ⟨h1, h2, h3, ?_⟩
    rcases h4 with ⟨h4, _⟩ | ⟨h4, h5, _⟩
    · exact Or.inl h4
    · exact Or.inr ⟨h4, by omega⟩
  | fuel + 1, ctx, ctx1, c, h => by
    simp only [get_digits] at h
    cases hg : bencode_get m ctx with
    | none => rw [hg] at h; cases h
    | some x =>
      obtain ⟨c0, cx⟩ := x
      rw [hg] at h
      simp only at h
      obtain ⟨g1, g2, g3, g4⟩ := get_moved hg
      by_cases hd : 0x30 ≤ c0 ∧ c0 ≤ 0x39
      · rw [if_pos hd] at h
        obtain ⟨i1, i2, i3, i4⟩ := get_digits_moved fuel h
        refine ⟨g1.trans i1, i2.trans g2, i3.trans g3, ?_⟩
        rcases i4 with i4 | ⟨i4, i5⟩
        · exact Or.inl i4
        · exact Or.inr ⟨i4, Nat.lt_of_le_of_lt g1.2.2.2.2 i5⟩
      · rw [if_neg hd] at h
        simp only [Option.some.injEq, Prod.mk.injEq] at h
        obtain ⟨rfl, rfl⟩ := h
        refine ⟨g1, g2, g3, ?_⟩
        rcases g4 with ⟨g4, _⟩ | ⟨g4, g5, _⟩
        · exact Or.inl g4
        · exact Or.inr ⟨g4, by omega⟩

/-- The exit condition of the digit loop: the byte it stops at is not a digit. -/
theorem get_digits_exit {m : List Nat} : ∀ (fuel : Nat) {ctx ctx1 : bencode} {c : Int},
    ctx.buflen ≤ fuel → get_digits m fuel ctx = some (c, ctx1) → ¬ (0x30 ≤ c ∧ c ≤ 0x39)
  | 0, ctx, ctx1, c, hf, h => by
    have hb : ctx.buflen = 0 := by omega
    simp only [get_digits, bencode_get, if_pos hb, Option.some.injEq, Prod.mk.injEq] at h
    obtain ⟨rfl, _⟩ := h
    decide
  | fuel + 1, ctx, ctx1, c, hf, h => by
    simp only [get_digits] at h
    cases hg : bencode_get m ctx with
    | none => rw [hg] at h; cases h
    | some x =>
      obtain ⟨c0, cx⟩ := x
      rw [hg] at h
      simp only at h
      obtain ⟨g1, _, _, g4⟩ := get_moved hg
      by_cases hd : 0x30 ≤ c0 ∧ c0 ≤ 0x39
      · rw [if_pos hd] at h
        have hcx : cx.buflen ≤ fuel := by
          rcases g4 with ⟨g4, _⟩ | ⟨_, g5, g6, _⟩
          · omega
          · have := g1.2.2.2.1; omega
        exact get_digits_exit fuel hcx h
      · rw [if_neg hd] at h
        simp only [Option.some.injEq, Prod.mk.injEq] at h
        obtain ⟨rfl, _⟩ := h
        exact hd

theorem integer_tail_moved {m : List Nat} {ctx ctx1 : bencode} {c r : Int}
    (h : integer_tail m c ctx = some (r, ctx1)) :
    Moved ctx ctx1 ∧ ctx1.tok = ctx.tok ∧
      (r = BENCODE_INTEGER ∨ r = BENCODE_ERROR_INVALID ∨ r = BENCODE_ERROR_EOF) := by
  unfold integer_tail at h
  by_cases h1 : c < 0x30 ∨ c > 0x39
  · rw [if_pos h1] at h
    simp only [Option.some.injEq, Prod.mk.injEq] at h
    obtain ⟨rfl, rfl⟩ := h
    exact ⟨Moved.refl _, rfl, Or.inr (Or.inl rfl)⟩
  · rw [if_neg h1] at h
    cases hg : get_digits m ctx.buflen ctx with
    | none => rw [hg] at h; cases h
    | some x =>
      obtain ⟨c1, cx⟩ := x
      rw [hg] at h
      simp only at h
      obtain ⟨g1, g2, _, _⟩ := get_digits_moved _ hg
      by_cases h2 : c1 = -1
      · rw [if_pos h2] at h
        simp only [Option.some.injEq, Prod.mk.injEq] at h
        obtain ⟨rfl, rfl⟩ := h
        exact ⟨g1, g2, Or.inr (Or.inr rfl)⟩
      · rw [if_neg h2] at h
        by_cases h3 : c1 ≠ 0x65
        · rw [if_pos h3] at h
          simp only [Option.some.injEq, Prod.mk.injEq] at h
          obtain ⟨rfl, rfl⟩ := h
          exact ⟨g1, g2, Or.inr (Or.inl rfl)⟩
        · rw [if_neg h3] at h
          cases ht : cx.tok with
          | none => rw [ht] at h; cases h
          | some t =>
            rw [ht] at h
            simp only [Option.some.injEq, Prod.mk.injEq] at h
            obtain ⟨rfl, rfl⟩ := h
            refine ⟨g1, ?_, Or.inl rfl⟩
            show some t = ctx.tok
            rw [← ht, g2]

theorem integer_moved {m : List Nat} {ctx ctx1 : bencode} {r : Int}
    (h : bencode_integer m ctx = some (r, ctx1)) :
    Moved ctx ctx1 ∧ ctx1.tok = some ctx.buf ∧
      (r = BENCODE_INTEGER ∨ r = BENCODE_ERROR_INVALID ∨ r = BENCODE_ERROR_EOF) := by
  unfold bencode_integer at h
  simp only at h
  cases hg : bencode_get m { ctx with tok := some ctx.buf } with
  | none => rw [hg] at h; cases h
  | some x =>
    obtain ⟨c, cx⟩ := x
    rw [hg] at h
    simp only at h
    obtain ⟨g1, g2, _, _⟩ := get_moved hg
    have g1' : Moved ctx cx := g1
    have g2' : cx.tok = some ctx.buf := g2
    by_cases h1 : c = -1
    · rw [if_pos h1] at h
      simp only [Option.some.injEq, Prod.mk.injEq] at h
      obtain ⟨rfl, rfl⟩ := h
      exact ⟨g1', g2', Or.inr (Or.inr rfl)⟩
    · rw [if_neg h1] at h
      by_cases h2 : c = 0x2d
      · rw [if_pos h2] at h
        cases hg2 : bencode_get m cx with
        | none => rw [hg2] at h; cases h
        | some y =>
          obtain ⟨c2, cy⟩ := y
          rw [hg2] at h
          simp only at h
          obtain ⟨k1, k2, _, _⟩ := get_moved hg2
          by_cases h3 : c2 = -1
          · rw [if_pos h3] at h
            simp only [Option.some.injEq, Prod.mk.injEq] at h
            obtain ⟨rfl, rfl⟩ := h
            exact ⟨g1'.trans k1, k2.trans g2', Or.inr (Or.inr rfl)⟩
          · rw [if_neg h3] at h
            by_cases h4 : c2 < 0x31 ∨ c2 > 0x39
            · rw [if_pos h4] at h
              simp only [Option.some.injEq, Prod.mk.injEq] at h
              obtain ⟨rfl, rfl⟩ := h
              exact ⟨g1'.trans k1, k2.trans g2', Or.inr (Or.inl rfl)⟩
            · rw [if_neg h4] at h
              obtain ⟨t1, t2, t3⟩ := integer_tail_moved h
              exact ⟨(g1'.trans k1).trans t1, (t2.trans k2).trans g2', t3⟩
      · rw [if_neg h2] at h
        by_cases h5 : c = 0x30
        · rw [if_pos h5] at h
          cases hg2 : bencode_get m cx with
          | none => rw [hg2] at h; cases h
          | some y =>
            obtain ⟨c2, cy⟩ := y
            rw [hg2] at h
            simp only at h
            obtain ⟨k1, k2, _, _⟩ := get_moved hg2
            by_cases h3 : c2 = -1
            · rw [if_pos h3] at h
              simp only [Option.some.injEq, Prod.mk.injEq] at h
              obtain ⟨rfl, rfl⟩ := h
              exact ⟨g1'.trans k1, k2.trans g2', Or.inr (Or.inr rfl)⟩
            · rw [if_neg h3] at h
              by_cases h4 : c2 ≠ 0x65
              · rw [if_pos h4] at h
                simp only [Option.some.injEq, Prod.mk.injEq] at h
                obtain ⟨rfl, rfl⟩ := h
                exact ⟨g1'.trans k1, k2.trans g2', Or.inr (Or.inl rfl)⟩
              · rw [if_neg h4] at h
                simp only [Option.some.injEq, Prod.mk.injEq] at h
                obtain ⟨rfl, rfl⟩ := h
                exact ⟨g1'.trans k1, k2.trans g2', Or.inl rfl⟩
        · rw [if_neg h5] at h
          obtain ⟨t1, t2, t3⟩ := integer_tail_moved h
          exact ⟨g1'.trans t1, t2.trans g2', t3⟩

theorem decode_length_frame (P : Platform) {m : List Nat} : ∀ (k tok : Nat)
    {ctx ctx1 : bencode} {b : Bool}, decode_length P m k tok ctx = some (b, ctx1) →
    ctx1 = { ctx with toklen := ctx1.toklen }
  | 0, tok, ctx, ctx1, b, h => by
    simp only [decode_length, Option.some.injEq, Prod.mk.injEq] at h
    obtain ⟨_, rfl⟩ := h
    rfl
  | k + 1, tok, ctx, ctx1, b, h => by
    simp only [decode_length] at h
    cases hg : m[tok]? with
    | none => rw [hg] at h; cases h
    | some x =>
      rw [hg] at h
      simp only at h
      split at h
      · simp only [Option.some.injEq, Prod.mk.injEq] at h
        obtain ⟨_, rfl⟩ := h
        rfl
      · have := decode_length_frame P k (tok + 1) h
        rw [this]

theorem string_moved (P : Platform) {m : List Nat} {ctx ctx1 : bencode} {r : Int}
    (h : bencode_string P m ctx = some (r, ctx1)) :
    Moved ctx ctx1 ∧
      ((r = BENCODE_STRING ∧ ∃ t, ctx1.tok = some t ∧ t + ctx1.toklen = ctx1.buf ∧ ctx.buf ≤ t) ∨
        r = BENCODE_ERROR_INVALID ∨ r = BENCODE_ERROR_EOF) := by
  unfold bencode_string at h
  simp only at h
  cases hg : get_digits m ctx.buflen ctx with
  | none => rw [hg] at h; cases h
  | some x =>
    obtain ⟨c, cx⟩ := x
    rw [hg] at h
    simp only at h
    obtain ⟨g1, _, _, _⟩ := get_digits_moved _ hg
    by_cases h1 : c = -1
    · rw [if_pos h1] at h
      simp only [Option.some.injEq, Prod.mk.injEq] at h
      obtain ⟨rfl, rfl⟩ := h
      exact ⟨g1, Or.inr (Or.inr rfl)⟩
    · rw [if_neg h1] at h
      by_cases h2 : c ≠ 0x3a
      · rw [if_pos h2] at h
        simp only [Option.some.injEq, Prod.mk.injEq] at h
        obtain ⟨rfl, rfl⟩ := h
        exact ⟨g1, Or.inr (Or.inl rfl)⟩
      · rw [if_neg h2] at h
        cases hd : decode_length P m (cx.buf - 1 - (ctx.buf - 1)) (ctx.buf - 1)
            { cx with tok := some cx.buf, toklen := 0 } with
        | none => rw [hd] at h; cases h
        | some y =>
          obtain ⟨b, cy⟩ := y
          rw [hd] at h
          have hfr := decode_length_frame P _ _ hd
          have e1 : cy.stack = cx.stack := by rw [hfr]
          have e2 : cy.cap = cx.cap := by rw [hfr]
          have e3 : cy.size = cx.size := by rw [hfr]
          have e4 : cy.buf = cx.buf := by rw [hfr]
          have e5 : cy.buflen = cx.buflen := by rw [hfr]
          have e6 : cy.tok = some cx.buf := by rw [hfr]
          have hcy : Moved ctx cy :=
            ⟨e1.trans g1.1, e2.trans g1.2.1, e3.trans g1.2.2.1,
              by rw [e4, e5]; exact g1.2.2.2.1, by rw [e4]; exact g1.2.2.2.2⟩
          cases b with
          | false =>
            simp only [Option.some.injEq, Prod.mk.injEq] at h
            obtain ⟨rfl, rfl⟩ := h
            exact ⟨hcy, Or.inr (Or.inr rfl)⟩
          | true =>
            simp only at h
            by_cases h3 : cy.buflen < cy.toklen
            · rw [if_pos h3] at h
              simp only [Option.some.injEq, Prod.mk.injEq] at h
              obtain ⟨rfl, rfl⟩ := h
              exact ⟨hcy, Or.inr (Or.inr rfl)⟩
            · rw [if_neg h3] at h
              simp only [Option.some.injEq, Prod.mk.injEq] at h
              obtain ⟨rfl, rfl⟩ := h
              refine ⟨⟨hcy.1, hcy.2.1, hcy.2.2.1, ?_, ?_⟩, Or.inl ⟨rfl, cx.buf, e6, ?_, ?_⟩⟩
              · show cy.buf + cy.toklen + (cy.buflen - cy.toklen) = ctx.buf + ctx.buflen
                have := hcy.2.2.2.1; omega
              · show ctx.buf ≤ cy.buf + cy.toklen
                have := hcy.2.2.2.2; omega
              · show cx.buf + cy.toklen = cy.buf + cy.toklen
                rw [e4]
              · exact g1.2.2.2.2

/-- A byte that `bencode_get` returns is the byte that `bencode_peek` shows. -/
theorem peek_of_get {m : List Nat} {ctx cx : bencode} {c : Int}
    (h : bencode_get m ctx = some (c, cx)) (hc : c ≠ -1) : bencode_peek m ctx = some c := by
  unfold bencode_get at h
  unfold bencode_peek
  by_cases hb : ctx.buflen = 0
  · rw [if_pos hb] at h
    simp only [Option.some.injEq, Prod.mk.injEq] at h
    exact absurd h.1.symm hc
  · rw [if_neg hb] at h ⊢
    cases hm : m[ctx.buf]? with
    | none => rw [hm] at h; cases h
    | some x =>
      rw [hm] at h
      simp only [Option.some.injEq, Prod.mk.injEq] at h ⊢
      exact h.1

theorem peek_congr {m : List Nat} {ctx cx : bencode} (h1 : cx.buf = ctx.buf)
    (h2 : cx.buflen = ctx.buflen) : bencode_peek m cx = bencode_peek m ctx := by
  unfold bencode_peek
  rw [h1, h2]

theorem integer_tail_view {m : List Nat} {ctx ctx1 : bencode} {c r : Int}
    (h : integer_tail m c ctx = some (r, ctx1)) (hr : r = BENCODE_INTEGER) (t : Nat)
    (ht : ctx.tok = some t) (hle : t ≤ ctx.buf) : t + ctx1.toklen ≤ ctx1.buf := by
  unfold integer_tail at h
  by_cases h1 : c < 0x30 ∨ c > 0x39
  · rw [if_pos h1] at h
    simp only [Option.some.injEq, Prod.mk.injEq] at h
    rw [← h.1] at hr
    exact absurd hr (by decide)
  · rw [if_neg h1] at h
    cases hg : get_digits m ctx.buflen ctx with
    | none => rw [hg] at h; cases h
    | some x =>
      obtain ⟨c1, cx⟩ := x
      rw [hg] at h
      simp only at h
      obtain ⟨g1, g2, _, _⟩ := get_digits_moved _ hg
      by_cases h2 : c1 = -1
      · rw [if_pos h2] at h
        simp only [Option.some.injEq, Prod.mk.injEq] at h
        rw [← h.1] at hr
        exact absurd hr (by decide)
      · rw [if_neg h2] at h
        by_cases h3 : c1 ≠ 0x65
        · rw [if_pos h3] at h
          simp only [Option.some.injEq, Prod.mk.injEq] at h
          rw [← h.1] at hr
          exact absurd hr (by decide)
        · rw [if_neg h3] at h
          cases ht1 : cx.tok with
          | none => rw [ht1] at h; cases h
          | some t1 =>
            rw [ht1] at h
            simp only [Option.some.injEq, Prod.mk.injEq] at h
            obtain ⟨_, rfl⟩ := h
            have e : t1 = t := by
              rw [g2, ht] at ht1
              exact (Option.some.inj ht1).symm
            have hb := g1.2.2.2.2
            show t + (cx.buf - t1 - 1) ≤ cx.buf
            omega

theorem integer_view {m : List Nat} {ctx ctx1 : bencode} {r : Int}
    (h : bencode_integer m ctx = some (r, ctx1)) (hr : r = BENCODE_INTEGER) :
    ctx.buf + ctx1.toklen ≤ ctx1.buf := by
  unfold bencode_integer at h
  simp only at h
  cases hg : bencode_get m { ctx with tok := some ctx.buf } with
  | none => rw [hg] at h; cases h
  | some x =>
    obtain ⟨c, cx⟩ := x
    rw [hg] at h
    simp only at h
    obtain ⟨g1, g2, _, g4⟩ := get_moved hg
    have g1' : ctx.buf ≤ cx.buf := g1.2.2.2.2
    have g2' : cx.tok = some ctx.buf := g2
    by_cases h1 : c = -1
    · rw [if_pos h1] at h
      simp only [Option.some.injEq, Prod.mk.injEq] at h
      rw [← h.1] at hr
      exact absurd hr (by decide)
    · rw [if_neg h1] at h
      have g5 : cx.buf = ctx.buf + 1 := by
        rcases g4 with ⟨g4, _⟩ | ⟨_, g4, _⟩
        · exact absurd g4 h1
        · exact g4
      by_cases h2 : c = 0x2d
      · rw [if_pos h2] at h
        cases hg2 : bencode_get m cx with
        | none => rw [hg2] at h; cases h
        | some y =>
          obtain ⟨c2, cy⟩ := y
          rw [hg2] at h
          simp only at h
          obtain ⟨k1, k2, _, _⟩ := get_moved hg2
          by_cases h3 : c2 = -1
          · rw [if_pos h3] at h
            simp only [Option.some.injEq, Prod.mk.injEq] at h
            rw [← h.1] at hr
            exact absurd hr (by decide)
          · rw [if_neg h3] at h
            by_cases h4 : c2 < 0x31 ∨ c2 > 0x39
            · rw [if_pos h4] at h
              simp only [Option.some.injEq, Prod.mk.injEq] at h
              rw [← h.1] at hr
              exact absurd hr (by decide)
            · rw [if_neg h4] at h
              have hb := k1.2.2.2.2
              exact integer_tail_view h hr ctx.buf (k2.trans g2') (by omega)
      · rw [if_neg h2] at h
        by_cases h5 : c = 0x30
        · rw [if_pos h5] at h
          cases hg2 : bencode_get m cx with
          | none => rw [hg2] at h; cases h
          | some y =>
            obtain ⟨c2, cy⟩ := y
            rw [hg2] at h
            simp only at h
            obtain ⟨k1, k2, _, _⟩ := get_moved hg2
            by_cases h3 : c2 = -1
            · rw [if_pos h3] at h
              simp only [Option.some.injEq, Prod.mk.injEq] at h
              rw [← h.1] at hr
              exact absurd hr (by decide)
            · rw [if_neg h3] at h
              by_cases h4 : c2 ≠ 0x65
              · rw [if_pos h4] at h
                simp only [Option.some.injEq, Prod.mk.injEq] at h
                rw [← h.1] at hr
                exact absurd hr (by decide)
              · rw [if_neg h4] at h
                simp only [Option.some.injEq, Prod.mk.injEq] at h
                obtain ⟨_, rfl⟩ := h
                have hb := k1.2.2.2.2
                show ctx.buf + 1 ≤ cy.buf
                omega
        · rw [if_neg h5] at h
          exact integer_tail_view h hr ctx.buf g2' (by omega)


/-! # Whole messages -/

theorem at_init (m : List Nat) : At m (bencode_init m.length) m := ⟨rfl, rfl⟩

theorem stk_init (n : Nat) : Stk (bencode_init n) [] := ⟨rfl, rfl, rfl⟩

theorem valuePos_nil : ValuePos [] := by
  intro f hf; simp at hf

/-- A fresh decoder on a well-formed value followed by `rest`: the calls
return the pre-order tokens of the value and stop in front of `rest` with an
empty stack. -/
theorem decode_value (P : Platform) (v : Value) (rest : List Nat) (hP : grants P)
    (hw : (ser v ++ rest).length < 2 ^ P.w) (hwf : wf v = true) (hd : depth v ≤ 64) :
    ∃ ctx', calls P (ser v ++ rest) (toks v).length (bencode_init (ser v ++ rest).length) =
        some (toks v, ctx') ∧
      At (ser v ++ rest) ctx' rest ∧ Stk ctx' [] ∧ ctx'.tok.isSome = leafy v := by
  obtain ⟨ctx', h1, h2, h3, h4⟩ := parse_value P (ser v ++ rest) hP hw v
    (bencode_init (ser v ++ rest).length) [] rest hwf (at_init _) (stk_init _) valuePos_nil
    (fun _ => rfl) (by simpa using hd)
  exact ⟨ctx', h1, h2, h3, by simpa [bencode_init] using h4⟩

/-- A call with no open container and no input left. -/
theorem next_at_end (P : Platform) {m : List Nat} {ctx : bencode} (hs : Stk ctx [])
    (h : At m ctx []) :
    bencode_next P m ctx =
      some (if ctx.tok.isSome then BENCODE_DONE else BENCODE_ERROR_EOF, ctx) := by
  have h0 : ctx.size = 0 := hs.2.1
  have hb : ctx.buflen = 0 := h.2
  simp [bencode_next, next_enter, h0, hb]

/-- A call with no open container in front of a byte that starts no value. -/
theorem next_garbage (P : Platform) {m : List Nat} {ctx : bencode} (c : Nat) (rest : List Nat)
    (hs : Stk ctx []) (h : At m ctx (c :: rest))
    (hc : c ≠ 0x69 ∧ c ≠ 0x6c ∧ c ≠ 0x64 ∧ is_digit c = false) :
    bencode_next P m ctx = some (BENCODE_ERROR_INVALID, advance ctx 1) := by
  have h0 : ctx.size = 0 := hs.2.1
  have hb : ctx.buflen ≠ 0 := by rw [h.2]; simp
  have hent : next_enter m ctx = some (.go ctx none) := by
    simp [next_enter, h0, hb]
  have g := get_cons h
  have hsz : (advance ctx 1).size = 0 := h0
  obtain ⟨c1, c2, c3, c4⟩ := hc
  have hdig : ¬ ((0x30 : Int) ≤ c ∧ (c : Int) ≤ 0x39) := by
    rw [← is_digit_iff]; simp [c4]
  have e1 : ¬ ((c : Int) = -1) := by omega
  have e2 : ¬ ((c : Int) = 0x64) := by omega
  have e4 : ¬ ((c : Int) = 0x69) := by omega
  have e5 : ¬ ((c : Int) = 0x6c) := by omega
  have e6 : ¬ ((c : Int) = 0x30) := by omega
  have e7 : ¬ ((0x31 : Int) ≤ c ∧ (c : Int) ≤ 0x39) := by omega
  rw [next_of_go P hent]
  by_cases e3 : (c : Int) = 0x65
  · simp only [next_switch, g, if_neg e1, if_neg e2, if_pos e3, hsz, if_true]
  · simp only [next_switch, g, if_neg e1, if_neg e2, if_neg e3, if_neg e4, if_neg e5, if_neg e6,
      if_neg e7]
    rfl


/-! # The parts of `bencode_next` on arbitrary input -/

theorem push_cases (P : Platform) {ctx ctx1 : bencode} {i : Nat}
    (h : bencode_push P ctx = some (i, ctx1)) :
    i = ctx.size ∧ ∃ stk, ctx1 = { ctx with stack := stk, size := ctx.size + 1 } ∧
      ((ctx.size ≠ ctx.cap ∧ stk = ctx.stack) ∨
       (ctx.size = ctx.cap ∧ (ctx.stack = none ∨ (ctx.cap * 2) % 2 ^ P.w ≠ 0) ∧
          ∃ n, stk = some ((ctx.stack.getD [] ++ List.replicate n P.junk).take n))) := by
  unfold bencode_push at h
  by_cases h1 : ctx.size = ctx.cap
  · rw [if_pos h1] at h
    cases hs : ctx.stack with
    | none =>
      rw [hs] at h
      simp only [Option.isSome_none, Bool.false_and, Bool.false_eq_true, if_false] at h
      by_cases h3 : 64 * P.frame_bytes % 2 ^ P.w = 0
      · rw [if_pos h3] at h; cases h
      · rw [if_neg h3] at h
        by_cases h4 : P.realloc_ok (64 * P.frame_bytes % 2 ^ P.w) = false
        · rw [if_pos h4] at h; cases h
        · rw [if_neg h4] at h
          simp only [Option.some.injEq, Prod.mk.injEq] at h
          obtain ⟨rfl, rfl⟩ := h
          exact ⟨rfl, _, rfl, Or.inr ⟨h1, Or.inl rfl, _, rfl⟩⟩
    | some blk =>
      rw [hs] at h
      simp only [Option.isSome_some, Bool.true_and, decide_eq_true_eq] at h
      by_cases h2 : ctx.cap * 2 % 2 ^ P.w = 0
      · rw [if_pos h2] at h; cases h
      · rw [if_neg h2] at h
        by_cases h3 : ctx.cap * 2 % 2 ^ P.w * P.frame_bytes % 2 ^ P.w = 0
        · rw [if_pos h3] at h; cases h
        · rw [if_neg h3] at h
          by_cases h4 : P.realloc_ok (ctx.cap * 2 % 2 ^ P.w * P.frame_bytes % 2 ^ P.w) = false
          · rw [if_pos h4] at h; cases h
          · rw [if_neg h4] at h
            simp only [Option.some.injEq, Prod.mk.injEq] at h
            obtain ⟨rfl, rfl⟩ := h
            exact ⟨rfl, _, rfl, Or.inr ⟨h1, Or.inr h2, _, rfl⟩⟩
  · rw [if_neg h1] at h
    simp only [Option.some.injEq, Prod.mk.injEq] at h
    obtain ⟨rfl, rfl⟩ := h
    exact ⟨rfl, ctx.stack, rfl, Or.inl ⟨h1, rfl⟩⟩

theorem store_cases {ctx ctx1 : bencode} {i : Nat} {g : Frame → Frame}
    (h : stack_store ctx i g = some ctx1) :
    ∃ blk old, ctx.stack = some blk ∧ blk[i]? = some old ∧
      ctx1 = { ctx with stack := some (blk.set i (g old)) } := by
  unfold stack_store at h
  cases hs : ctx.stack with
  | none => rw [hs] at h; cases h
  | some blk =>
    rw [hs] at h
    simp only at h
    cases hb : blk[i]? with
    | none => rw [hb] at h; cases h
    | some old =>
      rw [hb] at h
      simp only [Option.some.injEq] at h
      exact ⟨blk, old, rfl, hb, h.symm⟩

theorem leaf_plain {m : List Nat} {ctx ctx1 : bencode} {r : Int} (h1 : r ≠ BENCODE_INTEGER)
    (h2 : r ≠ BENCODE_ERROR_OOM) (h3 : r ≠ BENCODE_STRING) :
    (r = BENCODE_INTEGER → bencode_peek m ctx = some 0x69 ∧
        ∃ t, ctx1.tok = some t ∧ ctx.buf < t ∧ t + ctx1.toklen ≤ ctx1.buf) ∧
      (r = BENCODE_ERROR_OOM →
        bencode_peek m ctx = some 0x64 ∨ bencode_peek m ctx = some 0x6c) ∧
      (r = BENCODE_STRING → ∃ c, bencode_peek m ctx = some c ∧ 0x30 ≤ c ∧ c ≤ 0x39) :=
  ⟨fun h => absurd h h1, fun h => absurd h h2, fun h => absurd h h3⟩

theorem switch_cases (P : Platform) {m : List Nat} {ctx ctx1 : bencode} {b : Bool} {r : Int}
    (h : next_switch P m ctx = some (b, r, ctx1)) : SwitchCase P m ctx b r ctx1 := by
  unfold next_switch at h
  cases hg : bencode_get m ctx with
  | none => rw [hg] at h; cases h
  | some x =>
    obtain ⟨c, cx⟩ := x
    rw [hg] at h
    simp only at h
    obtain ⟨g1, g2, g3, g4⟩ := get_moved hg
    by_cases c1 : c = -1
    · rw [if_pos c1] at h
      simp only [Option.some.injEq, Prod.mk.injEq] at h
      obtain ⟨rfl, rfl, rfl⟩ := h
      exact .leaf _ _ _ g1 (Or.inl rfl) (fun _ => by decide) (leaf_plain (by decide) (by decide) (by decide))
    rw [if_neg c1] at h
    by_cases c2 : c = 0x64
    · rw [if_pos c2] at h
      subst c2
      cases hp : bencode_push P cx with
      | none =>
        rw [hp] at h
        simp only [Option.some.injEq, Prod.mk.injEq] at h
        obtain ⟨rfl, rfl, rfl⟩ := h
        exact .leaf _ _ _ g1 (Or.inr (Or.inl rfl)) (fun _ => by decide)
          ⟨fun h => absurd h (by decide), fun _ => Or.inl (peek_of_get hg (by decide)),
            fun h => absurd h (by decide)⟩
      | some y =>
        obtain ⟨i, cy⟩ := y
        rw [hp] at h
        simp only at h
        obtain ⟨rfl, stk, rfl, _⟩ := push_cases P hp
        cases hst : stack_store { cx with stack := stk, size := cx.size + 1 } cx.size
            (fun _ => (⟨none, 0, ⟨true, true, false⟩⟩ : Frame)) with
        | none => rw [hst] at h; cases h
        | some cz =>
          rw [hst] at h
          simp only [Option.some.injEq, Prod.mk.injEq] at h
          obtain ⟨rfl, rfl, rfl⟩ := h
          obtain ⟨blk, old, e1, e2, rfl⟩ := store_cases hst
          exact .dict_begin cx stk blk old hg hp e1 e2
    rw [if_neg c2] at h
    by_cases c3 : c = 0x65
    · rw [if_pos c3] at h
      subst c3
      by_cases hz : cx.size = 0
      · rw [if_pos hz] at h
        simp only [Option.some.injEq, Prod.mk.injEq] at h
        obtain ⟨rfl, rfl, rfl⟩ := h
        exact .leaf _ _ _ g1 (Or.inr (Or.inr (Or.inl rfl))) (fun _ => by decide) (leaf_plain (by decide) (by decide) (by decide))
      · rw [if_neg hz] at h
        cases hs : cx.stack with
        | none => rw [hs] at h; cases h
        | some blk =>
          rw [hs] at h
          simp only at h
          cases hf : blk[cx.size - 1]? with
          | none => rw [hf] at h; cases h
          | some f =>
            rw [hf] at h
            simp only at h
            have := SwitchCase.container_end (P := P) cx blk f hg hz hs hf
            by_cases hd : f.flags.dict = true
            · rw [if_pos hd] at h this
              rw [hs] at this
              simp only [Option.some.injEq, Prod.mk.injEq] at h
              obtain ⟨rfl, rfl, rfl⟩ := h
              exact this
            · rw [if_neg hd] at h this
              rw [hs] at this
              simp only [Option.some.injEq, Prod.mk.injEq] at h
              obtain ⟨rfl, rfl, rfl⟩ := h
              exact this
    rw [if_neg c3] at h
    by_cases c4 : c = 0x69
    · rw [if_pos c4] at h
      cases hi : bencode_integer m cx with
      | none => rw [hi] at h; cases h
      | some y =>
        obtain ⟨r1, cy⟩ := y
        rw [hi] at h
        simp only [Option.some.injEq, Prod.mk.injEq] at h
        obtain ⟨rfl, rfl, rfl⟩ := h
        obtain ⟨i1, i2, i3⟩ := integer_moved hi
        refine .leaf _ _ _ (g1.trans i1) ?_ ?_ ⟨?_, ?_, ?_⟩
        · rcases i3 with i3 | i3 | i3
          · exact Or.inr (Or.inr (Or.inr (Or.inl i3)))
          · exact Or.inr (Or.inr (Or.inl i3))
          · exact Or.inl i3
        · intro _
          rcases i3 with i3 | i3 | i3 <;> rw [i3] <;> decide
        · intro hr
          have hv := integer_view hi hr
          have hbuf : cx.buf = ctx.buf + 1 := by
            rcases g4 with ⟨g4, _⟩ | ⟨_, g4, _⟩
            · exact absurd g4 c1
            · exact g4
          refine ⟨?_, cx.buf, i2, by omega, hv⟩
          rw [← c4]
          exact peek_of_get hg c1
        · intro hr
          rcases i3 with i3 | i3 | i3 <;> rw [i3] at hr <;> exact absurd hr (by decide)
        · intro hr
          rcases i3 with i3 | i3 | i3 <;> rw [i3] at hr <;> exact absurd hr (by decide)
    rw [if_neg c4] at h
    by_cases c5 : c = 0x6c
    · rw [if_pos c5] at h
      subst c5
      cases hp : bencode_push P cx with
      | none =>
        rw [hp] at h
        simp only [Option.some.injEq, Prod.mk.injEq] at h
        obtain ⟨rfl, rfl, rfl⟩ := h
        exact .leaf _ _ _ g1 (Or.inr (Or.inl rfl)) (fun _ => by decide)
          ⟨fun h => absurd h (by decide), fun _ => Or.inr (peek_of_get hg (by decide)),
            fun h => absurd h (by decide)⟩
      | some y =>
        obtain ⟨i, cy⟩ := y
        rw [hp] at h
        simp only at h
        obtain ⟨rfl, stk, rfl, _⟩ := push_cases P hp
        cases hst : stack_store { cx with stack := stk, size := cx.size + 1 } cx.size
            (fun old => { old with flags := ⟨true, false, false⟩ }) with
        | none => rw [hst] at h; cases h
        | some cz =>
          rw [hst] at h
          simp only [Option.some.injEq, Prod.mk.injEq] at h
          obtain ⟨rfl, rfl, rfl⟩ := h
          obtain ⟨blk, old, e1, e2, rfl⟩ := store_cases hst
          exact .list_begin cx stk blk old hg hp e1 e2
    rw [if_neg c5] at h
    by_cases c6 : c = 0x30
    · rw [if_pos c6] at h
      cases hg2 : bencode_get m cx with
      | none => rw [hg2] at h; cases h
      | some y =>
        obtain ⟨c', cy⟩ := y
        rw [hg2] at h
        simp only at h
        obtain ⟨k1, k2, k3, k4⟩ := get_moved hg2
        by_cases d1 : c' = -1
        · rw [if_pos d1] at h
          simp only [Option.some.injEq, Prod.mk.injEq] at h
          obtain ⟨rfl, rfl, rfl⟩ := h
          exact .leaf _ _ _ (g1.trans k1) (Or.inl rfl) (fun _ => by decide) (leaf_plain (by decide) (by decide) (by decide))
        rw [if_neg d1] at h
        by_cases d2 : c' ≠ 0x3a
        · rw [if_pos d2] at h
          simp only [Option.some.injEq, Prod.mk.injEq] at h
          obtain ⟨rfl, rfl, rfl⟩ := h
          exact .leaf _ _ _ (g1.trans k1) (Or.inr (Or.inr (Or.inl rfl))) (fun _ => by decide) (leaf_plain (by decide) (by decide) (by decide))
        rw [if_neg d2] at h
        simp only [Option.some.injEq, Prod.mk.injEq] at h
        obtain ⟨rfl, rfl, rfl⟩ := h
        refine .leaf _ _ _ (g1.trans k1) ?_ (fun hb => by cases hb)
          ⟨fun h => absurd h (by decide), fun h => absurd h (by decide),
            fun _ => ⟨c, peek_of_get hg c1, by omega, by omega⟩⟩
        exact Or.inr (Or.inr (Or.inr (Or.inr ⟨rfl, rfl, cy.buf, rfl, rfl,
          (g1.trans k1).2.2.2.2⟩)))
    rw [if_neg c6] at h
    by_cases c7 : 0x31 ≤ c ∧ c ≤ 0x39
    · rw [if_pos c7] at h
      cases hs : bencode_string P m cx with
      | none => rw [hs] at h; cases h
      | some y =>
        obtain ⟨r1, cy⟩ := y
        rw [hs] at h
        simp only [Option.some.injEq, Prod.mk.injEq] at h
        obtain ⟨rfl, rfl, rfl⟩ := h
        obtain ⟨i1, i3⟩ := string_moved P hs
        refine .leaf _ _ _ (g1.trans i1) ?_ (fun hb => by cases hb) ⟨?_, ?_, ?_⟩
        · rcases i3 with ⟨i3, t, t1, t2, t3⟩ | i3 | i3
          · exact Or.inr (Or.inr (Or.inr (Or.inr ⟨i3, rfl, t, t1, t2,
              Nat.le_trans g1.2.2.2.2 t3⟩)))
          · exact Or.inr (Or.inr (Or.inl i3))
          · exact Or.inl i3
        · intro hr
          rcases i3 with ⟨i3, _⟩ | i3 | i3 <;> rw [i3] at hr <;> exact absurd hr (by decide)
        · intro hr
          rcases i3 with ⟨i3, _⟩ | i3 | i3 <;> rw [i3] at hr <;> exact absurd hr (by decide)
        · intro _
          exact ⟨c, peek_of_get hg c1, by omega, c7.2⟩
    · rw [if_neg c7] at h
      simp only [Option.some.injEq, Prod.mk.injEq] at h
      obtain ⟨rfl, rfl, rfl⟩ := h
      exact .leaf _ _ _ g1 (Or.inr (Or.inr (Or.inl rfl))) (fun hb => by cases hb) (leaf_plain (by decide) (by decide) (by decide))

/-- The key check returns the result it is given or `BENCODE_ERROR_BAD_KEY`;
it changes at most the stack block. -/
theorem next_key_code {m : List Nat} {kp : Option Nat} {r r1 : Int} {ctx ctx1 : bencode}
    (h : next_key m kp r ctx = some (r1, ctx1)) :
    (r1 = r ∨ (r1 = BENCODE_ERROR_BAD_KEY ∧ r = BENCODE_STRING ∧ ctx1 = ctx)) ∧
      ctx1 = { ctx with stack := ctx1.stack } := by
  unfold next_key at h
  cases kp with
  | none =>
    simp only [Option.some.injEq, Prod.mk.injEq] at h
    obtain ⟨rfl, rfl⟩ := h
    exact ⟨Or.inl rfl, rfl⟩
  | some i =>
    simp only at h
    by_cases hr : r = BENCODE_STRING
    · rw [if_pos hr] at h
      cases hs : ctx.stack with
      | none => rw [hs] at h; cases h
      | some blk =>
        rcases Option.eq_none_or_eq_some ctx.tok with ht | ⟨tok, ht⟩
        · rw [hs, ht] at h; cases h
        · rw [hs, ht] at h
          simp only at h
          cases hf : blk[i]? with
          | none => rw [hf] at h; cases h
          | some f =>
            rw [hf] at h
            simp only at h
            have hacc : ∀ {x : Option (Int × bencode)},
                x = some (r, { ctx with tok := some tok, stack := some (blk.set i
                  { f with key := some tok, keylen := ctx.toklen }) }) → x = some (r1, ctx1) →
                (r1 = r ∨ (r1 = BENCODE_ERROR_BAD_KEY ∧ r = BENCODE_STRING ∧ ctx1 = ctx)) ∧
                  ctx1 = { ctx with stack := ctx1.stack } := by
              intro x hx hx1
              rw [hx] at hx1
              simp only [Option.some.injEq, Prod.mk.injEq] at hx1
              obtain ⟨rfl, rfl⟩ := hx1
              refine ⟨Or.inl rfl, ?_⟩
              show _ = ({ ctx with stack := _ } : bencode)
              rw [← ht]
            have hbad : ∀ {x : Option (Int × bencode)},
                x = some (BENCODE_ERROR_BAD_KEY, ctx) → x = some (r1, ctx1) →
                (r1 = r ∨ (r1 = BENCODE_ERROR_BAD_KEY ∧ r = BENCODE_STRING ∧ ctx1 = ctx)) ∧
                  ctx1 = { ctx with stack := ctx1.stack } := by
              intro x hx hx1
              rw [hx] at hx1
              simp only [Option.some.injEq, Prod.mk.injEq] at hx1
              obtain ⟨rfl, rfl⟩ := hx1
              exact ⟨Or.inr ⟨rfl, hr, rfl⟩, rfl⟩
            cases hk : f.key with
            | none => rw [hk] at h; simp only at h; exact hacc rfl h
            | some key =>
              rw [hk] at h
              simp only at h
              by_cases h1 : ctx.toklen < f.keylen
              · rw [if_pos h1] at h
                cases hm : memcmp m tok key ctx.toklen with
                | none => rw [hm] at h; cases h
                | some d =>
                  rw [hm] at h
                  simp only at h
                  by_cases hd : d ≤ 0
                  · rw [if_pos hd] at h; exact hbad rfl h
                  · rw [if_neg hd] at h; exact hacc rfl h
              · rw [if_neg h1] at h
                by_cases h2 : f.keylen < ctx.toklen
                · rw [if_pos h2] at h
                  cases hm : memcmp m tok key f.keylen with
                  | none => rw [hm] at h; cases h
                  | some d =>
                    rw [hm] at h
                    simp only at h
                    by_cases hd : d < 0
                    · rw [if_pos hd] at h; exact hbad rfl h
                    · rw [if_neg hd] at h; exact hacc rfl h
                · rw [if_neg h2] at h
                  cases hm : memcmp m tok key ctx.toklen with
                  | none => rw [hm] at h; cases h
                  | some d =>
                    rw [hm] at h
                    simp only at h
                    by_cases hd : d ≤ 0
                    · rw [if_pos hd] at h; exact hbad rfl h
                    · rw [if_neg hd] at h; exact hacc rfl h
    · rw [if_neg hr] at h
      simp only [Option.some.injEq, Prod.mk.injEq] at h
      obtain ⟨rfl, rfl⟩ := h
      exact ⟨Or.inl rfl, rfl⟩


theorem enter_cases {m : List Nat} {ctx : bencode} {e : Entered}
    (h : next_enter m ctx = some e) : EnterCase m ctx e := by
  unfold next_enter at h
  by_cases hz : ctx.size ≠ 0
  · rw [if_pos hz] at h
    cases hs : ctx.stack with
    | none => rw [hs] at h; cases h
    | some blk =>
      rw [hs] at h
      simp only at h
      cases hf : blk[ctx.size - 1]? with
      | none => rw [hf] at h; cases h
      | some f =>
        rw [hf] at h
        simp only at h
        by_cases hd : f.flags.dict = true
        · rw [if_pos hd] at h
          cases hp : bencode_peek m ctx with
          | none => rw [hp] at h; cases h
          | some c =>
            rw [hp] at h
            simp only at h
            by_cases he : f.flags.expect_value = true
            · rw [if_pos he] at h
              by_cases hc : c = 0x65
              · rw [if_pos hc] at h
                simp only [Option.some.injEq] at h
                subst h
                subst hc
                have := EnterCase.no_value (m := m) blk f hz hs hf hd he hp
                rw [hd, he]
                exact this
              · rw [if_neg hc] at h
                simp only [Option.some.injEq] at h
                subst h
                have := EnterCase.value (m := m) blk f c hz hs hf hd he hp hc
                rw [hd]
                exact this
            · rw [if_neg he] at h
              have he' : f.flags.expect_value = false := by simpa using he
              by_cases hc : c ≠ 0x65 ∧ (c < 0x30 ∨ c > 0x39)
              · rw [if_pos hc] at h
                simp only [Option.some.injEq] at h
                subst h
                have := EnterCase.no_key (m := m) blk f c hz hs hf hd he' hp hc
                rw [hd, he']
                exact this
              · rw [if_neg hc] at h
                simp only [Option.some.injEq] at h
                subst h
                have hc' : c = 0x65 ∨ (0x30 ≤ c ∧ c ≤ 0x39) := by omega
                have := EnterCase.key (m := m) blk f c hz hs hf hd he' hp hc'
                rw [hd]
                exact this
        · rw [if_neg hd] at h
          have hd' : f.flags.dict = false := by simpa using hd
          simp only [Option.some.injEq] at h
          subst h
          exact EnterCase.item (m := m) blk f hz hs hf hd'
  · rw [if_neg hz] at h
    have h0 : ctx.size = 0 := by omega
    by_cases hb : ctx.buflen = 0
    · rw [if_pos hb] at h
      simp only [Option.some.injEq] at h
      subst h
      exact .at_end h0 hb
    · rw [if_neg hb] at h
      simp only [Option.some.injEq] at h
      subst h
      exact .top h0 hb


/-- How a call of `bencode_next` is composed of its three parts. -/
theorem next_unfold (P : Platform) {m : List Nat} {ctx ctx1 : bencode} {r : Int}
    (h : bencode_next P m ctx = some (r, ctx1)) :
    next_enter m ctx = some (.ret r ctx1) ∨
    ∃ cx kp b r0 c2, next_enter m ctx = some (.go cx kp) ∧
      next_switch P m cx = some (b, r0, c2) ∧
      ((b = false ∧ r = r0 ∧ ctx1 = c2) ∨ (b = true ∧ next_key m kp r0 c2 = some (r, ctx1))) := by
  unfold bencode_next at h
  cases he : next_enter m ctx with
  | none => rw [he] at h; cases h
  | some e =>
    rw [he] at h
    cases e with
    | ret r' c' =>
      simp only [Option.some.injEq, Prod.mk.injEq] at h
      obtain ⟨rfl, rfl⟩ := h
      exact Or.inl rfl
    | go cx kp =>
      simp only at h
      right
      cases hs : next_switch P m cx with
      | none => rw [hs] at h; cases h
      | some x =>
        obtain ⟨b, r0, c2⟩ := x
        rw [hs] at h
        cases b with
        | false =>
          simp only [Option.some.injEq, Prod.mk.injEq] at h
          obtain ⟨rfl, rfl⟩ := h
          exact ⟨cx, kp, false, _, _, rfl, hs, Or.inl ⟨rfl, rfl, rfl⟩⟩
        | true =>
          simp only at h
          exact ⟨cx, kp, true, r0, c2, rfl, hs, Or.inr ⟨rfl, h⟩⟩

/-- A call returns `BENCODE_DONE` only with an empty stack, no input left and
a token view set; it then leaves the state as it was. -/
theorem next_done (P : Platform) {m : List Nat} {ctx ctx1 : bencode}
    (h : bencode_next P m ctx = some (BENCODE_DONE, ctx1)) :
    ctx.size = 0 ∧ ctx.buflen = 0 ∧ ctx.tok.isSome = true ∧ ctx1 = ctx := by
  rcases next_unfold P h with he | ⟨cx, kp, b, r0, c2, he, hs, hk⟩
  · have hc := enter_cases he
    generalize hE : Entered.ret BENCODE_DONE ctx1 = E at hc
    cases hc with
    | at_end h0 hb =>
      simp only [Entered.ret.injEq] at hE
      obtain ⟨h1, rfl⟩ := hE
      refine ⟨h0, hb, ?_, rfl⟩
      by_contra hn
      rw [if_neg hn] at h1
      cases h1
    | top => cases hE
    | item => cases hE
    | value => cases hE
    | no_value =>
      simp only [Entered.ret.injEq] at hE
      exact absurd hE.1 (by decide)
    | key => cases hE
    | no_key =>
      simp only [Entered.ret.injEq] at hE
      exact absurd hE.1 (by decide)
  · exfalso
    have hsw := switch_cases P hs
    have hne : r0 ≠ BENCODE_DONE := by
      cases hsw with
      | leaf _ _ _ _ hr _ _ =>
        rcases hr with rfl | rfl | rfl | rfl | ⟨rfl, _⟩ <;> decide
      | dict_begin => decide
      | list_begin => decide
      | container_end _ _ f =>
        cases f.flags.dict <;> decide
    rcases hk with ⟨_, hr, _⟩ | ⟨_, hk⟩
    · exact hne hr.symm
    · rcases (next_key_code hk).1 with h1 | ⟨h1, _⟩
      · exact hne h1.symm
      · exact absurd h1 (by decide)


/-! # String lengths in `size_t` arithmetic -/

theorem decode_length_wrap (P : Platform) {m : List Nat} (ds : List Nat) :
    ∀ (tok : Nat) (ctx : bencode) (rest : List Nat), m.drop tok = ds ++ rest →
      decode_length P m ds.length tok ctx =
        some ((wrap_len P ds ctx.toklen).1, { ctx with toklen := (wrap_len P ds ctx.toklen).2 })
      := by
  induction ds with
  | nil => intro tok ctx rest _; simp [decode_length, wrap_len]
  | cons d ds ih =>
    intro tok ctx rest hm
    have hget : m[tok]? = some d := by
      have : (m.drop tok)[0]? = some d := by rw [hm]; simp
      simpa [List.getElem?_drop] using this
    have hm' : m.drop (tok + 1) = ds ++ rest := by
      rw [← List.drop_drop, hm]; simp
    simp only [decode_length, List.length_cons, hget, wrap_len]
    split
    · rfl
    · rw [ih (tok + 1) _ rest hm']

/-- The string recogniser on any run of digits followed by `:`; the first
digit `d` has been consumed from `ctx0`, and the length is what `wrap_len`
computes. -/
theorem string_wrap (P : Platform) {m : List Nat} {ctx0 : bencode} (d n : Nat)
    (ds rest : List Nat) (h : At m ctx0 (d :: (ds ++ 0x3a :: rest)))
    (hd : ∀ x ∈ ds, is_digit x = true) (hok : wrap_len P (d :: ds) 0 = (true, n))
    (hn : n ≤ rest.length) :
    bencode_string P m (advance ctx0 1) =
      some (BENCODE_STRING,
        { advance ctx0 (ds.length + 2 + n) with
          tok := some (ctx0.buf + (ds.length + 2)), toklen := n }) := by
  have h1 : At m (advance ctx0 1) (ds ++ 0x3a :: rest) := at_step h
  have hlen : ds.length ≤ (advance ctx0 1).buflen := by rw [h1.2]; simp
  have hrun := get_digits_run ds _ _ 0x3a rest h1 hd (by decide) hlen
  rw [advance_advance] at hrun
  have h2 : At m (advance ctx0 (1 + (ds.length + 1))) rest := by
    refine at_move (d :: (ds ++ [0x3a])) (by simpa using h) ?_ ?_
    · simp [advance]; omega
    · simp [advance]; omega
  have hbuflen : (advance ctx0 (1 + (ds.length + 1))).buflen = rest.length := h2.2
  have hdec := decode_length_wrap P (d :: ds) ctx0.buf
    { advance ctx0 (1 + (ds.length + 1)) with
      tok := some (advance ctx0 (1 + (ds.length + 1))).buf, toklen := 0 }
    (0x3a :: rest) (by simpa using h.1)
  simp only [hok] at hdec
  have hcount : (advance ctx0 (1 + (ds.length + 1))).buf - 1 - ctx0.buf
      = (d :: ds).length := by
    simp [advance]; omega
  have htok : (advance ctx0 1).buf - 1 = ctx0.buf := by simp [advance]
  have hge : ¬ ((advance ctx0 (1 + (ds.length + 1))).buflen < n) := by
    rw [hbuflen]; omega
  simp only [bencode_string, hrun, htok, hcount]
  rw [if_neg (by decide), if_neg (by decide)]
  simp only [hdec, if_neg hge]
  simp [advance]
  omega

/-- A call in value position on `<digits>:` with enough bytes behind it
returns a string whose length is the wrapped value of the digits. -/
theorem step_str_wrap (P : Platform) {m : List Nat} {ctx : bencode} {fs : List Frame}
    (d n : Nat) (ds rest : List Nat) (hs : Stk ctx fs) (hv : ValuePos fs)
    (h : At m ctx (d :: (ds ++ 0x3a :: rest))) (hd1 : 0x31 ≤ d ∧ d ≤ 0x39)
    (hd : ∀ x ∈ ds, is_digit x = true) (hok : wrap_len P (d :: ds) 0 = (true, n))
    (hn : n ≤ rest.length) :
    ∃ ctx', bencode_next P m ctx = some (BENCODE_STRING, ctx') ∧ ctx'.toklen = n ∧
      view m ctx' = rest.take n ∧ ctx'.buflen = rest.length - n := by
  obtain ⟨stk, he, hs1, _⟩ := enter_value_pos hs hv h (by omega)
  have h1 : At m { ctx with stack := stk } (d :: (ds ++ 0x3a :: rest)) := h
  have g1 := get_cons h1
  have hstr := string_wrap P d n ds rest h1 hd hok hn
  have e1 : ¬ ((d : Int) = -1) := by omega
  have e2 : ¬ ((d : Int) = 0x64) := by omega
  have e3 : ¬ ((d : Int) = 0x65) := by omega
  have e4 : ¬ ((d : Int) = 0x69) := by omega
  have e5 : ¬ ((d : Int) = 0x6c) := by omega
  have e6 : ¬ ((d : Int) = 0x30) := by omega
  have e7 : (0x31 : Int) ≤ d ∧ (d : Int) ≤ 0x39 := by omega
  refine ⟨{ advance { ctx with stack := stk } (ds.length + 2 + n) with
    tok := some (ctx.buf + (ds.length + 2)), toklen := n }, ?_, rfl, ?_, ?_⟩
  · rw [next_of_go P he]
    simp only [next_switch, g1, if_neg e1, if_neg e2, if_neg e3, if_neg e4, if_neg e5,
      if_neg e6, if_pos e7, hstr]
    rfl
  · have hdrop : m.drop (ctx.buf + (ds.length + 2)) = rest := by
      have := at_drop_add (d :: (ds ++ [0x3a])) (r := rest) (by simpa using h)
      simpa using this
    simp [view, hdrop]
  · show ctx.buflen - (ds.length + 2 + n) = rest.length - n
    have := h.2
    simp at this
    omega


/-! # The claims -/

theorem grants_lp64 : grants lp64 := by
  refine ⟨by decide, by decide, rfl⟩

theorem grants_ilp32 : grants ilp32 := by
  refine ⟨by decide, by decide, rfl⟩

mutual
theorem toks_codes : ∀ (v : Value), ∀ o ∈ toks v, 1 ≤ o.1 ∧ o.1 ≤ 6
  | .int _ => by
    intro o ho
    simp only [toks, List.mem_singleton] at ho
    subst ho
    exact ⟨by show (1 : Int) ≤ 1; decide, by show (1 : Int) ≤ 6; decide⟩
  | .str _ => by
    intro o ho
    simp only [toks, List.mem_singleton] at ho
    subst ho
    exact ⟨by show (1 : Int) ≤ 2; decide, by show (2 : Int) ≤ 6; decide⟩
  | .list xs => by
    have := toksL_codes xs
    intro o ho
    simp only [toks, List.mem_cons, List.mem_append, List.mem_singleton, List.not_mem_nil,
      or_false] at ho
    rcases ho with rfl | ho | rfl
    · exact ⟨by show (1 : Int) ≤ 3; decide, by show (3 : Int) ≤ 6; decide⟩
    · exact this o ho
    · exact ⟨by show (1 : Int) ≤ 4; decide, by show (4 : Int) ≤ 6; decide⟩
  | .dict es => by
    have := toksD_codes es
    intro o ho
    simp only [toks, List.mem_cons, List.mem_append, List.mem_singleton, List.not_mem_nil,
      or_false] at ho
    rcases ho with rfl | ho | rfl
    · exact ⟨by show (1 : Int) ≤ 5; decide, by show (5 : Int) ≤ 6; decide⟩
    · exact this o ho
    · exact ⟨by show (1 : Int) ≤ 6; decide, by show (6 : Int) ≤ 6; decide⟩
theorem toksL_codes : ∀ (xs : List Value), ∀ o ∈ toksL xs, 1 ≤ o.1 ∧ o.1 ≤ 6
  | [] => by simp [toksL]
  | v :: vs => by
    have h1 := toks_codes v
    have h2 := toksL_codes vs
    intro o ho
    simp only [toksL, List.mem_append] at ho
    rcases ho with ho | ho
    · exact h1 o ho
    · exact h2 o ho
theorem toksD_codes : ∀ (es : List (List Nat × Value)), ∀ o ∈ toksD es, 1 ≤ o.1 ∧ o.1 ≤ 6
  | [] => by simp [toksD]
  | (k, v) :: es => by
    have h1 := toks_codes v
    have h2 := toksD_codes es
    intro o ho
    simp only [toksD, List.mem_cons, List.mem_append] at ho
    rcases ho with rfl | ho | ho
    · exact ⟨by show (1 : Int) ≤ 2; decide, by show (2 : Int) ≤ 6; decide⟩
    · exact h1 o ho
    · exact h2 o ho
end

/-- A fresh decoder on a well-formed message nested at most 64 deep returns
its tokens; the call after them returns `BENCODE_DONE` when the message
contains an integer or a string, and `BENCODE_ERROR_EOF` when it does not. -/
theorem decode_message (P : Platform) (v : Value) (hP : grants P)
    (hw : (ser v).length < 2 ^ P.w) (hwf : wf v = true) (hd : depth v ≤ 64) :
    ∃ ctx', calls P (ser v) ((toks v).length + 1) (bencode_init (ser v).length) =
      some (toks v ++ [(if leafy v then BENCODE_DONE else BENCODE_ERROR_EOF, [])], ctx') := by
  have hw' : (ser v ++ []).length < 2 ^ P.w := by simpa using hw
  obtain ⟨ctx', h1, h2, h3, h4⟩ := decode_value P v [] hP hw' hwf hd
  simp only [List.append_nil] at h1 h2
  have hend := next_at_end P h3 h2
  refine ⟨ctx', ?_⟩
  have := calls_app P _ _ h1 (calls_one P hend)
  rw [this, h4]
  cases leafy v
  · rw [observe_plain _ _ _ (by decide) (by decide)]
  · rw [observe_plain _ _ _ (by decide) (by decide)]

/-- C1 (code defect): `le` and `de` are well-formed messages, yet after
ListBegin, ListEnd (DictBegin, DictEnd) the next call returns
`BENCODE_ERROR_EOF`, not `BENCODE_DONE`. -/
theorem C1_empty_container_reports_eof :
    bytes "le" = ser (.list []) ∧ wf (.list []) = true ∧
    bytes "de" = ser (.dict []) ∧ wf (.dict []) = true ∧
    decode "le" 3 = some [(BENCODE_LIST_BEGIN, []), (BENCODE_LIST_END, []),
      (BENCODE_ERROR_EOF, [])] ∧
    decode "de" 3 = some [(BENCODE_DICT_BEGIN, []), (BENCODE_DICT_END, []),
      (BENCODE_ERROR_EOF, [])] := by
  decide

/-- C2 (failing input): `i0ei0e` is the complete value `i0e` followed by the
three extra bytes `i0e`; the decoder returns Integer, Integer and then
`BENCODE_DONE`, and never `BENCODE_ERROR_INVALID`, although `bencode.h`
documents `BENCODE_DONE` as including a check for trailing garbage. -/
theorem C2_second_value_is_accepted :
    bytes "i0ei0e" = ser (.int (bytes "0")) ++ bytes "i0e" ∧ wf (.int (bytes "0")) = true ∧
    decode "i0ei0e" 3 = some [(BENCODE_INTEGER, bytes "0"), (BENCODE_INTEGER, bytes "0"),
      (BENCODE_DONE, [])] := by
  decide

/-- Trailing bytes that cannot begin an element are rejected: after a complete
well-formed top-level value (nested at most 64 deep) that is followed by
extra bytes, the decoder has returned exactly the tokens of the value, none
of them `BENCODE_DONE`; the next call does not return `BENCODE_DONE`, and it
returns `BENCODE_ERROR_INVALID` when the first extra byte is not `i`, `l`,
`d` or a digit. -/
theorem trailing_bytes_not_done (P : Platform) (v : Value) (c : Nat) (extra : List Nat)
    (hP : grants P) (hw : (ser v ++ c :: extra).length < 2 ^ P.w) (hwf : wf v = true)
    (hd : depth v ≤ 64) :
    ∃ ctx1, calls P (ser v ++ c :: extra) (toks v).length
        (bencode_init (ser v ++ c :: extra).length) = some (toks v, ctx1) ∧
      (∀ o ∈ toks v, o.1 ≠ BENCODE_DONE) ∧
      (∀ r ctx2, bencode_next P (ser v ++ c :: extra) ctx1 = some (r, ctx2) →
        r ≠ BENCODE_DONE) ∧
      ((c ≠ 0x69 ∧ c ≠ 0x6c ∧ c ≠ 0x64 ∧ is_digit c = false) →
        ∃ ctx2, bencode_next P (ser v ++ c :: extra) ctx1 =
          some (BENCODE_ERROR_INVALID, ctx2)) := by
  obtain ⟨ctx1, h1, h2, h3, _⟩ := decode_value P v (c :: extra) hP hw hwf hd
  refine ⟨ctx1, h1, ?_, ?_, ?_⟩
  · intro o ho
    have := toks_codes v o ho
    show o.1 ≠ 0
    omega
  · intro r ctx2 hn hr
    subst hr
    have := (next_done P hn).2.1
    rw [h2.2] at this
    simp at this
  · intro hc
    exact ⟨_, next_garbage P c extra h3 h2 hc⟩

/-- The value `i0e` followed by a blank: the blank is rejected. -/
theorem trailing_bytes_not_done_example :
    ∃ ctx1, calls lp64 (ser (.int [0x30]) ++ 0x20 :: []) (toks (.int [0x30])).length
        (bencode_init (ser (.int [0x30]) ++ 0x20 :: []).length) =
          some (toks (.int [0x30]), ctx1) ∧
      (∀ o ∈ toks (.int [0x30]), o.1 ≠ BENCODE_DONE) ∧
      (∀ r ctx2, bencode_next lp64 (ser (.int [0x30]) ++ 0x20 :: []) ctx1 = some (r, ctx2) →
        r ≠ BENCODE_DONE) ∧
      (((0x20 : Nat) ≠ 0x69 ∧ (0x20 : Nat) ≠ 0x6c ∧ (0x20 : Nat) ≠ 0x64 ∧
          is_digit 0x20 = false) →
        ∃ ctx2, bencode_next lp64 (ser (.int [0x30]) ++ 0x20 :: []) ctx1 =
          some (BENCODE_ERROR_INVALID, ctx2)) :=
  trailing_bytes_not_done lp64 (.int [0x30]) 0x20 [] grants_lp64 (by decide) (by decide) (by decide)

set_option maxRecDepth 100000 in
/-- C3 (code defect): on the well-formed message of 65 nested lists the first
64 calls return ListBegin, and the 65th call stores its frame behind the end
of the 64-frame block, which is undefined behaviour. -/
theorem C3_depth_65_leaves_the_block :
    List.replicate 65 0x6c ++ List.replicate 65 0x65 = ser (nested 64) ∧
    wf (nested 64) = true ∧
    (calls lp64 (ser (nested 64)) 64 (bencode_init 130)).map Prod.fst =
      some (List.replicate 64 (BENCODE_LIST_BEGIN, [])) ∧
    calls lp64 (ser (nested 64)) 65 (bencode_init 130) = none := by
  decide

/-- C9 (code defect): `d` and `d1:ai0e` are proper prefixes of the well-formed
messages `de` and `d1:ai0ee`, yet where the input ends in key position the
decoder returns `BENCODE_ERROR_INVALID`, not `BENCODE_ERROR_EOF`. -/
theorem C9_truncated_dictionary_reports_invalid :
    bytes "d" ++ bytes "e" = ser (.dict []) ∧
    bytes "d1:ai0e" ++ bytes "e" = ser (.dict [(bytes "a", .int (bytes "0"))]) ∧
    wf (.dict [(bytes "a", .int (bytes "0"))]) = true ∧
    decode "d" 2 = some [(BENCODE_DICT_BEGIN, []), (BENCODE_ERROR_INVALID, [])] ∧
    decode "d1:ai0e" 4 = some [(BENCODE_DICT_BEGIN, []), (BENCODE_STRING, bytes "a"),
      (BENCODE_INTEGER, bytes "0"), (BENCODE_ERROR_INVALID, [])] := by
  decide

/-- C10: on a decoder initialised over a buffer of length 0 the first call
returns `BENCODE_ERROR_EOF` and leaves the state as `bencode_init` made it. -/
theorem C10_empty_input (P : Platform) (m : List Nat) :
    bencode_next P m (bencode_init 0) = some (BENCODE_ERROR_EOF, bencode_init 0) := by
  rfl



/-- On a 32-bit platform the digits `4772185890` in front of 477218594 bytes. -/
theorem wrapped_length_32 (rest : List Nat) (hn : rest.length = 477218594) :
    ∃ ctx', bencode_next ilp32 (bytes "4772185890:" ++ rest)
        (bencode_init (bytes "4772185890:" ++ rest).length) = some (BENCODE_STRING, ctx') ∧
      ctx'.toklen = 477218594 ∧ ctx'.buflen = 0 := by
  have hm : bytes "4772185890:" ++ rest = 0x34 :: (bytes "772185890" ++ 0x3a :: rest) := by
    rfl
  have hat : At (bytes "4772185890:" ++ rest)
      (bencode_init (bytes "4772185890:" ++ rest).length)
      (0x34 :: (bytes "772185890" ++ 0x3a :: rest)) := by
    rw [← hm]; exact at_init _
  obtain ⟨ctx', h1, h2, _, h4⟩ := step_str_wrap ilp32 0x34 477218594 (bytes "772185890")
    rest (stk_init _) valuePos_nil hat (by decide) (by decide)
    (by decide) (by omega)
  exact ⟨ctx', h1, h2, by rw [h4, hn]⟩

/-- C8 (code defect): with a 32-bit `size_t` the prefix `4772185890` wraps to
477218594 without tripping the overflow test, so on a buffer that holds
477218594 bytes after the `:` the call returns `BENCODE_STRING` with
`toklen = 477218594`, not the declared 4772185890. -/
theorem C8_wrapped_length_is_accepted :
    decval (bytes "4772185890") = 4772185890 ∧
    ∃ ctx', bencode_next ilp32 (bytes "4772185890:" ++ List.replicate 477218594 0x78)
        (bencode_init (bytes "4772185890:" ++ List.replicate 477218594 0x78).length) =
          some (BENCODE_STRING, ctx') ∧
      ctx'.toklen = 477218594 ∧ ctx'.buflen = 0 :=
  ⟨by decide, wrapped_length_32 _ (List.length_replicate _ _)⟩


/-- A call in value position on `0` followed by a byte other than `:`. -/
theorem next_zero_invalid (P : Platform) {m : List Nat} {ctx : bencode} {fs : List Frame}
    (x : Nat) (rest : List Nat) (hs : Stk ctx fs) (hv : ValuePos fs)
    (h : At m ctx (0x30 :: x :: rest)) (hx : x ≠ 0x3a) :
    ∃ ctx', bencode_next P m ctx = some (BENCODE_ERROR_INVALID, ctx') := by
  obtain ⟨stk, he, _, _⟩ := enter_value_pos hs hv h (by decide)
  have h1 : At m { ctx with stack := stk } (0x30 :: x :: rest) := h
  have g1 := get_cons h1
  have g2 := get_cons (at_step h1)
  have e1 : ¬ ((x : Int) = -1) := by omega
  have e2 : (x : Int) ≠ 0x3a := by omega
  refine ⟨advance (advance { ctx with stack := stk } 1) 1, ?_⟩
  rw [next_of_go P he]
  simp only [next_switch, g1, g2]
  rw [if_neg (by decide), if_neg (by decide), if_neg (by decide), if_neg (by decide),
    if_neg (by decide), if_pos (by decide), if_neg e1, if_pos e2]

/-- A call in value position on a length that starts with `1`..`9` and whose
digits are followed by a byte that is neither a digit nor `:`. -/
theorem next_no_colon_invalid (P : Platform) {m : List Nat} {ctx : bencode} {fs : List Frame}
    (d c : Nat) (ds rest : List Nat) (hs : Stk ctx fs) (hv : ValuePos fs)
    (h : At m ctx (d :: (ds ++ c :: rest))) (hd1 : 0x31 ≤ d ∧ d ≤ 0x39)
    (hd : ∀ x ∈ ds, is_digit x = true) (hc : is_digit c = false) (hc2 : c ≠ 0x3a) :
    ∃ ctx', bencode_next P m ctx = some (BENCODE_ERROR_INVALID, ctx') := by
  obtain ⟨stk, he, _, _⟩ := enter_value_pos hs hv h (by omega)
  have h1 : At m { ctx with stack := stk } (d :: (ds ++ c :: rest)) := h
  have g1 := get_cons h1
  have h2 : At m (advance { ctx with stack := stk } 1) (ds ++ c :: rest) := at_step h1
  have hlen : ds.length ≤ (advance { ctx with stack := stk } 1).buflen := by
    rw [h2.2]; simp
  have hrun := get_digits_run ds _ _ c rest h2 hd hc hlen
  have e1 : ¬ ((d : Int) = -1) := by omega
  have e2 : ¬ ((d : Int) = 0x64) := by omega
  have e3 : ¬ ((d : Int) = 0x65) := by omega
  have e4 : ¬ ((d : Int) = 0x69) := by omega
  have e5 : ¬ ((d : Int) = 0x6c) := by omega
  have e6 : ¬ ((d : Int) = 0x30) := by omega
  have e7 : (0x31 : Int) ≤ d ∧ (d : Int) ≤ 0x39 := by omega
  have c1 : ¬ ((c : Int) = -1) := by omega
  have c2 : (c : Int) ≠ 0x3a := by omega
  refine ⟨advance (advance { ctx with stack := stk } 1) (ds.length + 1), ?_⟩
  rw [next_of_go P he]
  simp only [next_switch, g1, if_neg e1, if_neg e2, if_neg e3, if_neg e4, if_neg e5,
    if_neg e6, if_pos e7, bencode_string, hrun, if_neg c1, if_pos c2]
  rfl

/-- C7: in value position, on a length written as `0` or `[1-9][0-9]*`, a `:`
and at least that many bytes, `bencode_next` returns `BENCODE_STRING` with a
view equal to exactly the bytes after the `:` and the cursor right behind
them; `0` followed by a digit, and digits followed by a byte that is neither
a digit nor `:`, return `BENCODE_ERROR_INVALID`. -/
theorem C7_string_exactness (P : Platform) (m : List Nat) (ctx : bencode) (fs : List Frame)
    (hs : Stk ctx fs) (hv : ValuePos fs) (hw : m.length < 2 ^ P.w) :
    (∀ ds s post, At m ctx (ds ++ 0x3a :: (s ++ post)) → canon_nat ds = true →
      decval ds = s.length →
      ∃ ctx', bencode_next P m ctx = some (BENCODE_STRING, ctx') ∧ view m ctx' = s ∧
        ctx'.toklen = s.length ∧ At m ctx' post) ∧
    (∀ d rest, At m ctx (0x30 :: d :: rest) → is_digit d = true →
      ∃ ctx', bencode_next P m ctx = some (BENCODE_ERROR_INVALID, ctx')) ∧
    (∀ ds c rest, At m ctx (ds ++ c :: rest) → ds ≠ [] → (∀ x ∈ ds, is_digit x = true) →
      is_digit c = false → c ≠ 0x3a →
      ∃ ctx', bencode_next P m ctx = some (BENCODE_ERROR_INVALID, ctx')) := by
  refine ⟨?_, ?_, ?_⟩
  · intro ds s post h hc hval
    have hlen : s.length < 2 ^ P.w := by
      have := at_length_le h
      simp at this
      omega
    obtain ⟨ctx', h1, h2, h3, _, _⟩ := step_str P ds s post hs hv h hc hval hlen
    refine ⟨ctx', h1, h2, ?_, h3⟩
    have hn := next_unfold P h1
    cases ds with
    | nil => simp [canon_nat] at hc
    | cons d r =>
      obtain ⟨stk, he, _, _⟩ := enter_value_pos hs hv (show At m ctx (d :: (r ++ 0x3a :: (s ++ post)))
        from h) (by
          have := canon_nat_digits hc d (List.mem_cons_self _ _)
          simp [is_digit] at this; omega)
      have hsw := switch_str P (d :: r) s post
        (show At m { ctx with stack := stk } (d :: r ++ 0x3a :: (s ++ post)) from h) hc hval hlen
      rw [next_of_go P he, hsw] at h1
      simp only [next_key, Option.some.injEq, Prod.mk.injEq, true_and] at h1
      rw [← h1]
  · intro d rest h hd
    have : d ≠ 0x3a := by
      simp [is_digit] at hd; omega
    exact next_zero_invalid P d rest hs hv h this
  · intro ds c rest h hne hd hc hc2
    cases ds with
    | nil => exact absurd rfl hne
    | cons d r =>
      have hdd := hd d (List.mem_cons_self _ _)
      simp only [is_digit, decide_eq_true_eq] at hdd
      by_cases h0 : d = 0x30
      · subst h0
        cases r with
        | nil => exact next_zero_invalid P c rest hs hv h hc2
        | cons x r' =>
          have hx := hd x (by simp)
          have : x ≠ 0x3a := by simp [is_digit] at hx; omega
          exact next_zero_invalid P x (r' ++ c :: rest) hs hv h this
      · exact next_no_colon_invalid P d c r rest hs hv h (by omega)
          (fun x hx => hd x (List.mem_cons_of_mem _ hx)) hc hc2

/-- C7 (witness): the string law on the buffer `5:hello` of a fresh decoder. -/
theorem C7_string_exactness_witness :
    (∀ ds s post, At (bytes "5:hello") (bencode_init 7) (ds ++ 0x3a :: (s ++ post)) →
      canon_nat ds = true → decval ds = s.length →
      ∃ ctx', bencode_next lp64 (bytes "5:hello") (bencode_init 7) =
          some (BENCODE_STRING, ctx') ∧ view (bytes "5:hello") ctx' = s ∧
        ctx'.toklen = s.length ∧ At (bytes "5:hello") ctx' post) ∧
    (∀ d rest, At (bytes "5:hello") (bencode_init 7) (0x30 :: d :: rest) → is_digit d = true →
      ∃ ctx', bencode_next lp64 (bytes "5:hello") (bencode_init 7) =
        some (BENCODE_ERROR_INVALID, ctx')) ∧
    (∀ ds c rest, At (bytes "5:hello") (bencode_init 7) (ds ++ c :: rest) → ds ≠ [] →
      (∀ x ∈ ds, is_digit x = true) → is_digit c = false → c ≠ 0x3a →
      ∃ ctx', bencode_next lp64 (bytes "5:hello") (bencode_init 7) =
        some (BENCODE_ERROR_INVALID, ctx')) :=
  C7_string_exactness lp64 (bytes "5:hello") (bencode_init 7) [] (stk_init 7) valuePos_nil
    (by decide)


/-- C5: in key position of a dictionary, on a syntactically valid candidate
key `k`: the first key is accepted; after a previous key `p` the candidate is
accepted iff the law of spec §4.4 holds (the first `min` bytes of `k` sort
after those of `p`, or they tie and `k` is longer), every other candidate
gets `BENCODE_ERROR_BAD_KEY`; and the law is strict lexicographic order. -/
theorem C5_key_order_law (P : Platform) (m : List Nat) (ctx : bencode) (fs : List Frame)
    (f : Frame) (ds k rest : List Nat) (hs : Stk ctx (fs ++ [f])) (hd : f.flags.dict = true)
    (he : f.flags.expect_value = false) (h : At m ctx (ds ++ 0x3a :: (k ++ rest)))
    (hc : canon_nat ds = true) (hval : decval ds = k.length) (hw : m.length < 2 ^ P.w) :
    (KeyIs m f none →
      ∃ ctx', bencode_next P m ctx = some (BENCODE_STRING, ctx') ∧ view m ctx' = k) ∧
    (∀ p, KeyIs m f (some p) →
      (key_law p k = true ↔ p < k) ∧
      (key_law p k = true →
        ∃ ctx', bencode_next P m ctx = some (BENCODE_STRING, ctx') ∧ view m ctx' = k) ∧
      (key_law p k = false →
        ∃ ctx', bencode_next P m ctx = some (BENCODE_ERROR_BAD_KEY, ctx'))) := by
  have hlen : k.length < 2 ^ P.w := by
    have := at_length_le h
    simp at this
    omega
  refine ⟨?_, ?_⟩
  · intro hp
    obtain ⟨ctx', _, h1, h2, _⟩ := step_key P none ds k rest hs hd he hp h hc hval hlen
      (fun p hp => by cases hp)
    exact ⟨ctx', h1, h2⟩
  · intro p hp
    refine ⟨key_law_iff p k, ?_, ?_⟩
    · intro hl
      obtain ⟨ctx', _, h1, h2, _⟩ := step_key P (some p) ds k rest hs hd he hp h hc hval hlen
        (fun q hq => by
          have : q = p := (Option.some.inj hq).symm
          subst this
          exact (key_law_iff q k).1 hl)
      exact ⟨ctx', h1, h2⟩
    · intro hl
      have hn : ¬ p < k := by
        intro hlt
        rw [(key_law_iff p k).2 hlt] at hl
        cases hl
      obtain ⟨ctx', h1, _⟩ := step_key_bad P p ds k rest hs hd he hp h hc hval hlen hn
      exact ⟨ctx', h1⟩

/-- C5 (witness): the second key of `d1:ai0e1:b`, in the state the decoder is
in after the first entry. -/
theorem C5_key_order_law_witness :
    (calls lp64 (bytes "d1:ai0e1:b") 3 (bencode_init 10)).map Prod.snd =
      some after_first_entry ∧
    ((KeyIs (bytes "d1:ai0e1:b") ⟨some 3, 1, ⟨false, true, false⟩⟩ none →
      ∃ ctx', bencode_next lp64 (bytes "d1:ai0e1:b") after_first_entry =
        some (BENCODE_STRING, ctx') ∧ view (bytes "d1:ai0e1:b") ctx' = bytes "b") ∧
    (∀ p, KeyIs (bytes "d1:ai0e1:b") ⟨some 3, 1, ⟨false, true, false⟩⟩ (some p) →
      (key_law p (bytes "b") = true ↔ p < bytes "b") ∧
      (key_law p (bytes "b") = true →
        ∃ ctx', bencode_next lp64 (bytes "d1:ai0e1:b") after_first_entry =
          some (BENCODE_STRING, ctx') ∧ view (bytes "d1:ai0e1:b") ctx' = bytes "b") ∧
      (key_law p (bytes "b") = false →
        ∃ ctx', bencode_next lp64 (bytes "d1:ai0e1:b") after_first_entry =
          some (BENCODE_ERROR_BAD_KEY, ctx')))) :=
  ⟨by decide,
   C5_key_order_law lp64 (bytes "d1:ai0e1:b") after_first_entry []
    ⟨some 3, 1, ⟨false, true, false⟩⟩ (bytes "1") (bytes "b") []
    ⟨rfl, rfl, by decide, List.replicate 63 lp64.junk, rfl⟩ rfl rfl
    ⟨by decide, by decide⟩ (by decide) (by decide) (by decide)⟩


/-! # The integer recogniser on arbitrary input -/

theorem digit_run_split : ∀ (r : List Nat), ∃ ds r', r = ds ++ r' ∧
    (∀ x ∈ ds, is_digit x = true) ∧ (r' = [] ∨ ∃ x t, r' = x :: t ∧ is_digit x = false)
  | [] => ⟨[], [], rfl, by simp, Or.inl rfl⟩
  | a :: r => by
    by_cases ha : is_digit a = true
    · obtain ⟨ds, r', h1, h2, h3⟩ := digit_run_split r
      refine ⟨a :: ds, r', by rw [h1]; rfl, ?_, h3⟩
      intro x hx
      rcases List.mem_cons.1 hx with rfl | hx
      · exact ha
      · exact h2 x hx
    · exact ⟨[], a :: r, rfl, by simp, Or.inr ⟨a, r, rfl, by simpa using ha⟩⟩

theorem digits_then (ds : List Nat) : ∀ (ds' : List Nat) (x : Nat) (t post : List Nat),
    (∀ y ∈ ds, is_digit y = true) → (∀ y ∈ ds', is_digit y = true) → is_digit x = false →
    ds ++ x :: t = ds' ++ 0x65 :: post → x = 0x65 := by
  induction ds with
  | nil =>
    intro ds' x t post _ h2 hx h
    cases ds' with
    | nil => simpa using (List.cons.inj h).1
    | cons b ds' =>
      have hb := h2 b (List.mem_cons_self _ _)
      have : x = b := by simpa using (List.cons.inj h).1
      rw [this, hb] at hx
      cases hx
  | cons a ds ih =>
    intro ds' x t post h1 h2 hx h
    cases ds' with
    | nil =>
      have ha := h1 a (List.mem_cons_self _ _)
      have : a = 0x65 := by simpa using (List.cons.inj h).1
      rw [this] at ha
      exact absurd ha (by decide)
    | cons b ds' =>
      have h' : ds ++ x :: t = ds' ++ 0x65 :: post := by
        simpa using (List.cons.inj h).2
      exact ih ds' x t post (fun y hy => h1 y (List.mem_cons_of_mem _ hy))
        (fun y hy => h2 y (List.mem_cons_of_mem _ hy)) hx h'

theorem canon_int_pos {d : Nat} {ds : List Nat} (h1 : 0x31 ≤ d) (h2 : d ≤ 0x39)
    (hds : ∀ x ∈ ds, is_digit x = true) : canon_int (d :: ds) = true := by
  have hne : d ≠ 0x2d := by omega
  simp only [canon_int, if_neg hne, canon_nat, Bool.or_eq_true, Bool.and_eq_true,
    decide_eq_true_eq, List.all_eq_true]
  exact Or.inr ⟨⟨h1, h2⟩, hds⟩

theorem canon_int_neg {d : Nat} {ds : List Nat} (h1 : 0x31 ≤ d) (h2 : d ≤ 0x39)
    (hds : ∀ x ∈ ds, is_digit x = true) : canon_int (0x2d :: d :: ds) = true := by
  have hne : d :: ds ≠ [0x30] := by
    intro h
    have := (List.cons.inj h).1
    omega
  simp only [canon_int, if_true, canon_nat, Bool.or_eq_true, Bool.and_eq_true,
    decide_eq_true_eq, List.all_eq_true]
  exact ⟨Or.inr ⟨⟨h1, h2⟩, hds⟩, hne⟩

/-- The tail of the integer recogniser on any input `r`, after the nonzero
first digit `d`. -/
theorem integer_tail_classify {m : List Nat} {c : bencode} (t d : Nat) (r : List Nat)
    (h : At m c r) (htok : c.tok = some t) (h1 : 0x31 ≤ d) (h2 : d ≤ 0x39) :
    ∃ res ctx', integer_tail m (d : Int) c = some (res, ctx') ∧
      ((res = BENCODE_INTEGER ∧ ∃ ds post, r = ds ++ 0x65 :: post ∧
          ∀ x ∈ ds, is_digit x = true) ∨
       (res = BENCODE_ERROR_EOF ∧ ∀ x ∈ r, is_digit x = true) ∨
       (res = BENCODE_ERROR_INVALID ∧ ∃ ds x post, r = ds ++ x :: post ∧
          (∀ y ∈ ds, is_digit y = true) ∧ is_digit x = false ∧ x ≠ 0x65)) := by
  have hd : ¬ ((d : Int) < 0x30 ∨ (d : Int) > 0x39) := by omega
  obtain ⟨ds, r', e, hds, hr'⟩ := digit_run_split r
  subst e
  rcases hr' with rfl | ⟨x, post, rfl, hx⟩
  · have hrun := get_digits_end ds c.buflen c (by simpa using h) hds
      (by rw [h.2]; simp)
    refine ⟨BENCODE_ERROR_EOF, advance c ds.length, ?_,
      Or.inr (Or.inl ⟨rfl, by simpa using hds⟩)⟩
    simp only [integer_tail, if_neg hd, hrun]
    rfl
  · have hrun := get_digits_run ds c.buflen c x post h hds hx (by rw [h.2]; simp)
    by_cases hxe : x = 0x65
    · subst hxe
      refine ⟨BENCODE_INTEGER, { advance c (ds.length + 1) with
        toklen := (advance c (ds.length + 1)).buf - t - 1 }, ?_,
        Or.inl ⟨rfl, ds, post, rfl, hds⟩⟩
      have : (advance c (ds.length + 1)).tok = some t := htok
      simp only [integer_tail, if_neg hd, hrun]
      rw [if_neg (by decide), if_neg (by decide)]
      simp only [this]
    · refine ⟨BENCODE_ERROR_INVALID, advance c (ds.length + 1), ?_,
        Or.inr (Or.inr ⟨rfl, ds, x, post, rfl, hds, hx, hxe⟩)⟩
      have c1 : ¬ ((x : Int) = -1) := by omega
      have c2 : (x : Int) ≠ 0x65 := by omega
      simp only [integer_tail, if_neg hd, hrun, if_neg c1, if_pos c2]


theorem canon_int_no_e {lit : List Nat} (h : canon_int lit = true) : ∀ x ∈ lit, x ≠ 0x65 := by
  intro x hx
  rcases canon_int_cases h with rfl | ⟨d, r, rfl, h1, h2, h3⟩ | ⟨d, r, rfl, h1, h2, h3⟩
  · simp at hx; omega
  · rcases List.mem_cons.1 hx with rfl | hx
    · omega
    · have := h3 x hx
      simp [is_digit] at this; omega
  · rcases List.mem_cons.1 hx with rfl | hx
    · decide
    · rcases List.mem_cons.1 hx with rfl | hx
      · omega
      · have := h3 x hx
        simp [is_digit] at this; omega

theorem first_e_unique (a : List Nat) : ∀ (b s t : List Nat), (∀ x ∈ a, x ≠ 0x65) →
    (∀ x ∈ b, x ≠ 0x65) → a ++ 0x65 :: s = b ++ 0x65 :: t → a = b ∧ s = t := by
  induction a with
  | nil =>
    intro b s t _ hb h
    cases b with
    | nil => exact ⟨rfl, by simpa using h⟩
    | cons y b =>
      have := (List.cons.inj h).1
      exact absurd this.symm (hb y (List.mem_cons_self _ _))
  | cons x a ih =>
    intro b s t ha hb h
    cases b with
    | nil =>
      have := (List.cons.inj h).1
      exact absurd this (ha x (List.mem_cons_self _ _))
    | cons y b =>
      have h1 := (List.cons.inj h).1
      have h2 : a ++ 0x65 :: s = b ++ 0x65 :: t := by simpa using (List.cons.inj h).2
      obtain ⟨e1, e2⟩ := ih b s t (fun z hz => ha z (List.mem_cons_of_mem _ hz))
        (fun z hz => hb z (List.mem_cons_of_mem _ hz)) h2
      exact ⟨by rw [h1, e1], e2⟩

/-- A complete integer text is not also a proper initial part of one. -/
theorem text_not_cut {rest : List Nat} (h1 : IntegerText rest) (h2 : IntegerCut rest) : False := by
  obtain ⟨lit, post, e1, c1⟩ := h1
  obtain ⟨lit', suf, c2, hne, e2⟩ := h2
  rw [e1] at e2
  have e3 : lit ++ 0x65 :: (post ++ suf) = lit' ++ 0x65 :: [] := by simpa using e2
  have := (first_e_unique lit lit' _ _ (canon_int_no_e c1) (canon_int_no_e c2) e3).2
  have : suf = [] := by
    cases post with
    | nil => simpa using this
    | cons p post => simp at this
  exact hne this

/-- No canonical integer text agrees with input that starts with a byte other
than `-` and the digits. -/
theorem no_text_head {c : Nat} {r lit post : List Nat} (hc : canon_int lit = true)
    (h : c :: r = lit ++ 0x65 :: post) : c = 0x2d ∨ is_digit c = true := by
  rcases canon_int_cases hc with rfl | ⟨d, ds, rfl, h1, h2, _⟩ | ⟨d, ds, rfl, _, _, _⟩
  · have := (List.cons.inj h).1
    right; rw [this]; decide
  · have := (List.cons.inj h).1
    right; rw [this]; simp [is_digit]; omega
  · have := (List.cons.inj h).1
    left; exact this

/-- Both ways to be compatible with an integer text, as one statement. -/
theorem compat_of_text_or_cut {rest : List Nat} (h : IntegerText rest ∨ IntegerCut rest) :
    ∃ lit suf post, canon_int lit = true ∧ rest ++ suf = lit ++ 0x65 :: post := by
  rcases h with ⟨lit, post, e, c⟩ | ⟨lit, suf, c, _, e⟩
  · exact ⟨lit, [], post, c, by simpa using e⟩
  · exact ⟨lit, suf, [], c, e⟩

/-- The function `bencode_integer` on any input: it returns Integer exactly on
an integer text, reports the end of input exactly where the input stops
inside one, and rejects everything else. -/
theorem integer_classify {m : List Nat} {ctx : bencode} (rest : List Nat) (h : At m ctx rest) :
    ∃ res ctx', bencode_integer m ctx = some (res, ctx') ∧
      ((res = BENCODE_INTEGER ∧ IntegerText rest) ∨
       (res = BENCODE_ERROR_EOF ∧ IntegerCut rest) ∨
       (res = BENCODE_ERROR_INVALID ∧ ¬ IntegerText rest ∧ ¬ IntegerCut rest)) := by
  have hA : ∀ r, At m ctx r → At m { ctx with tok := some ctx.buf } r := fun _ h => h
  have hno : ∀ {rest : List Nat},
      (¬ ∃ lit suf post, canon_int lit = true ∧ rest ++ suf = lit ++ 0x65 :: post) →
      ¬ IntegerText rest ∧ ¬ IntegerCut rest := by
    intro rest hn
    exact ⟨fun h => hn (compat_of_text_or_cut (Or.inl h)),
      fun h => hn (compat_of_text_or_cut (Or.inr h))⟩
  cases rest with
  | nil =>
    refine ⟨BENCODE_ERROR_EOF, { ctx with tok := some ctx.buf }, ?_,
      Or.inr (Or.inl ⟨rfl, [0x30], [0x30, 0x65], by decide, by simp, rfl⟩)⟩
    simp only [bencode_integer, get_nil (hA _ h)]
    rfl
  | cons c r1 =>
    have g1 := get_cons (hA _ h)
    have hs1 : At m (advance { ctx with tok := some ctx.buf } 1) r1 := at_step (hA _ h)
    have e1 : ¬ ((c : Int) = -1) := by omega
    by_cases hm : c = 0x2d
    · subst hm
      cases r1 with
      | nil =>
        refine ⟨BENCODE_ERROR_EOF, advance { ctx with tok := some ctx.buf } 1, ?_,
          Or.inr (Or.inl ⟨rfl, [0x2d, 0x31], [0x31, 0x65], by decide, by simp, rfl⟩)⟩
        simp only [bencode_integer, g1, get_nil hs1]
        rfl
      | cons d r2 =>
        have g2 := get_cons hs1
        have f1 : ¬ ((d : Int) = -1) := by omega
        by_cases hd : 0x31 ≤ d ∧ d ≤ 0x39
        · have f2 : ¬ ((d : Int) < 0x31 ∨ (d : Int) > 0x39) := by omega
          obtain ⟨res, ctx', ht, hcl⟩ := integer_tail_classify
            (c := advance (advance { ctx with tok := some ctx.buf } 1) 1) ctx.buf d r2
            (at_step hs1) rfl hd.1 hd.2
          refine ⟨res, ctx', ?_, ?_⟩
          · simp only [bencode_integer, g1, g2]
            rw [if_neg (by decide), if_pos (by decide), if_neg f1, if_neg f2]
            exact ht
          · rcases hcl with ⟨rfl, ds, post, rfl, hds⟩ | ⟨rfl, hds⟩ | ⟨rfl, ds, x, post, rfl, hds, hx, hxe⟩
            · exact Or.inl ⟨rfl, 0x2d :: d :: ds, post, rfl, canon_int_neg hd.1 hd.2 hds⟩
            · exact Or.inr (Or.inl ⟨rfl, 0x2d :: d :: r2, [0x65],
                canon_int_neg hd.1 hd.2 hds, by simp, rfl⟩)
            · refine Or.inr (Or.inr ⟨rfl, hno ?_⟩)
              rintro ⟨lit, suf, post', hc, e⟩
              rcases canon_int_cases hc with rfl | ⟨d', ds', rfl, k1, k2, k3⟩ |
                ⟨d', ds', rfl, k1, k2, k3⟩
              · have := (List.cons.inj e).1
                omega
              · have := (List.cons.inj e).1
                omega
              · have e' : ds ++ x :: (post ++ suf) = ds' ++ 0x65 :: post' := by
                  have := (List.cons.inj (List.cons.inj e).2).2
                  simpa using this
                exact hxe (digits_then ds ds' x _ _ hds k3 hx e')
        · have f2 : (d : Int) < 0x31 ∨ (d : Int) > 0x39 := by omega
          refine ⟨BENCODE_ERROR_INVALID,
            advance (advance { ctx with tok := some ctx.buf } 1) 1, ?_,
            Or.inr (Or.inr ⟨rfl, hno ?_⟩)⟩
          · simp only [bencode_integer, g1, g2]
            rw [if_neg (by decide), if_pos (by decide), if_neg f1, if_pos f2]
          · rintro ⟨lit, suf, post', hc, e⟩
            rcases canon_int_cases hc with rfl | ⟨d', ds', rfl, k1, k2, k3⟩ |
              ⟨d', ds', rfl, k1, k2, k3⟩
            · have := (List.cons.inj e).1
              omega
            · have := (List.cons.inj e).1
              omega
            · have := (List.cons.inj (List.cons.inj e).2).1
              omega
    · have e2 : ¬ ((c : Int) = 0x2d) := by omega
      by_cases hz : c = 0x30
      · subst hz
        cases r1 with
        | nil =>
          refine ⟨BENCODE_ERROR_EOF, advance { ctx with tok := some ctx.buf } 1, ?_,
            Or.inr (Or.inl ⟨rfl, [0x30], [0x65], by decide, by simp, rfl⟩)⟩
          simp only [bencode_integer, g1, get_nil hs1]
          rfl
        | cons x r2 =>
          have g2 := get_cons hs1
          have f1 : ¬ ((x : Int) = -1) := by omega
          by_cases hx : x = 0x65
          · subst hx
            refine ⟨BENCODE_INTEGER,
              { advance (advance { ctx with tok := some ctx.buf } 1) 1 with toklen := 1 }, ?_,
              Or.inl ⟨rfl, [0x30], r2, rfl, by decide⟩⟩
            simp only [bencode_integer, g1, g2]
            rfl
          · have f2 : (x : Int) ≠ 0x65 := by omega
            refine ⟨BENCODE_ERROR_INVALID,
              advance (advance { ctx with tok := some ctx.buf } 1) 1, ?_,
              Or.inr (Or.inr ⟨rfl, hno ?_⟩)⟩
            · simp only [bencode_integer, g1, g2]
              rw [if_neg (by decide), if_neg (by decide), if_pos (by decide), if_neg f1,
                if_pos f2]
            · rintro ⟨lit, suf, post', hc, e⟩
              rcases canon_int_cases hc with rfl | ⟨d', ds', rfl, k1, k2, k3⟩ |
                ⟨d', ds', rfl, k1, k2, k3⟩
              · have := (List.cons.inj (List.cons.inj e).2).1
                exact hx this
              · have := (List.cons.inj e).1
                omega
              · have := (List.cons.inj e).1
                omega
      · have e3 : ¬ ((c : Int) = 0x30) := by omega
        by_cases hd : 0x31 ≤ c ∧ c ≤ 0x39
        · obtain ⟨res, ctx', ht, hcl⟩ := integer_tail_classify
            (c := advance { ctx with tok := some ctx.buf } 1) ctx.buf c r1 hs1 rfl hd.1 hd.2
          refine ⟨res, ctx', ?_, ?_⟩
          · simp only [bencode_integer, g1, if_neg e1, if_neg e2, if_neg e3]
            exact ht
          · rcases hcl with ⟨rfl, ds, post, rfl, hds⟩ | ⟨rfl, hds⟩ | ⟨rfl, ds, x, post, rfl, hds, hx, hxe⟩
            · exact Or.inl ⟨rfl, c :: ds, post, rfl, canon_int_pos hd.1 hd.2 hds⟩
            · exact Or.inr (Or.inl ⟨rfl, c :: r1, [0x65], canon_int_pos hd.1 hd.2 hds,
                by simp, rfl⟩)
            · refine Or.inr (Or.inr ⟨rfl, hno ?_⟩)
              rintro ⟨lit, suf, post', hc, e⟩
              rcases canon_int_cases hc with rfl | ⟨d', ds', rfl, k1, k2, k3⟩ |
                ⟨d', ds', rfl, k1, k2, k3⟩
              · have := (List.cons.inj e).1
                omega
              · have e' : ds ++ x :: (post ++ suf) = ds' ++ 0x65 :: post' := by
                  have := (List.cons.inj e).2
                  simpa using this
                exact hxe (digits_then ds ds' x _ _ hds k3 hx e')
              · have := (List.cons.inj e).1
                omega
        · have f2 : (c : Int) < 0x30 ∨ (c : Int) > 0x39 := by omega
          refine ⟨BENCODE_ERROR_INVALID, advance { ctx with tok := some ctx.buf } 1, ?_,
            Or.inr (Or.inr ⟨rfl, hno ?_⟩)⟩
          · simp only [bencode_integer, g1, if_neg e1, if_neg e2, if_neg e3, integer_tail,
              if_pos f2]
          · rintro ⟨lit, suf, post', hc, e⟩
            rcases no_text_head hc (show c :: (r1 ++ suf) = lit ++ 0x65 :: post' from e) with
              h1 | h1
            · exact hm h1
            · simp [is_digit] at h1
              omega


/-- C6 (counterexample): in `i-0e` the bytes after the `i` begin with `-0`,
which matches `-`? (`0` | `[1-9][0-9]*`), followed by `e`; yet the call
returns `BENCODE_ERROR_INVALID`, not `BENCODE_INTEGER`. -/
theorem C6_minus_zero_is_rejected :
    RegexText (bytes "-0e") ∧ bytes "i-0e" = 0x69 :: bytes "-0e" ∧
    decode "i-0e" 1 = some [(BENCODE_ERROR_INVALID, [])] :=
  ⟨⟨bytes "-0", [], by decide, by decide⟩, by decide, by decide⟩

/-- C6 (amended): in value position in front of `i`, `bencode_next` returns
`BENCODE_INTEGER` iff the bytes after the `i` begin with a literal matching
`0` | `-`? `[1-9][0-9]*` immediately followed by `e`, and then the view is
that literal and the cursor is just past the `e`; it returns
`BENCODE_ERROR_EOF` iff the input ends inside such a text, and
`BENCODE_ERROR_INVALID` in every other case. -/
theorem C6_integer_canonical_form (P : Platform) (m : List Nat) (ctx : bencode)
    (fs : List Frame) (rest : List Nat) (hs : Stk ctx fs) (hv : ValuePos fs)
    (h : At m ctx (0x69 :: rest)) :
    ∃ r ctx', bencode_next P m ctx = some (r, ctx') ∧
      (r = BENCODE_INTEGER ↔ IntegerText rest) ∧
      (r = BENCODE_ERROR_EOF ↔ IntegerCut rest) ∧
      (r = BENCODE_ERROR_INVALID ↔ ¬ IntegerText rest ∧ ¬ IntegerCut rest) ∧
      (∀ lit post, rest = lit ++ 0x65 :: post → canon_int lit = true →
        view m ctx' = lit ∧ At m ctx' post) := by
  obtain ⟨stk, he, _, _⟩ := enter_value_pos hs hv h (by decide)
  have h1 : At m { ctx with stack := stk } (0x69 :: rest) := h
  have g := get_cons h1
  obtain ⟨res, ctx', hi, hcl⟩ := integer_classify rest (at_step h1)
  have hnext : bencode_next P m ctx = some (res, ctx') := by
    rw [next_of_go P he]
    simp only [next_switch, g]
    rw [if_neg (by decide), if_neg (by decide), if_neg (by decide), if_pos (by decide)]
    simp only [hi]
  refine ⟨res, ctx', hnext, ?_, ?_, ?_, ?_⟩
  · constructor
    · intro hr
      rcases hcl with ⟨_, ht⟩ | ⟨hr', _⟩ | ⟨hr', _⟩
      · exact ht
      · rw [hr] at hr'; exact absurd hr' (by decide)
      · rw [hr] at hr'; exact absurd hr' (by decide)
    · intro ht
      rcases hcl with ⟨hr, _⟩ | ⟨_, hc⟩ | ⟨_, hn, _⟩
      · exact hr
      · exact (text_not_cut ht hc).elim
      · exact absurd ht hn
  · constructor
    · intro hr
      rcases hcl with ⟨hr', _⟩ | ⟨_, hc⟩ | ⟨hr', _⟩
      · rw [hr] at hr'; exact absurd hr' (by decide)
      · exact hc
      · rw [hr] at hr'; exact absurd hr' (by decide)
    · intro hc
      rcases hcl with ⟨_, ht⟩ | ⟨hr, _⟩ | ⟨_, _, hn⟩
      · exact (text_not_cut ht hc).elim
      · exact hr
      · exact absurd hc hn
  · constructor
    · intro hr
      rcases hcl with ⟨hr', _⟩ | ⟨hr', _⟩ | ⟨_, hn⟩
      · rw [hr] at hr'; exact absurd hr' (by decide)
      · rw [hr] at hr'; exact absurd hr' (by decide)
      · exact hn
    · rintro ⟨hn1, hn2⟩
      rcases hcl with ⟨_, ht⟩ | ⟨_, hc⟩ | ⟨hr, _⟩
      · exact absurd ht hn1
      · exact absurd hc hn2
      · exact hr
  · intro lit post e hc
    subst e
    obtain ⟨c2, k1, k2, k3, _⟩ := step_int P lit post hs hv h hc
    rw [hnext] at k1
    simp only [Option.some.injEq, Prod.mk.injEq] at k1
    obtain ⟨_, rfl⟩ := k1
    exact ⟨k2, k3⟩

/-- C6 (witness): the amended claim on the buffer `i-1e` of a fresh decoder. -/
theorem C6_integer_canonical_form_witness :
    ∃ r ctx', bencode_next lp64 (bytes "i-1e") (bencode_init 4) = some (r, ctx') ∧
      (r = BENCODE_INTEGER ↔ IntegerText (bytes "-1e")) ∧
      (r = BENCODE_ERROR_EOF ↔ IntegerCut (bytes "-1e")) ∧
      (r = BENCODE_ERROR_INVALID ↔ ¬ IntegerText (bytes "-1e") ∧ ¬ IntegerCut (bytes "-1e")) ∧
      (∀ lit post, bytes "-1e" = lit ++ 0x65 :: post → canon_int lit = true →
        view (bytes "i-1e") ctx' = lit ∧ At (bytes "i-1e") ctx' post) :=
  C6_integer_canonical_form lp64 (bytes "i-1e") (bencode_init 4) [] (bytes "-1e")
    (stk_init 4) valuePos_nil ⟨by decide, by decide⟩


/-! # The key log -/

theorem Live.top_frame {ctx : bencode} {fs : List Frame} {f : Frame} (h : Live ctx (fs ++ [f])) :
    ctx.cap = 0 ∧ ctx.size = fs.length + 1 ∧ ∃ junk, ctx.stack = some (fs ++ f :: junk) := by
  obtain ⟨h1, h2, h3⟩ := h
  refine ⟨h1, by simpa using h2, ?_⟩
  cases hs : ctx.stack with
  | none => rw [hs] at h3; simp at h3
  | some blk =>
    rw [hs] at h3
    obtain ⟨junk, hb⟩ := h3
    exact ⟨junk, by rw [hb]; simp⟩

theorem Live.intro {ctx : bencode} {fs j : List Frame} (h1 : ctx.cap = 0)
    (h2 : ctx.size = fs.length) (h3 : ctx.stack = some (fs ++ j)) : Live ctx fs := by
  refine ⟨h1, h2, ?_⟩
  rw [h3]
  exact ⟨j, rfl⟩

theorem Live.nonempty {ctx : bencode} {fs : List Frame} (h : Live ctx fs) (hz : ctx.size ≠ 0) :
    ∃ fs0 f, fs = fs0 ++ [f] := by
  rcases List.eq_nil_or_concat fs with rfl | ⟨fs0, f, rfl⟩
  · exact absurd h.2.1 hz
  · exact ⟨fs0, f, by simp⟩

theorem Live.moved {ctx ctx1 : bencode} {fs : List Frame} (h : Live ctx fs) (hm : Moved ctx ctx1) :
    Live ctx1 fs := by
  obtain ⟨h1, h2, h3⟩ := h
  refine ⟨hm.2.1.trans h1, hm.2.2.1.trans h2, ?_⟩
  rw [hm.1]; exact h3

theorem is_value_top {ctx : bencode} {fs0 junk : List Frame} {f : Frame}
    (hs : ctx.stack = some (fs0 ++ f :: junk)) (hz : ctx.size = fs0.length + 1) :
    BENCODE_IS_VALUE ctx = some (f.flags.dict && f.flags.expect_value) := by
  have h1 : ctx.size ≠ 0 := by omega
  have h2 : ctx.size - 1 = fs0.length := by omega
  unfold BENCODE_IS_VALUE
  rw [if_pos h1, hs]
  simp only [h2, getElem?_mid, Option.map_some']

theorem is_value_zero {ctx : bencode} (hz : ctx.size = 0) :
    BENCODE_IS_VALUE ctx = some false := by
  unfold BENCODE_IS_VALUE
  rw [if_neg (by simp [hz])]

theorem Live.intro_top {ctx : bencode} {fs0 j : List Frame} {g : Frame} (h1 : ctx.cap = 0)
    (h2 : ctx.size = fs0.length + 1) (h3 : ctx.stack = some (fs0 ++ g :: j)) :
    Live ctx (fs0 ++ [g]) :=
  Live.intro (j := j) h1 (by simpa using h2) (by rw [h3]; simp)

theorem Live.get_top {ctx : bencode} {fs0 blk : List Frame} {f g : Frame}
    (hl : Live ctx (fs0 ++ [f])) (hs : ctx.stack = some blk)
    (hf : blk[ctx.size - 1]? = some g) :
    g = f ∧ ctx.size = fs0.length + 1 ∧ ctx.cap = 0 ∧ ∃ junk, blk = fs0 ++ f :: junk := by
  obtain ⟨hcap, hsize, junk, hstk⟩ := hl.top_frame
  rw [hs] at hstk
  have hblk : blk = fs0 ++ f :: junk := Option.some.inj hstk
  have hidx : ctx.size - 1 = fs0.length := by omega
  rw [hidx, hblk, getElem?_mid] at hf
  exact ⟨(Option.some.inj hf).symm, hsize, hcap, junk, hblk⟩

theorem Live.nil_of_size {ctx : bencode} {fs : List Frame} (hl : Live ctx fs)
    (hz : ctx.size = 0) : fs = [] := by
  have := hl.2.1
  rw [hz] at this
  exact List.length_eq_zero.mp this.symm

theorem entered_value_dict' {f : Frame} (hd : f.flags.dict = true) :
    entered_value f = { f with flags := ⟨false, true, false⟩ } := by
  unfold entered_value
  rw [if_pos hd]

theorem entered_value_list {f : Frame} (hd : f.flags.dict = false) :
    entered_value f = { f with flags := { f.flags with first := false } } := by
  unfold entered_value
  rw [if_neg (by simp [hd])]

theorem entered_value_facts (f : Frame) :
    (entered_value f).key = f.key ∧ (entered_value f).keylen = f.keylen ∧
      (entered_value f).flags.dict = f.flags.dict ∧ (entered_value f).flags.first = false ∧
      (f.flags.dict = false → (entered_value f).flags.expect_value = f.flags.expect_value) ∧
      (f.flags.dict = true → (entered_value f).flags.expect_value = false) := by
  rcases Bool.eq_false_or_eq_true f.flags.dict with hd | hd
  · rw [entered_value_dict' hd]
    refine ⟨rfl, rfl, hd.symm, rfl, ?_, ?_⟩
    · intro h
      rw [hd] at h
      cases h
    · intro _
      rfl
  · rw [entered_value_list hd]
    refine ⟨rfl, rfl, rfl, rfl, ?_, ?_⟩
    · intro _
      rfl
    · intro h
      rw [hd] at h
      cases h

/-- An early return of the first part of `bencode_next`. -/
theorem enter_ret {m : List Nat} {ctx cx : bencode} {fs : List Frame} {r : Int}
    (hl : Live ctx fs) (he : next_enter m ctx = some (.ret r cx)) :
    cx.buf = ctx.buf ∧ cx.buflen = ctx.buflen ∧ cx.tok = ctx.tok ∧ cx.toklen = ctx.toklen ∧
      ∃ fs1, Live cx fs1 ∧ FrameStep m cx fs r fs1 := by
  have hc := enter_cases he
  generalize hE : Entered.ret r cx = E at hc
  cases hc with
  | at_end h0 hb =>
    simp only [Entered.ret.injEq] at hE
    obtain ⟨rfl, rfl⟩ := hE
    have hnil := hl.nil_of_size h0
    subst hnil
    refine ⟨rfl, rfl, rfl, rfl, [], hl, .none_open _ ?_⟩
    split <;> decide
  | top => cases hE
  | item => cases hE
  | value => cases hE
  | no_value blk f hz hs hf hd he' hp =>
    simp only [Entered.ret.injEq] at hE
    obtain ⟨rfl, rfl⟩ := hE
    obtain ⟨fs0, f0, rfl⟩ := hl.nonempty hz
    obtain ⟨rfl, e2, e3, junk, rfl⟩ := hl.get_top hs hf
    have hidx : ctx.size - 1 = fs0.length := by omega
    refine ⟨rfl, rfl, rfl, rfl, fs0 ++ [{ f with flags := ⟨false, true, true⟩ }], ?_, ?_⟩
    · refine Live.intro_top (j := junk) e3 e2 ?_
      show some _ = some _
      rw [hidx, set_mid]
    · exact .failed fs0 f _ _ (by decide) rfl rfl hd.symm rfl (fun h => by rw [hd] at h; cases h)
        (fun h => absurd h (by decide))
  | key => cases hE
  | no_key blk f c hz hs hf hd he' hp hc' =>
    simp only [Entered.ret.injEq] at hE
    obtain ⟨rfl, rfl⟩ := hE
    obtain ⟨fs0, f0, rfl⟩ := hl.nonempty hz
    obtain ⟨rfl, e2, e3, junk, rfl⟩ := hl.get_top hs hf
    have hidx : ctx.size - 1 = fs0.length := by omega
    refine ⟨rfl, rfl, rfl, rfl, fs0 ++ [{ f with flags := ⟨false, true, false⟩ }], ?_, ?_⟩
    · refine Live.intro_top (j := junk) e3 e2 ?_
      show some _ = some _
      rw [hidx, set_mid]
    · exact .failed fs0 f _ _ (by decide) rfl rfl hd.symm rfl (fun h => by rw [hd] at h; cases h)
        (fun h => absurd h (by decide))

/-- The first part of `bencode_next` going on to the `switch`: the next
element is in value position and the top frame is marked accordingly, or it is
in key position, a digit or `e` follows, and `keyptr` points to the top frame. -/
theorem enter_go {m : List Nat} {ctx cx : bencode} {fs : List Frame} {kp : Option Nat}
    (hl : Live ctx fs) (he : next_enter m ctx = some (.go cx kp)) :
    cx.buf = ctx.buf ∧ cx.buflen = ctx.buflen ∧ cx.tok = ctx.tok ∧ cx.toklen = ctx.toklen ∧
      ((kp = none ∧ ValuePos fs ∧ Live cx (enter_top fs) ∧
          (∀ f, fs.getLast? = some f → f.flags.dict = true →
            bencode_peek m ctx ≠ some 0x65)) ∨
        (∃ fs0 f c, fs = fs0 ++ [f] ∧ f.flags.dict = true ∧ f.flags.expect_value = false ∧
          kp = some fs0.length ∧ Live cx (fs0 ++ [{ f with flags := ⟨false, true, true⟩ }]) ∧
          bencode_peek m ctx = some c ∧ (c = 0x65 ∨ (0x30 ≤ c ∧ c ≤ 0x39)))) := by
  have hc := enter_cases he
  generalize hE : Entered.go cx kp = E at hc
  cases hc with
  | at_end => cases hE
  | top h0 hb =>
    simp only [Entered.go.injEq] at hE
    obtain ⟨rfl, rfl⟩ := hE
    have hnil := hl.nil_of_size h0
    subst hnil
    refine ⟨rfl, rfl, rfl, rfl, Or.inl ⟨rfl, valuePos_nil, hl, ?_⟩⟩
    intro f hf
    simp at hf
  | item blk f hz hs hf hd =>
    simp only [Entered.go.injEq] at hE
    obtain ⟨rfl, rfl⟩ := hE
    obtain ⟨fs0, f0, rfl⟩ := hl.nonempty hz
    obtain ⟨rfl, e2, e3, junk, rfl⟩ := hl.get_top hs hf
    have hidx : ctx.size - 1 = fs0.length := by omega
    refine ⟨rfl, rfl, rfl, rfl, Or.inl ⟨rfl, ?_, ?_, ?_⟩⟩
    · intro g hg
      rw [List.getLast?_concat] at hg
      cases hg
      exact Or.inl hd
    · rw [enter_top_concat, entered_value_list hd]
      refine Live.intro_top (j := junk) e3 e2 ?_
      show some _ = some _
      rw [hidx, set_mid]
    · intro g hg hgd
      rw [List.getLast?_concat] at hg
      cases hg
      rw [hd] at hgd
      cases hgd
  | value blk f c hz hs hf hd he' hp hc' =>
    simp only [Entered.go.injEq] at hE
    obtain ⟨rfl, rfl⟩ := hE
    obtain ⟨fs0, f0, rfl⟩ := hl.nonempty hz
    obtain ⟨rfl, e2, e3, junk, rfl⟩ := hl.get_top hs hf
    have hidx : ctx.size - 1 = fs0.length := by omega
    refine ⟨rfl, rfl, rfl, rfl, Or.inl ⟨rfl, ?_, ?_, ?_⟩⟩
    · intro g hg
      rw [List.getLast?_concat] at hg
      cases hg
      exact Or.inr he'
    · rw [enter_top_concat, entered_value_dict' hd]
      refine Live.intro_top (j := junk) e3 e2 ?_
      show some _ = some _
      rw [hidx, set_mid]
    · intro g hg hgd hpe
      rw [hp] at hpe
      exact hc' (Option.some.inj hpe)
  | no_value => cases hE
  | key blk f c hz hs hf hd he' hp hc' =>
    simp only [Entered.go.injEq] at hE
    obtain ⟨rfl, rfl⟩ := hE
    obtain ⟨fs0, f0, rfl⟩ := hl.nonempty hz
    obtain ⟨rfl, e2, e3, junk, rfl⟩ := hl.get_top hs hf
    have hidx : ctx.size - 1 = fs0.length := by omega
    refine ⟨rfl, rfl, rfl, rfl, Or.inr ⟨fs0, f, c, rfl, hd, he', by rw [hidx], ?_, hp, hc'⟩⟩
    refine Live.intro_top (j := junk) e3 e2 ?_
    show some _ = some _
    rw [hidx, set_mid]
  | no_key => cases hE


/-- What the key check does to a string in key position: it stores the view
as the new key of the frame, or returns `BENCODE_ERROR_BAD_KEY` and leaves
the state as it is. -/
theorem next_key_inv {m : List Nat} {i : Nat} {r1 : Int} {ctx ctx1 : bencode}
    (h : next_key m (some i) BENCODE_STRING ctx = some (r1, ctx1)) :
    ∃ blk tok f, ctx.stack = some blk ∧ ctx.tok = some tok ∧ blk[i]? = some f ∧
      ((r1 = BENCODE_STRING ∧ ctx1 = { ctx with
          stack := some (blk.set i { f with key := some tok, keylen := ctx.toklen }) }) ∨
        (r1 = BENCODE_ERROR_BAD_KEY ∧ ctx1 = ctx ∧ ∃ key, f.key = some key)) := by
  unfold next_key at h
  simp only at h
  rw [if_pos trivial] at h
  cases hs : ctx.stack with
  | none => rw [hs] at h; cases h
  | some blk =>
    rcases Option.eq_none_or_eq_some ctx.tok with ht | ⟨tok, ht⟩
    · rw [hs, ht] at h; cases h
    · rw [hs, ht] at h
      simp only at h
      cases hf : blk[i]? with
      | none => rw [hf] at h; cases h
      | some f =>
        rw [hf] at h
        simp only at h
        refine ⟨blk, tok, f, rfl, ht, hf, ?_⟩
        have hacc : ∀ {x : Option (Int × bencode)},
            x = some (BENCODE_STRING, { ctx with tok := some tok, stack := some (blk.set i
              { f with key := some tok, keylen := ctx.toklen }) }) → x = some (r1, ctx1) →
            r1 = BENCODE_STRING ∧ ctx1 = { ctx with stack := some (blk.set i
              { f with key := some tok, keylen := ctx.toklen }) } := by
          intro x hx hx1
          rw [hx] at hx1
          simp only [Option.some.injEq, Prod.mk.injEq] at hx1
          obtain ⟨rfl, rfl⟩ := hx1
          refine ⟨rfl, ?_⟩
          show _ = ({ ctx with stack := _ } : bencode)
          rw [← ht]
        have hbad : ∀ {x : Option (Int × bencode)},
            x = some (BENCODE_ERROR_BAD_KEY, ctx) → x = some (r1, ctx1) →
            r1 = BENCODE_ERROR_BAD_KEY ∧ ctx1 = ctx := by
          intro x hx hx1
          rw [hx] at hx1
          simp only [Option.some.injEq, Prod.mk.injEq] at hx1
          exact ⟨hx1.1.symm, hx1.2.symm⟩
        cases hk : f.key with
        | none => rw [hk] at h; simp only at h; exact Or.inl (hacc rfl h)
        | some key =>
          rw [hk] at h
          simp only at h
          by_cases h1 : ctx.toklen < f.keylen
          · rw [if_pos h1] at h
            cases hm : memcmp m tok key ctx.toklen with
            | none => rw [hm] at h; cases h
            | some d =>
              rw [hm] at h
              simp only at h
              by_cases hd : d ≤ 0
              · rw [if_pos hd] at h
                obtain ⟨a, b⟩ := hbad rfl h
                exact Or.inr ⟨a, b, key, rfl⟩
              · rw [if_neg hd] at h; exact Or.inl (hacc rfl h)
          · rw [if_neg h1] at h
            by_cases h2 : f.keylen < ctx.toklen
            · rw [if_pos h2] at h
              cases hm : memcmp m tok key f.keylen with
              | none => rw [hm] at h; cases h
              | some d =>
                rw [hm] at h
                simp only at h
                by_cases hd : d < 0
                · rw [if_pos hd] at h
                  obtain ⟨a, b⟩ := hbad rfl h
                  exact Or.inr ⟨a, b, key, rfl⟩
                · rw [if_neg hd] at h; exact Or.inl (hacc rfl h)
            · rw [if_neg h2] at h
              cases hm : memcmp m tok key ctx.toklen with
              | none => rw [hm] at h; cases h
              | some d =>
                rw [hm] at h
                simp only at h
                by_cases hd : d ≤ 0
                · rw [if_pos hd] at h
                  obtain ⟨a, b⟩ := hbad rfl h
                  exact Or.inr ⟨a, b, key, rfl⟩
                · rw [if_neg hd] at h; exact Or.inl (hacc rfl h)

theorem next_key_other {m : List Nat} {kp : Option Nat} {r : Int} {ctx : bencode}
    (hr : r ≠ BENCODE_STRING) : next_key m kp r ctx = some (r, ctx) := by
  unfold next_key
  cases kp with
  | none => rfl
  | some i =>
    simp only
    rw [if_neg hr]

theorem getElem?_split {α : Type} (fs junk : List α) (old : α)
    (h : (fs ++ junk)[fs.length]? = some old) : ∃ post, junk = old :: post := by
  cases junk with
  | nil => simp at h
  | cons a post =>
    rw [getElem?_mid] at h
    exact ⟨post, by rw [Option.some.inj h]⟩

/-- A successful push finds room for the new frame right behind the live frames. -/
theorem live_push (P : Platform) {ctx : bencode} {fs blk : List Frame}
    {stk : Option (List Frame)} {old : Frame} (hl : Live ctx fs)
    (hp : bencode_push P ctx = some (ctx.size, { ctx with stack := stk, size := ctx.size + 1 }))
    (hs : stk = some blk) (ho : blk[ctx.size]? = some old) :
    ∃ junk, blk = fs ++ old :: junk := by
  obtain ⟨_, stk1, e, hcase⟩ := push_cases P hp
  have hstk : stk1 = stk := by
    have := congrArg bencode.stack e
    exact this.symm
  obtain ⟨hcap, hsize, hblk⟩ := hl
  rw [hsize] at ho
  rcases hcase with ⟨_, h2⟩ | ⟨h1, h2, n, h3⟩
  · rw [hstk, hs] at h2
    rw [← h2] at hblk
    obtain ⟨junk, rfl⟩ := hblk
    obtain ⟨post, rfl⟩ := getElem?_split fs junk old ho
    exact ⟨post, rfl⟩
  · have hz : ctx.size = 0 := by rw [h1, hcap]
    have hnil : fs = [] := by
      rw [hz] at hsize
      exact List.length_eq_zero.mp hsize.symm
    subst hnil
    obtain ⟨post, e2⟩ := getElem?_split [] blk old (by simpa using ho)
    exact ⟨post, by simpa using e2⟩


theorem enter_top_nil : enter_top [] = [] := rfl

/-- The `switch` of `bencode_next` on an element in value position. -/
theorem switch_value (P : Platform) {m : List Nat} {cx c2 : bencode} {fs : List Frame}
    {b : Bool} {r0 : Int} (hv : ValuePos fs) (hl : Live cx (enter_top fs))
    (hpk : ∀ f, fs.getLast? = some f → f.flags.dict = true → bencode_peek m cx ≠ some 0x65)
    (hs : next_switch P m cx = some (b, r0, c2)) :
    c2.buf + c2.buflen = cx.buf + cx.buflen ∧ cx.buf ≤ c2.buf ∧
      ∃ fs1, Live c2 fs1 ∧ FrameStep m c2 fs r0 fs1 := by
  have hsw := switch_cases P hs
  cases hsw with
  | leaf _ _ _ hm hr hb hx =>
    have hlive := hl.moved hm
    refine ⟨hm.2.2.2.1, hm.2.2.2.2, ?_⟩
    rcases List.eq_nil_or_concat fs with rfl | ⟨fs0, f, rfl⟩
    · refine ⟨[], hlive, .none_open _ ?_⟩
      rcases hr with rfl | rfl | rfl | rfl | ⟨rfl, _⟩ <;> decide
    · have e : fs0.concat f = fs0 ++ [f] := by simp
      rw [e] at hlive hv ⊢
      rw [enter_top_concat] at hlive
      obtain ⟨a1, a2, a3, a4, a5, _⟩ := entered_value_facts f
      have hvf : f.flags.dict = false ∨ f.flags.expect_value = true :=
        hv f (List.getLast?_concat _)
      refine ⟨_, hlive, ?_⟩
      rcases hr with rfl | rfl | rfl | rfl | ⟨rfl, _⟩
      · exact .failed fs0 f _ _ (by decide) a1 a2 a3 a4 a5 (fun h => absurd h (by decide))
      · exact .failed fs0 f _ _ (by decide) a1 a2 a3 a4 a5 (fun h => absurd h (by decide))
      · exact .failed fs0 f _ _ (by decide) a1 a2 a3 a4 a5 (fun h => absurd h (by decide))
      · exact .value fs0 f _ (Or.inl rfl) hvf
      · exact .value fs0 f _ (Or.inr rfl) hvf
  | dict_begin cy stk blk old hg hp hst ho =>
    obtain ⟨g1, _⟩ := get_moved hg
    have hl1 := hl.moved g1
    obtain ⟨junk, rfl⟩ := live_push P hl1 hp hst ho
    refine ⟨g1.2.2.2.1, g1.2.2.2.2, _, ?_, .dict_begin fs hv⟩
    refine Live.intro_top (j := junk) hl1.1 ?_ ?_
    · show cy.size + 1 = _
      rw [hl1.2.1]
    · show some _ = some _
      rw [hl1.2.1, set_mid]
  | list_begin cy stk blk old hg hp hst ho =>
    obtain ⟨g1, _⟩ := get_moved hg
    have hl1 := hl.moved g1
    obtain ⟨junk, rfl⟩ := live_push P hl1 hp hst ho
    refine ⟨g1.2.2.2.1, g1.2.2.2.2, _, ?_, .list_begin fs old hv⟩
    refine Live.intro_top (j := junk) hl1.1 ?_ ?_
    · show cy.size + 1 = _
      rw [hl1.2.1]
    · show some _ = some _
      rw [hl1.2.1, set_mid]
  | container_end cy blk f hg hsz hst hf =>
    obtain ⟨g1, _⟩ := get_moved hg
    have hl1 := hl.moved g1
    have hpeek : bencode_peek m cx = some 0x65 := peek_of_get hg (by decide)
    rcases List.eq_nil_or_concat fs with rfl | ⟨fs0, f0, rfl⟩
    · exact absurd hl1.2.1 hsz
    · have e : fs0.concat f0 = fs0 ++ [f0] := by simp
      rw [e] at hl1 hv hpk ⊢
      rw [enter_top_concat] at hl1
      obtain ⟨rfl, e2, e3, junk, rfl⟩ := hl1.get_top hst hf
      obtain ⟨_, _, a3, _, _, _⟩ := entered_value_facts f0
      have hvf : f0.flags.dict = false ∨ f0.flags.expect_value = true :=
        hv f0 (List.getLast?_concat _)
      have hd : f0.flags.dict = false := by
        rcases Bool.eq_false_or_eq_true f0.flags.dict with hd | hd
        · exact absurd hpeek (hpk f0 (List.getLast?_concat _) hd)
        · exact hd
      refine ⟨g1.2.2.2.1, g1.2.2.2.2, fs0, ?_, ?_⟩
      · refine Live.intro (j := entered_value f0 :: junk) e3 ?_ hst
        show cy.size - 1 = _
        omega
      · rw [a3, hd]
        exact .list_end fs0 f0 hd


theorem not_key_byte {m : List Nat} {cx : bencode} {c d : Int}
    (hp : bencode_peek m cx = some c) (hc : c = 0x65 ∨ (0x30 ≤ c ∧ c ≤ 0x39))
    (hq : bencode_peek m cx = some d) (hd : d = 0x64 ∨ d = 0x6c ∨ d = 0x69) : False := by
  have e : c = d := Option.some.inj (hp.symm.trans hq)
  omega

/-- The `switch` and the key check of `bencode_next` on an element in key position. -/
theorem switch_key (P : Platform) {m : List Nat} {cx c2 ctx1 : bencode} {fs0 : List Frame}
    {f : Frame} {b : Bool} {r0 r c : Int} (hd : f.flags.dict = true)
    (he : f.flags.expect_value = false)
    (hl : Live cx (fs0 ++ [{ f with flags := ⟨false, true, true⟩ }]))
    (hp : bencode_peek m cx = some c) (hc : c = 0x65 ∨ (0x30 ≤ c ∧ c ≤ 0x39))
    (hs : next_switch P m cx = some (b, r0, c2))
    (hfin : (b = false ∧ r = r0 ∧ ctx1 = c2) ∨
      (b = true ∧ next_key m (some fs0.length) r0 c2 = some (r, ctx1))) :
    ctx1.buf + ctx1.buflen = cx.buf + cx.buflen ∧ cx.buf ≤ ctx1.buf ∧
      ∃ fs1, Live ctx1 fs1 ∧ FrameStep m ctx1 (fs0 ++ [f]) r fs1 := by
  have hsw := switch_cases P hs
  cases hsw with
  | leaf _ _ _ hm hr hb hx =>
    have hlive := hl.moved hm
    have herr : r0 ≠ BENCODE_STRING → r0 < 0 →
        r0 ≠ BENCODE_ERROR_BAD_KEY →
        ctx1.buf + ctx1.buflen = cx.buf + cx.buflen ∧ cx.buf ≤ ctx1.buf ∧
          ∃ fs1, Live ctx1 fs1 ∧ FrameStep m ctx1 (fs0 ++ [f]) r fs1 := by
      intro h1 h2 h3
      have hboth : r = r0 ∧ ctx1 = c2 := by
        rcases hfin with ⟨_, a, b'⟩ | ⟨_, a⟩
        · exact ⟨a, b'⟩
        · rw [next_key_other h1] at a
          simp only [Option.some.injEq, Prod.mk.injEq] at a
          exact ⟨a.1.symm, a.2.symm⟩
      obtain ⟨rfl, rfl⟩ := hboth
      exact ⟨hm.2.2.2.1, hm.2.2.2.2, _, hlive, .failed fs0 f _ _ h2 rfl rfl hd.symm rfl
        (fun h => by rw [hd] at h; cases h) (fun h => absurd h h3)⟩
    rcases hr with h0 | h0 | h0 | h0 | ⟨h0, hbt, t, ht1, ht2, ht3⟩
    · exact herr (by rw [h0]; decide) (by rw [h0]; decide) (by rw [h0]; decide)
    · rcases hx.2.1 h0 with hq | hq
      · exact (not_key_byte hp hc hq (Or.inl rfl)).elim
      · exact (not_key_byte hp hc hq (Or.inr (Or.inl rfl))).elim
    · exact herr (by rw [h0]; decide) (by rw [h0]; decide) (by rw [h0]; decide)
    · exact (not_key_byte hp hc (hx.1 h0).1 (Or.inr (Or.inr rfl))).elim
    · subst h0
      rcases hfin with ⟨a, _⟩ | ⟨_, hk⟩
      · rw [hbt] at a; cases a
      · obtain ⟨blk, tok, f1, hstk, htok, hf1, hcase⟩ := next_key_inv hk
        obtain ⟨hcap, hsize, junk, hstk1⟩ := hlive.top_frame
        rw [hstk] at hstk1
        have hblk : blk = fs0 ++ { f with flags := ⟨false, true, true⟩ } :: junk :=
          Option.some.inj hstk1
        have hf2 : f1 = { f with flags := ⟨false, true, true⟩ } := by
          rw [hblk, getElem?_mid] at hf1
          exact (Option.some.inj hf1).symm
        rcases hcase with ⟨rfl, rfl⟩ | ⟨rfl, rfl, key, hkey⟩
        · refine ⟨hm.2.2.2.1, hm.2.2.2.2, fs0 ++ [⟨some tok, c2.toklen, ⟨false, true, true⟩⟩],
            ?_, ?_⟩
          · refine Live.intro_top (j := junk) hcap hsize ?_
            show some _ = some _
            rw [hblk, set_mid, hf2]
          · refine .key fs0 f tok hd he htok ?_
            intro k hk1 hb1 hb2
            have hkey : f1.key = some k := by rw [hf2]; exact hk1
            have hb3 : k + f1.keylen ≤ m.length := by rw [hf2]; exact hb2
            have hx1 := next_key_some (m := m) fs0.length tok k hstk htok hf1 hkey hb1 hb3
            rw [hx1] at hk
            have hb4 : f1.keylen = f.keylen := by rw [hf2]
            rw [hb4] at hk
            by_cases hlt : (m.drop k).take f.keylen < (m.drop tok).take c2.toklen
            · exact hlt
            · rw [if_neg hlt] at hk
              simp only [Option.some.injEq, Prod.mk.injEq] at hk
              exact absurd hk.1 (by decide)
        · refine ⟨hm.2.2.2.1, hm.2.2.2.2, _, hlive, ?_⟩
          have hkey1 : f.key = some key := by rw [hf2] at hkey; exact hkey
          refine .failed fs0 f _ _ (by decide) rfl rfl hd.symm rfl
            (fun h => by rw [hd] at h; cases h) ?_
          intro _
          refine ⟨hd, he, key, tok, hkey1, htok, ?_⟩
          intro hb1 hb2 hlt
          have hb3 : key + f1.keylen ≤ m.length := by rw [hf2]; exact hb2
          have hx1 := next_key_some (m := m) fs0.length tok key hstk htok hf1 hkey hb1 hb3
          rw [hx1] at hk
          have hb4 : f1.keylen = f.keylen := by rw [hf2]
          rw [hb4, if_pos hlt] at hk
          simp only [Option.some.injEq, Prod.mk.injEq] at hk
          exact absurd hk.1 (by decide)
  | dict_begin cy stk blk old hg hp1 hst ho =>
    exact (not_key_byte hp hc (peek_of_get hg (by decide)) (Or.inl rfl)).elim
  | list_begin cy stk blk old hg hp1 hst ho =>
    exact (not_key_byte hp hc (peek_of_get hg (by decide)) (Or.inr (Or.inl rfl))).elim
  | container_end cy blk f1 hg hsz hst hf =>
    obtain ⟨g1, _⟩ := get_moved hg
    have hl1 := hl.moved g1
    obtain ⟨rfl, e2, e3, junk, rfl⟩ := hl1.get_top hst hf
    rcases hfin with ⟨_, rfl, rfl⟩ | ⟨a, _⟩
    · refine ⟨g1.2.2.2.1, g1.2.2.2.2, fs0, ?_, ?_⟩
      · refine Live.intro (j := { f with flags := ⟨false, true, true⟩ } :: junk) e3 ?_ hst
        show cy.size - 1 = _
        omega
      · exact .dict_end fs0 f hd he
    · cases a


/-- One call of `bencode_next`: the cursor only moves forward inside the
buffer, and the live frames change as `FrameStep` describes. -/
theorem step_frames (P : Platform) {m : List Nat} {ctx ctx1 : bencode} {fs : List Frame}
    {r : Int} (hl : Live ctx fs) (hn : bencode_next P m ctx = some (r, ctx1)) :
    ctx1.buf + ctx1.buflen = ctx.buf + ctx.buflen ∧ ctx.buf ≤ ctx1.buf ∧
      ∃ fs1, Live ctx1 fs1 ∧ FrameStep m ctx1 fs r fs1 := by
  rcases next_unfold P hn with he | ⟨cx, kp, b, r0, c2, he, hs, hfin⟩
  · obtain ⟨e1, e2, _, _, fs1, h1, h2⟩ := enter_ret hl he
    exact ⟨by rw [e1, e2], by rw [e1], fs1, h1, h2⟩
  · obtain ⟨e1, e2, _, _, hcase⟩ := enter_go hl he
    have hpc : bencode_peek m cx = bencode_peek m ctx := peek_congr e1 e2
    rcases hcase with ⟨rfl, hv, hl1, hpk⟩ | ⟨fs0, f, c, rfl, hd, hev, rfl, hl1, hp, hc⟩
    · have hboth : r = r0 ∧ ctx1 = c2 := by
        rcases hfin with ⟨_, a, b'⟩ | ⟨_, a⟩
        · exact ⟨a, b'⟩
        · simp only [next_key, Option.some.injEq, Prod.mk.injEq] at a
          exact ⟨a.1.symm, a.2.symm⟩
      obtain ⟨rfl, rfl⟩ := hboth
      obtain ⟨a1, a2, fs1, a3, a4⟩ := switch_value P hv hl1 (by rw [hpc]; exact hpk) hs
      exact ⟨by rw [a1, e1, e2], by rw [← e1]; exact a2, fs1, a3, a4⟩
    · obtain ⟨a1, a2, fs1, a3, a4⟩ := switch_key P hd hev hl1 (by rw [hpc]; exact hp) hc hs hfin
      exact ⟨by rw [a1, e1, e2], by rw [← e1]; exact a2, fs1, a3, a4⟩

theorem dropLast_concat' {α : Type} (l : List α) (a : α) : (l ++ [a]).dropLast = l := by
  simp

theorem tidy_concat {fs0 : List Frame} {g : Frame} (h0 : ∀ f ∈ fs0, Settled f)
    (hg : g.flags.dict = false → g.flags.expect_value = false) : Tidy (fs0 ++ [g]) := by
  refine ⟨?_, ?_⟩
  · rw [dropLast_concat']
    exact h0
  · intro f hf
    rw [List.getLast?_concat] at hf
    cases hf
    exact hg

theorem tidy_parts {fs0 : List Frame} {g : Frame} (h : Tidy (fs0 ++ [g])) :
    (∀ f ∈ fs0, Settled f) ∧ (g.flags.dict = false → g.flags.expect_value = false) := by
  obtain ⟨h1, h2⟩ := h
  rw [dropLast_concat'] at h1
  exact ⟨h1, h2 g (List.getLast?_concat _)⟩

theorem mem_of_getLast {α : Type} {l : List α} {a : α} (h : l.getLast? = some a) : a ∈ l := by
  rcases List.eq_nil_or_concat l with rfl | ⟨l0, b, rfl⟩
  · simp at h
  · have e : l0.concat b = l0 ++ [b] := by simp
    rw [e] at h ⊢
    rw [List.getLast?_concat] at h
    cases h
    simp

theorem tidy_of_settled {fs : List Frame} (h : ∀ f ∈ fs, Settled f) : Tidy fs := by
  refine ⟨fun f hf => h f (List.dropLast_subset fs hf), ?_⟩
  intro f hf _
  exact (h f (mem_of_getLast hf)).2

theorem settled_enter_top {fs : List Frame} (h : Tidy fs) : ∀ f ∈ enter_top fs, Settled f := by
  rcases List.eq_nil_or_concat fs with rfl | ⟨fs0, f0, rfl⟩
  · intro f hf
    simp [enter_top] at hf
  · have e : fs0.concat f0 = fs0 ++ [f0] := by simp
    rw [e] at h ⊢
    rw [enter_top_concat]
    obtain ⟨h1, h2⟩ := tidy_parts h
    obtain ⟨_, _, _, a4, a5, a6⟩ := entered_value_facts f0
    intro f hf
    rcases List.mem_append.1 hf with hf | hf
    · exact h1 f hf
    · rw [List.mem_singleton] at hf
      subst hf
      refine ⟨a4, ?_⟩
      rcases Bool.eq_false_or_eq_true f0.flags.dict with hd | hd
      · exact a6 hd
      · rw [a5 hd]
        exact h2 hd

/-- The flags stay consistent under every call. -/
theorem tidy_step {m : List Nat} {ctx1 : bencode} {fs fs1 : List Frame} {r : Int}
    (ht : Tidy fs) (h : FrameStep m ctx1 fs r fs1) : Tidy fs1 := by
  cases h with
  | none_open _ hr => exact ht
  | failed fs0 f g _ hr hk hl hd hf he hb =>
    obtain ⟨h1, h2⟩ := tidy_parts ht
    refine tidy_concat h1 ?_
    intro hg
    have hfd : f.flags.dict = false := by rw [← hd]; exact hg
    rw [he hfd]
    exact h2 hfd
  | value fs0 f _ hr hv =>
    obtain ⟨h1, h2⟩ := tidy_parts ht
    obtain ⟨_, _, a3, _, a5, _⟩ := entered_value_facts f
    refine tidy_concat h1 ?_
    intro hg
    have hfd : f.flags.dict = false := by rw [← a3]; exact hg
    rw [a5 hfd]
    exact h2 hfd
  | key fs0 f t hd he ht1 hord =>
    obtain ⟨h1, _⟩ := tidy_parts ht
    exact tidy_concat h1 (fun h => by cases h)
  | list_begin _ old hv =>
    exact tidy_concat (settled_enter_top ht) (fun _ => rfl)
  | dict_begin _ hv =>
    exact tidy_concat (settled_enter_top ht) (fun h => by cases h)
  | list_end _ f hd =>
    exact tidy_of_settled (tidy_parts ht).1
  | dict_end _ f hd he =>
    exact tidy_of_settled (tidy_parts ht).1

theorem runInv_init (m : List Nat) : RunInv m (bencode_init m.length) [] := by
  refine ⟨?_, ⟨rfl, rfl, rfl⟩, ?_, ?_⟩
  · show 0 + m.length = m.length
    omega
  · intro f hf
    simp at hf
  · intro f hf
    simp at hf

/-- The invariant of every run is kept by every call. -/
theorem runInv_step (P : Platform) {m : List Nat} {ctx ctx1 : bencode} {fs : List Frame}
    {r : Int} (hi : RunInv m ctx fs) (hn : bencode_next P m ctx = some (r, ctx1)) :
    ∃ fs1, RunInv m ctx1 fs1 ∧ FrameStep m ctx1 fs r fs1 ∧ ctx.buf ≤ ctx1.buf := by
  obtain ⟨h1, h2, h3⟩ := hi
  obtain ⟨a1, a2, fs1, a3, a4⟩ := step_frames P h2 hn
  exact ⟨fs1, ⟨by rw [a1]; exact h1, a3, tidy_step h3 a4⟩, a4, a2⟩

/-- The invariant holds after every run of calls. -/
theorem runInv_calls (P : Platform) (m : List Nat) : ∀ (n : Nat) (ctx ctx1 : bencode)
    (fs : List Frame) (obs : List (Int × List Nat)), RunInv m ctx fs →
    calls P m n ctx = some (obs, ctx1) → ∃ fs1, RunInv m ctx1 fs1
  | 0, ctx, ctx1, fs, obs, hi, h => by
    simp only [calls, Option.some.injEq, Prod.mk.injEq] at h
    obtain ⟨_, rfl⟩ := h
    exact ⟨fs, hi⟩
  | n + 1, ctx, ctx1, fs, obs, hi, h => by
    simp only [calls] at h
    cases hn : bencode_next P m ctx with
    | none => rw [hn] at h; cases h
    | some x =>
      obtain ⟨r, cx⟩ := x
      rw [hn] at h
      simp only at h
      cases hc : calls P m n cx with
      | none => rw [hc] at h; cases h
      | some y =>
        obtain ⟨obs1, cy⟩ := y
        rw [hc] at h
        simp only [Option.some.injEq, Prod.mk.injEq] at h
        obtain ⟨_, rfl⟩ := h
        obtain ⟨fs1, hi1, _, _⟩ := runInv_step P hi hn
        exact runInv_calls P m n cx cy fs1 obs1 hi1 hc


theorem enter_ret_code {m : List Nat} {ctx cx : bencode} {r : Int}
    (he : next_enter m ctx = some (.ret r cx)) :
    (r = BENCODE_DONE ∨ r = BENCODE_ERROR_EOF ∨ r = BENCODE_ERROR_INVALID) ∧
      cx.buf = ctx.buf := by
  have hc := enter_cases he
  generalize hE : Entered.ret r cx = E at hc
  cases hc with
  | at_end h0 hb =>
    simp only [Entered.ret.injEq] at hE
    obtain ⟨rfl, rfl⟩ := hE
    refine ⟨?_, rfl⟩
    split
    · exact Or.inl rfl
    · exact Or.inr (Or.inl rfl)
  | top => cases hE
  | item => cases hE
  | value => cases hE
  | no_value blk f hz hs hf hd he' hp =>
    simp only [Entered.ret.injEq] at hE
    obtain ⟨rfl, rfl⟩ := hE
    exact ⟨Or.inr (Or.inr rfl), rfl⟩
  | key => cases hE
  | no_key blk f c hz hs hf hd he' hp hc' =>
    simp only [Entered.ret.injEq] at hE
    obtain ⟨rfl, rfl⟩ := hE
    exact ⟨Or.inr (Or.inr rfl), rfl⟩

theorem enter_go_cursor {m : List Nat} {ctx cx : bencode} {kp : Option Nat}
    (he : next_enter m ctx = some (.go cx kp)) : cx.buf = ctx.buf ∧ cx.buflen = ctx.buflen := by
  have hc := enter_cases he
  generalize hE : Entered.go cx kp = E at hc
  cases hc with
  | at_end => cases hE
  | top h0 hb =>
    simp only [Entered.go.injEq] at hE
    obtain ⟨rfl, _⟩ := hE
    exact ⟨rfl, rfl⟩
  | item blk f hz hs hf hd =>
    simp only [Entered.go.injEq] at hE
    obtain ⟨rfl, _⟩ := hE
    exact ⟨rfl, rfl⟩
  | value blk f c hz hs hf hd he' hp hc' =>
    simp only [Entered.go.injEq] at hE
    obtain ⟨rfl, _⟩ := hE
    exact ⟨rfl, rfl⟩
  | no_value => cases hE
  | key blk f c hz hs hf hd he' hp hc' =>
    simp only [Entered.go.injEq] at hE
    obtain ⟨rfl, _⟩ := hE
    exact ⟨rfl, rfl⟩
  | no_key => cases hE

/-- The view that a call leaves with `BENCODE_INTEGER` or `BENCODE_STRING` lies
between the cursor before the call and the cursor after it. -/
theorem step_view (P : Platform) {m : List Nat} {ctx ctx1 : bencode} {r : Int}
    (hn : bencode_next P m ctx = some (r, ctx1))
    (hr : r = BENCODE_INTEGER ∨ r = BENCODE_STRING) :
    ∃ t, ctx1.tok = some t ∧ ctx.buf ≤ t ∧ t + ctx1.toklen ≤ ctx1.buf := by
  rcases next_unfold P hn with he | ⟨cx, kp, b, r0, c2, he, hs, hfin⟩
  · obtain ⟨h1, _⟩ := enter_ret_code he
    rcases h1 with rfl | rfl | rfl <;> rcases hr with hr | hr <;> exact absurd hr (by decide)
  · obtain ⟨e1, _⟩ := enter_go_cursor he
    have hsw := switch_cases P hs
    have hview : ∀ {b1 : Bool} {q : Int} {c : bencode}, SwitchCase P m cx b1 q c →
        q = BENCODE_INTEGER ∨ q = BENCODE_STRING →
        ∃ t, c.tok = some t ∧ cx.buf ≤ t ∧ t + c.toklen ≤ c.buf := by
      intro b1 q c hsw hq
      cases hsw with
      | leaf _ _ _ hm hr1 hb hx =>
        rcases hq with hq | hq
        · obtain ⟨t, a, b', c'⟩ := (hx.1 hq).2
          exact ⟨t, a, by omega, c'⟩
        · rcases hr1 with h0 | h0 | h0 | h0 | ⟨_, _, t, t1, t2, t3⟩
          · rw [h0] at hq; exact absurd hq (by decide)
          · rw [h0] at hq; exact absurd hq (by decide)
          · rw [h0] at hq; exact absurd hq (by decide)
          · rw [h0] at hq; exact absurd hq (by decide)
          · exact ⟨t, t1, t3, by omega⟩
      | dict_begin => rcases hq with hq | hq <;> exact absurd hq (by decide)
      | list_begin => rcases hq with hq | hq <;> exact absurd hq (by decide)
      | container_end cy blk f hg hsz hst hf =>
        rcases hq with hq | hq <;> (split at hq <;> exact absurd hq (by decide))
    rcases hfin with ⟨_, rfl, rfl⟩ | ⟨_, hk⟩
    · obtain ⟨t, a, b', c⟩ := hview hsw hr
      exact ⟨t, a, by rw [← e1]; exact b', c⟩
    · obtain ⟨hcode, hst⟩ := next_key_code hk
      have hr0 : r0 = BENCODE_INTEGER ∨ r0 = BENCODE_STRING := by
        rcases hcode with rfl | ⟨h1, h2, _⟩
        · exact hr
        · exact Or.inr h2
      have hrr : r = r0 := by
        rcases hcode with rfl | ⟨h1, h2, _⟩
        · rfl
        · rw [h1] at hr
          rcases hr with hr | hr <;> exact absurd hr (by decide)
      obtain ⟨t, a, b', c⟩ := hview hsw hr0
      refine ⟨t, ?_, by rw [← e1]; exact b', ?_⟩
      · rw [hst]; exact a
      · rw [hst]; exact c


/-! # What a returned string was read from -/

theorem at_of_cursor {m : List Nat} {ctx : bencode} (h : ctx.buf + ctx.buflen = m.length) :
    At m ctx (m.drop ctx.buf) := by
  refine ⟨rfl, ?_⟩
  rw [List.length_drop]
  omega

theorem at_congr {m : List Nat} {ctx cx : bencode} {r : List Nat} (h1 : cx.buf = ctx.buf)
    (h2 : cx.buflen = ctx.buflen) (h : At m cx r) : At m ctx r := by
  obtain ⟨a, b⟩ := h
  exact ⟨by rw [← h1]; exact a, by rw [← h2]; exact b⟩

/-- The digit loop, read backwards: when it stops at a byte that is not a
digit, it has consumed a run of digits and that byte. -/
theorem get_digits_inv {m : List Nat} : ∀ (fuel : Nat) (ctx ctx1 : bencode) (r : List Nat)
    (c : Int), At m ctx r → get_digits m fuel ctx = some (c, ctx1) → c ≠ -1 →
    ¬ (0x30 ≤ c ∧ c ≤ 0x39) →
    ∃ (ds : List Nat) (x : Nat) (t : List Nat), r = ds ++ x :: t ∧
      (∀ y ∈ ds, is_digit y = true) ∧ c = (x : Int) ∧ ctx1 = advance ctx (ds.length + 1)
  | 0, ctx, ctx1, r, c, h, hg, hc, hd => by
    have hg0 : bencode_get m ctx = some (c, ctx1) := hg
    cases r with
    | nil =>
      rw [get_nil h] at hg0
      simp only [Option.some.injEq, Prod.mk.injEq] at hg0
      exact absurd hg0.1.symm hc
    | cons x t =>
      rw [get_cons h] at hg0
      simp only [Option.some.injEq, Prod.mk.injEq] at hg0
      exact ⟨[], x, t, rfl, fun y hy => absurd hy (List.not_mem_nil y), hg0.1.symm, hg0.2.symm⟩
  | fuel + 1, ctx, ctx1, r, c, h, hg, hc, hd => by
    cases r with
    | nil =>
      rw [get_digits_succ m fuel ctx ctx (-1) (get_nil h), if_neg (by decide)] at hg
      simp only [Option.some.injEq, Prod.mk.injEq] at hg
      exact absurd hg.1.symm hc
    | cons x t =>
      rw [get_digits_succ m fuel ctx (advance ctx 1) x (get_cons h)] at hg
      by_cases hx : (0x30 : Int) ≤ x ∧ (x : Int) ≤ 0x39
      · rw [if_pos hx] at hg
        obtain ⟨ds, x1, t1, e, hds, hc1, h1⟩ :=
          get_digits_inv fuel (advance ctx 1) ctx1 t c (at_step h) hg hc hd
        refine ⟨x :: ds, x1, t1, by rw [e]; rfl, ?_, hc1, ?_⟩
        · intro y hy
          rcases List.mem_cons.1 hy with rfl | hy
          · exact (is_digit_iff y).2 hx
          · exact hds y hy
        · rw [h1, advance_advance]
          congr 1
          simp only [List.length_cons]
          omega
      · rw [if_neg hx] at hg
        simp only [Option.some.injEq, Prod.mk.injEq] at hg
        exact ⟨[], x, t, rfl, fun y hy => absurd hy (List.not_mem_nil y), hg.1.symm, hg.2.symm⟩

/-- Without overflow the loop of `bencode_string` computes the decimal value. -/
theorem wrap_exact (P : Platform) (ds : List Nat) : ∀ (t : Nat),
    (∀ x ∈ ds, is_digit x = true) →
    ds.foldl (fun a d => a * 10 + (d - 0x30)) t < 2 ^ P.w →
    wrap_len P ds t = (true, ds.foldl (fun a d => a * 10 + (d - 0x30)) t) := by
  induction ds with
  | nil => intro t _ _; rfl
  | cons d ds ih =>
    intro t hd hlt
    have hd0 : 0x30 ≤ d := by
      have := hd d (List.mem_cons_self _ _)
      simp [is_digit] at this; omega
    simp only [List.foldl_cons] at hlt ⊢
    have hmono := foldl_dec_mono ds (t * 10 + (d - 0x30))
    have hval := decode_step_val (2 ^ P.w) t d hd0 (by omega)
    have hcast : ((2 : Int) ^ P.w) = ((2 ^ P.w : Nat) : Int) := by push_cast; rfl
    simp only [wrap_len]
    rw [hcast, hval, if_neg (by omega)]
    exact ih _ (fun x hx => hd x (List.mem_cons_of_mem _ hx)) hlt

/-- The string recogniser, read backwards: when it returns `BENCODE_STRING`
after the first digit `d`, the input went on with digits `ds`, a `:` and at
least as many bytes as the length that the loop computed from `d :: ds`. -/
theorem string_shape (P : Platform) {m : List Nat} {ctx0 c1 : bencode} (d : Nat)
    (r1 : List Nat) (h : At m ctx0 (d :: r1))
    (hs : bencode_string P m (advance ctx0 1) = some (BENCODE_STRING, c1)) :
    ∃ (ds t : List Nat) (n : Nat), r1 = ds ++ 0x3a :: t ∧ (∀ y ∈ ds, is_digit y = true) ∧
      wrap_len P (d :: ds) 0 = (true, n) ∧ n ≤ t.length := by
  have h1 : At m (advance ctx0 1) r1 := at_step h
  unfold bencode_string at hs
  simp only at hs
  cases hg : get_digits m (advance ctx0 1).buflen (advance ctx0 1) with
  | none => rw [hg] at hs; cases hs
  | some x =>
    obtain ⟨c, cx⟩ := x
    rw [hg] at hs
    simp only at hs
    by_cases c1' : c = -1
    · rw [if_pos c1'] at hs
      simp only [Option.some.injEq, Prod.mk.injEq] at hs
      exact absurd hs.1 (by decide)
    rw [if_neg c1'] at hs
    by_cases c2 : c ≠ 0x3a
    · rw [if_pos c2] at hs
      simp only [Option.some.injEq, Prod.mk.injEq] at hs
      exact absurd hs.1 (by decide)
    rw [if_neg c2] at hs
    have c3 : c = 0x3a := not_not.1 c2
    obtain ⟨ds, x, t, e, hds, hcx, hcx1⟩ :=
      get_digits_inv _ _ _ r1 c h1 hg c1' (by rw [c3]; decide)
    have hx : x = 0x3a := by omega
    subst hx
    subst hcx1
    rw [advance_advance] at hs
    have hm : m.drop ctx0.buf = (d :: ds) ++ 0x3a :: t := by
      rw [h.1, e]
      rfl
    have hdec := decode_length_wrap P (d :: ds) ctx0.buf
      { advance ctx0 (1 + (ds.length + 1)) with
        tok := some (advance ctx0 (1 + (ds.length + 1))).buf, toklen := 0 }
      (0x3a :: t) hm
    have hcount : (advance ctx0 (1 + (ds.length + 1))).buf - 1 - ((advance ctx0 1).buf - 1)
        = (d :: ds).length := by
      simp [advance]; omega
    have htok : (advance ctx0 1).buf - 1 = ctx0.buf := by simp [advance]
    rw [hcount, htok, hdec] at hs
    have h2 : At m (advance ctx0 (1 + (ds.length + 1))) t := by
      have h3 : At m ctx0 ((d :: (ds ++ [0x3a])) ++ t) := by
        rw [e] at h
        simpa using h
      have := at_advance (d :: (ds ++ [0x3a])) h3
      simpa [Nat.add_comm, Nat.add_left_comm] using this
    have hbl : (advance ctx0 (1 + (ds.length + 1))).buflen = t.length := h2.2
    refine ⟨ds, t, (wrap_len P (d :: ds) 0).2, e, hds, ?_, ?_⟩
    · rcases hw : wrap_len P (d :: ds) 0 with ⟨ok, n⟩
      rw [hw] at hs
      cases ok with
      | false =>
        simp only [Option.some.injEq, Prod.mk.injEq] at hs
        exact absurd hs.1 (by decide)
      | true => rfl
    · rcases hw : wrap_len P (d :: ds) 0 with ⟨ok, n⟩
      rw [hw] at hs
      cases ok with
      | false =>
        simp only [Option.some.injEq, Prod.mk.injEq] at hs
        exact absurd hs.1 (by decide)
      | true =>
        simp only at hs
        by_cases h3 : (advance ctx0 (1 + (ds.length + 1))).buflen < n
        · rw [if_pos h3] at hs
          simp only [Option.some.injEq, Prod.mk.injEq] at hs
          exact absurd hs.1 (by decide)
        · show n ≤ t.length
          omega

theorem switch_code {P : Platform} {m : List Nat} {cx c2 : bencode} {b : Bool} {r0 : Int}
    (h : SwitchCase P m cx b r0 c2) : r0 ≠ BENCODE_ERROR_BAD_KEY := by
  intro e
  cases h with
  | leaf _ _ _ hm hr hb hx =>
    rcases hr with h0 | h0 | h0 | h0 | ⟨h0, _⟩ <;> rw [h0] at e <;> exact absurd e (by decide)
  | dict_begin => exact absurd e (by decide)
  | list_begin => exact absurd e (by decide)
  | container_end cy blk f hg hsz hst hf =>
    split at e <;> exact absurd e (by decide)

theorem switch_string_digit {P : Platform} {m : List Nat} {cx c1 : bencode} {b : Bool} {r : Int}
    (h : SwitchCase P m cx b r c1) (hr : r = BENCODE_STRING) :
    ∃ c, bencode_peek m cx = some c ∧ 0x30 ≤ c ∧ c ≤ 0x39 := by
  cases h with
  | leaf _ _ _ hm hr1 hb hx => exact hx.2.2 hr
  | dict_begin => exact absurd hr (by decide)
  | list_begin => exact absurd hr (by decide)
  | container_end cy blk f hg hsz hst hf =>
    split at hr <;> exact absurd hr (by decide)

/-- The `switch` read backwards: when it yields `BENCODE_STRING`, the input at
the cursor is a numeral `0` | `[1-9][0-9]*`, a `:` and then the bytes `k`
of the view, whose number is what the length loop made of the numeral. -/
theorem switch_string_shape (P : Platform) {m : List Nat} {cx c1 : bencode} {b : Bool}
    (hcur : cx.buf + cx.buflen = m.length)
    (h : next_switch P m cx = some (b, BENCODE_STRING, c1)) :
    ∃ (ds k rest : List Nat), At m cx (ds ++ 0x3a :: (k ++ rest)) ∧ canon_nat ds = true ∧
      wrap_len P ds 0 = (true, k.length) ∧ b = true ∧
      c1 = { advance cx (ds.length + 1 + k.length) with
             tok := some (cx.buf + (ds.length + 1)), toklen := k.length } := by
  obtain ⟨c, hp, hc1, hc2⟩ := switch_string_digit (switch_cases P h) rfl
  have hat := at_of_cursor hcur
  cases hr : m.drop cx.buf with
  | nil =>
    rw [hr] at hat
    rw [peek_nil hat] at hp
    have := Option.some.inj hp
    omega
  | cons x r1 =>
    rw [hr] at hat
    rw [peek_cons hat] at hp
    have hxc : (x : Int) = c := Option.some.inj hp
    have g1 := get_cons hat
    unfold next_switch at h
    rw [g1] at h
    simp only at h
    rw [if_neg (by omega), if_neg (by omega), if_neg (by omega), if_neg (by omega),
      if_neg (by omega)] at h
    by_cases hx0 : (x : Int) = 0x30
    · rw [if_pos hx0] at h
      have hx : x = 0x30 := by omega
      subst hx
      cases r1 with
      | nil =>
        rw [get_nil (at_step hat)] at h
        simp only at h
        rw [if_pos trivial] at h
        simp only [Option.some.injEq, Prod.mk.injEq] at h
        exact absurd h.2.1 (by decide)
      | cons y r2 =>
        rw [get_cons (at_step hat)] at h
        simp only at h
        rw [if_neg (by omega)] at h
        by_cases hy : (y : Int) ≠ 0x3a
        · rw [if_pos hy] at h
          simp only [Option.some.injEq, Prod.mk.injEq] at h
          exact absurd h.2.1 (by decide)
        · rw [if_neg hy] at h
          have hy1 : y = 0x3a := by
            have := not_not.1 hy
            omega
          subst hy1
          simp only [Option.some.injEq, Prod.mk.injEq] at h
          obtain ⟨hb, _, hc⟩ := h
          refine ⟨[0x30], [], r2, by simpa using hat, by decide, ?_, hb.symm, ?_⟩
          · simp [wrap_len]
          · rw [← hc, advance_advance]
            simp [advance]
    · rw [if_neg hx0, if_pos (by omega)] at h
      cases hs : bencode_string P m (advance cx 1) with
      | none => rw [hs] at h; cases h
      | some y =>
        obtain ⟨r, c2⟩ := y
        rw [hs] at h
        simp only [Option.some.injEq, Prod.mk.injEq] at h
        obtain ⟨hb, hr2, hc⟩ := h
        subst hr2
        subst hc
        obtain ⟨ds, t, n, e, hds, hw, hn⟩ := string_shape P x r1 hat hs
        have hsplit : t = t.take n ++ t.drop n := (List.take_append_drop n t).symm
        have hlen : (t.take n).length = n := by
          rw [List.length_take]
          omega
        have hat2 : At m cx (x :: (ds ++ 0x3a :: t)) := by rw [← e]; exact hat
        have hfw := string_wrap P x n ds t hat2 hds hw hn
        rw [hs] at hfw
        have hc2 : c2 = { advance cx (ds.length + 2 + n) with
            tok := some (cx.buf + (ds.length + 2)), toklen := n } := by
          simp only [Option.some.injEq, Prod.mk.injEq, true_and] at hfw
          exact hfw
        refine ⟨x :: ds, t.take n, t.drop n, ?_, ?_, ?_, hb.symm, ?_⟩
        · rw [← hsplit]
          exact hat2
        · have h1 : decide (0x31 ≤ x ∧ x ≤ 0x39) = true := by
            simp only [decide_eq_true_eq]
            omega
          have h2 : ds.all is_digit = true := by
            rw [List.all_eq_true]
            exact hds
          simp [canon_nat, h1, h2]
        · rw [hlen]
          exact hw
        · rw [hlen, hc2]
          simp only [List.length_cons]

/-- The view after a string token, and where the cursor then stands. -/
theorem shape_view {m : List Nat} {cx : bencode} (ds k rest : List Nat)
    (h : At m cx (ds ++ 0x3a :: (k ++ rest))) :
    view m { advance cx (ds.length + 1 + k.length) with
             tok := some (cx.buf + (ds.length + 1)), toklen := k.length } = k ∧
      At m (advance cx (ds.length + 1 + k.length)) rest := by
  constructor
  · show ((m.drop (cx.buf + (ds.length + 1))).take k.length) = k
    have h1 : At m cx ((ds ++ [0x3a]) ++ (k ++ rest)) := by simpa using h
    have h2 := (at_advance (ds ++ [0x3a]) h1).1
    simp only [advance, List.length_append, List.length_singleton] at h2
    rw [h2]
    simp
  · have h1 : At m cx ((ds ++ 0x3a :: k) ++ rest) := by simpa using h
    have h2 := at_advance (ds ++ 0x3a :: k) h1
    have e : (ds ++ 0x3a :: k).length = ds.length + 1 + k.length := by
      simp only [List.length_append, List.length_cons]
      omega
    rw [e] at h2
    exact h2

/-- A call that returns `BENCODE_STRING` or `BENCODE_ERROR_BAD_KEY`, read
backwards: the input at the cursor is a numeral, a `:` and the bytes of the
view, and the cursor ends behind them. -/
theorem next_string_shape (P : Platform) {m : List Nat} {ctx ctx1 : bencode} {r : Int}
    (hcur : ctx.buf + ctx.buflen = m.length) (hn : bencode_next P m ctx = some (r, ctx1))
    (hr : r = BENCODE_STRING ∨ r = BENCODE_ERROR_BAD_KEY) :
    ∃ (ds k rest : List Nat), At m ctx (ds ++ 0x3a :: (k ++ rest)) ∧ canon_nat ds = true ∧
      wrap_len P ds 0 = (true, k.length) ∧ view m ctx1 = k ∧ ctx1.toklen = k.length ∧
      ctx1.tok = some (ctx.buf + (ds.length + 1)) ∧ At m ctx1 rest := by
  rcases next_unfold P hn with he | ⟨cx, kp, b, r0, c2, he, hs, hfin⟩
  · obtain ⟨h1, _⟩ := enter_ret_code he
    rcases h1 with rfl | rfl | rfl <;> rcases hr with hr | hr <;> exact absurd hr (by decide)
  · obtain ⟨e1, e2⟩ := enter_go_cursor he
    have hne := switch_code (switch_cases P hs)
    have hkey : r0 = BENCODE_STRING ∧ ctx1 = { c2 with stack := ctx1.stack } := by
      rcases hfin with ⟨_, rfl, rfl⟩ | ⟨_, hk⟩
      · rcases hr with hr | hr
        · exact ⟨hr, rfl⟩
        · exact absurd hr hne
      · obtain ⟨hcode, hst⟩ := next_key_code hk
        refine ⟨?_, hst⟩
        rcases hcode with h1 | ⟨_, h2, _⟩
        · rcases hr with hr | hr
          · rw [← h1]; exact hr
          · rw [h1] at hr; exact absurd hr hne
        · exact h2
    obtain ⟨rfl, hst⟩ := hkey
    obtain ⟨ds, k, rest, hat, hcan, hw, _, hc2⟩ :=
      switch_string_shape P (by rw [e1, e2]; exact hcur) hs
    obtain ⟨hv, hat2⟩ := shape_view ds k rest hat
    refine ⟨ds, k, rest, at_congr e1 e2 hat, hcan, hw, ?_, ?_, ?_, ?_⟩
    · rw [hst, hc2]
      exact hv
    · rw [hst, hc2]
    · rw [hst, hc2, ← e1]
    · rw [hst, hc2]
      exact hat2

/-- On a numeral whose value fits `size_t`, the length loop computes that value. -/
theorem wrap_decval (P : Platform) {ds : List Nat} {n : Nat} (hc : canon_nat ds = true)
    (hw : wrap_len P ds 0 = (true, n)) (hfit : decval ds < 2 ^ P.w) : decval ds = n := by
  have h := wrap_exact P ds 0 (canon_nat_digits hc) hfit
  rw [hw] at h
  exact (Prod.mk.inj h).2.symm

theorem view_of_tok {m : List Nat} {ctx : bencode} {t : Nat} (h : ctx.tok = some t) :
    view m ctx = (m.drop t).take ctx.toklen := by
  unfold view
  rw [h]

theorem snoc_inj {α : Type} {l l1 : List α} {a b : α} (h : l ++ [a] = l1 ++ [b]) :
    l = l1 ∧ a = b := by
  have h1 := List.append_inj' h rfl
  exact ⟨h1.1, by simpa using h1.2⟩

/-- A call with no container open. -/
theorem frameStep_nil {m : List Nat} {ctx1 : bencode} {r : Int} {fs1 : List Frame}
    (h : FrameStep m ctx1 [] r fs1) :
    (r ≤ BENCODE_STRING ∧ fs1 = []) ∨
    (r = BENCODE_LIST_BEGIN ∧ ∃ old : Frame, fs1 = [{ old with flags := ⟨true, false, false⟩ }]) ∨
    (r = BENCODE_DICT_BEGIN ∧ fs1 = [⟨none, 0, ⟨true, true, false⟩⟩]) := by
  generalize hfs : ([] : List Frame) = fs at h
  cases h with
  | none_open _ hr => exact Or.inl ⟨hr, rfl⟩
  | failed fs0 f g _ hr hk hl hd hf he hb => simp at hfs
  | value fs0 f _ hr hv => simp at hfs
  | key fs0 f t hd he ht hord => simp at hfs
  | list_begin _ old hv =>
    subst hfs
    exact Or.inr (Or.inl ⟨rfl, old, rfl⟩)
  | dict_begin _ hv =>
    subst hfs
    exact Or.inr (Or.inr ⟨rfl, rfl⟩)
  | list_end _ f hd => simp at hfs
  | dict_end _ f hd he => simp at hfs

/-- A call with the frame `f` on top of the frames `fs0`. -/
theorem frameStep_top {m : List Nat} {ctx1 : bencode} {r : Int} {fs0 fs1 : List Frame}
    {f : Frame} (h : FrameStep m ctx1 (fs0 ++ [f]) r fs1) :
    (r < 0 ∧ ∃ g : Frame, fs1 = fs0 ++ [g] ∧ g.key = f.key ∧ g.keylen = f.keylen ∧
        g.flags.dict = f.flags.dict ∧ g.flags.first = false ∧
        (f.flags.dict = false → g.flags.expect_value = f.flags.expect_value) ∧
        (r = BENCODE_ERROR_BAD_KEY → f.flags.dict = true ∧ f.flags.expect_value = false ∧
          ∃ k t, f.key = some k ∧ ctx1.tok = some t ∧
            (t + ctx1.toklen ≤ m.length → k + f.keylen ≤ m.length →
              ¬ (m.drop k).take f.keylen < (m.drop t).take ctx1.toklen))) ∨
    ((r = BENCODE_INTEGER ∨ r = BENCODE_STRING) ∧
        (f.flags.dict = false ∨ f.flags.expect_value = true) ∧
        fs1 = fs0 ++ [entered_value f]) ∨
    (r = BENCODE_STRING ∧ f.flags.dict = true ∧ f.flags.expect_value = false ∧
        ∃ t, ctx1.tok = some t ∧
          (∀ k, f.key = some k → t + ctx1.toklen ≤ m.length → k + f.keylen ≤ m.length →
            (m.drop k).take f.keylen < (m.drop t).take ctx1.toklen) ∧
          fs1 = fs0 ++ [⟨some t, ctx1.toklen, ⟨false, true, true⟩⟩]) ∨
    (r = BENCODE_LIST_BEGIN ∧ (f.flags.dict = false ∨ f.flags.expect_value = true) ∧
        ∃ old : Frame,
          fs1 = fs0 ++ [entered_value f, { old with flags := ⟨true, false, false⟩ }]) ∨
    (r = BENCODE_DICT_BEGIN ∧ (f.flags.dict = false ∨ f.flags.expect_value = true) ∧
        fs1 = fs0 ++ [entered_value f, ⟨none, 0, ⟨true, true, false⟩⟩]) ∨
    (r = BENCODE_LIST_END ∧ f.flags.dict = false ∧ fs1 = fs0) ∨
    (r = BENCODE_DICT_END ∧ f.flags.dict = true ∧ f.flags.expect_value = false ∧
        fs1 = fs0) := by
  generalize hfs : fs0 ++ [f] = fs at h
  cases h with
  | none_open _ hr => simp at hfs
  | failed fs2 f2 g _ hr hk hl hd hf he hb =>
    obtain ⟨rfl, rfl⟩ := snoc_inj hfs
    exact Or.inl ⟨hr, g, rfl, hk, hl, hd, hf, he, hb⟩
  | value fs2 f2 _ hr hv =>
    obtain ⟨rfl, rfl⟩ := snoc_inj hfs
    exact Or.inr (Or.inl ⟨hr, hv, rfl⟩)
  | key fs2 f2 t hd he ht hord =>
    obtain ⟨rfl, rfl⟩ := snoc_inj hfs
    exact Or.inr (Or.inr (Or.inl ⟨rfl, hd, he, t, ht, hord, rfl⟩))
  | list_begin _ old hv =>
    subst hfs
    refine Or.inr (Or.inr (Or.inr (Or.inl ⟨rfl, hv f (List.getLast?_concat _), old, ?_⟩)))
    rw [enter_top_concat]
    simp
  | dict_begin _ hv =>
    subst hfs
    refine Or.inr (Or.inr (Or.inr (Or.inr (Or.inl ⟨rfl, hv f (List.getLast?_concat _), ?_⟩))))
    rw [enter_top_concat]
    simp
  | list_end fs2 f2 hd =>
    obtain ⟨rfl, rfl⟩ := snoc_inj hfs
    exact Or.inr (Or.inr (Or.inr (Or.inr (Or.inr (Or.inl ⟨rfl, hd, rfl⟩)))))
  | dict_end fs2 f2 hd he =>
    obtain ⟨rfl, rfl⟩ := snoc_inj hfs
    exact Or.inr (Or.inr (Or.inr (Or.inr (Or.inr (Or.inr ⟨rfl, hd, he, rfl⟩)))))


/-! # Dictionary shape -/

theorem enter_top_kinds (fs : List Frame) :
    (enter_top fs).map (fun f => f.flags.dict) = fs.map (fun f => f.flags.dict) := by
  rcases List.eq_nil_or_concat fs with rfl | ⟨fs0, f, rfl⟩
  · rfl
  · have e : fs0.concat f = fs0 ++ [f] := by simp
    rw [e, enter_top_concat]
    simp [(entered_value_facts f).2.2.1]

theorem open_step_keep {ks : List Bool} {r : Int} (h : r ≤ BENCODE_STRING) :
    open_step ks r = ks := by
  have h1 : ¬ r = BENCODE_LIST_BEGIN := by intro e; rw [e] at h; exact absurd h (by decide)
  have h2 : ¬ r = BENCODE_DICT_BEGIN := by intro e; rw [e] at h; exact absurd h (by decide)
  have h3 : ¬ (r = BENCODE_LIST_END ∨ r = BENCODE_DICT_END) := by
    rintro (e | e) <;> rw [e] at h <;> exact absurd h (by decide)
  unfold open_step
  rw [if_neg h1, if_neg h2, if_neg h3]

theorem count_keep {r : Int} (h : r ≤ BENCODE_STRING) :
    decide (r = BENCODE_LIST_BEGIN ∨ r = BENCODE_DICT_BEGIN) = false ∧
      decide (r = BENCODE_LIST_END ∨ r = BENCODE_DICT_END) = false := by
  refine ⟨decide_eq_false ?_, decide_eq_false ?_⟩
  · rintro (e | e) <;> rw [e] at h <;> exact absurd h (by decide)
  · rintro (e | e) <;> rw [e] at h <;> exact absurd h (by decide)

theorem count_zero {r : Int} (h : r ≤ BENCODE_STRING) : ends [r] = 0 ∧ begins [r] = 0 := by
  obtain ⟨c1, c2⟩ := count_keep h
  constructor
  · unfold ends
    rw [List.countP_cons, List.countP_nil, c2]
    rfl
  · unfold begins
    rw [List.countP_cons, List.countP_nil, c1]
    rfl

/-- One call changes the kinds of the open containers as its return code says. -/
theorem kinds_step {m : List Nat} {ctx1 : bencode} {fs fs1 : List Frame} {r : Int}
    (h : FrameStep m ctx1 fs r fs1) :
    fs1.map (fun f => f.flags.dict) = open_step (fs.map (fun f => f.flags.dict)) r ∧
      fs1.length + ends [r] = fs.length + begins [r] ∧
      (r = BENCODE_LIST_END → (fs.map (fun f => f.flags.dict)).getLast? = some false) ∧
      (r = BENCODE_DICT_END → (fs.map (fun f => f.flags.dict)).getLast? = some true) := by
  cases h with
  | none_open _ hr =>
    obtain ⟨c1, c2⟩ := count_zero hr
    refine ⟨by rw [open_step_keep hr], by rw [c1, c2], ?_, ?_⟩
    · intro e; rw [e] at hr; exact absurd hr (by decide)
    · intro e; rw [e] at hr; exact absurd hr (by decide)
  | failed fs0 f g _ hr hk hl hd hf he hb =>
    have hr2 : r ≤ BENCODE_STRING := le_of_lt (lt_trans hr (by decide))
    obtain ⟨c1, c2⟩ := count_zero hr2
    refine ⟨by rw [open_step_keep hr2]; simp [hd], by rw [c1, c2]; simp, ?_, ?_⟩
    · intro e; rw [e] at hr; exact absurd hr (by decide)
    · intro e; rw [e] at hr; exact absurd hr (by decide)
  | value fs0 f _ hr hv =>
    have hr2 : r ≤ BENCODE_STRING := by rcases hr with rfl | rfl <;> decide
    obtain ⟨c1, c2⟩ := count_zero hr2
    refine ⟨by rw [open_step_keep hr2]; simp [(entered_value_facts f).2.2.1],
      by rw [c1, c2]; simp, ?_, ?_⟩
    · intro e; rw [e] at hr2; exact absurd hr2 (by decide)
    · intro e; rw [e] at hr2; exact absurd hr2 (by decide)
  | key fs0 f t hd he ht hord =>
    refine ⟨by rw [open_step_keep (le_refl _)]; simp [hd], by simp [ends, begins], ?_, ?_⟩
    · intro e; exact absurd e (by decide)
    · intro e; exact absurd e (by decide)
  | list_begin _ old hv =>
    refine ⟨?_, by simp [ends, begins, enter_top_length], ?_, ?_⟩
    · rw [List.map_append, enter_top_kinds]
      rfl
    · intro e; exact absurd e (by decide)
    · intro e; exact absurd e (by decide)
  | dict_begin _ hv =>
    refine ⟨?_, by simp [ends, begins, enter_top_length], ?_, ?_⟩
    · rw [List.map_append, enter_top_kinds]
      rfl
    · intro e; exact absurd e (by decide)
    · intro e; exact absurd e (by decide)
  | list_end _ f hd =>
    refine ⟨?_, by simp [ends, begins], ?_, ?_⟩
    · show _ = (List.map _ (fs1 ++ [f])).dropLast
      simp
    · intro _
      simp [hd]
    · intro e; exact absurd e (by decide)
  | dict_end _ f hd he =>
    refine ⟨?_, by simp [ends, begins], ?_, ?_⟩
    · show _ = (List.map _ (fs1 ++ [f])).dropLast
      simp
    · intro e; exact absurd e (by decide)
    · intro _
      simp [hd]

theorem begins_cons (r : Int) (rs : List Int) : begins (r :: rs) = begins [r] + begins rs := by
  unfold begins
  rw [List.countP_cons, List.countP_cons, List.countP_nil]
  omega

theorem ends_cons (r : Int) (rs : List Int) : ends (r :: rs) = ends [r] + ends rs := by
  unfold ends
  rw [List.countP_cons, List.countP_cons, List.countP_nil]
  omega

/-- After every run of calls the live frames are the unmatched Begin tokens. -/
theorem kinds_calls (P : Platform) (m : List Nat) : ∀ (n : Nat) (ctx ctx1 : bencode)
    (fs : List Frame) (obs : List (Int × List Nat)), Live ctx fs →
    calls P m n ctx = some (obs, ctx1) →
    ∃ fs1, Live ctx1 fs1 ∧
      fs1.map (fun f => f.flags.dict) =
        (obs.map Prod.fst).foldl open_step (fs.map (fun f => f.flags.dict)) ∧
      fs1.length + ends (obs.map Prod.fst) = fs.length + begins (obs.map Prod.fst)
  | 0, ctx, ctx1, fs, obs, hl, h => by
    simp only [calls, Option.some.injEq, Prod.mk.injEq] at h
    obtain ⟨rfl, rfl⟩ := h
    exact ⟨fs, hl, rfl, rfl⟩
  | n + 1, ctx, ctx1, fs, obs, hl, h => by
    simp only [calls] at h
    cases hn : bencode_next P m ctx with
    | none => rw [hn] at h; cases h
    | some x =>
      obtain ⟨r, cx⟩ := x
      rw [hn] at h
      simp only at h
      cases hc : calls P m n cx with
      | none => rw [hc] at h; cases h
      | some y =>
        obtain ⟨obs1, cy⟩ := y
        rw [hc] at h
        simp only [Option.some.injEq, Prod.mk.injEq] at h
        obtain ⟨rfl, rfl⟩ := h
        obtain ⟨_, _, fs1, hl1, hstep⟩ := step_frames P hl hn
        obtain ⟨k1, k2, _, _⟩ := kinds_step hstep
        obtain ⟨fs2, hl2, k3, k4⟩ := kinds_calls P m n cx cy fs1 obs1 hl1 hc
        refine ⟨fs2, hl2, ?_, ?_⟩
        · rw [k3, k1]
          rfl
        · have e1 : (List.map Prod.fst (observe m r cx :: obs1)) = r :: obs1.map Prod.fst := rfl
          rw [e1, begins_cons, ends_cons]
          omega

/-- An `e` with no container open is invalid. -/
theorem next_e_top (P : Platform) {m : List Nat} {ctx : bencode} {rest : List Nat}
    (h0 : ctx.size = 0) (h : At m ctx (0x65 :: rest)) :
    bencode_next P m ctx = some (BENCODE_ERROR_INVALID, advance ctx 1) := by
  have hb : ctx.buflen ≠ 0 := by rw [h.2]; simp
  have hent : next_enter m ctx = some (.go ctx none) := by
    simp [next_enter, h0, hb]
  have g := get_cons h
  have hsz : (advance ctx 1).size = 0 := h0
  rw [next_of_go P hent]
  simp only [next_switch, g]
  rw [if_neg (by decide), if_neg (by decide), if_pos (by decide), if_pos hsz]

/-- C12: after every run of calls on a fresh decoder the live frames are, bottom
to top, the kinds of the Begin tokens not yet matched by an End token, and the
stack size is the number of Begin tokens minus the number of End tokens; the
next call returns `ListEnd` (`DictEnd`) only when the innermost unmatched
Begin is a `ListBegin` (`DictBegin`); and an `e` with no frame open gives
`BENCODE_ERROR_INVALID`. -/
theorem C12_end_tokens_are_paired (P : Platform) (m : List Nat) (n : Nat)
    (obs : List (Int × List Nat)) (ctx : bencode)
    (h : calls P m n (bencode_init m.length) = some (obs, ctx)) :
    ∃ fs, Live ctx fs ∧
      fs.map (fun f => f.flags.dict) = open_kinds (obs.map Prod.fst) ∧
      ctx.size + ends (obs.map Prod.fst) = begins (obs.map Prod.fst) ∧
      (∀ r ctx1, bencode_next P m ctx = some (r, ctx1) →
        (r = BENCODE_LIST_END → (open_kinds (obs.map Prod.fst)).getLast? = some false) ∧
        (r = BENCODE_DICT_END → (open_kinds (obs.map Prod.fst)).getLast? = some true)) ∧
      (ctx.size = 0 → ∀ rest, At m ctx (0x65 :: rest) →
        bencode_next P m ctx = some (BENCODE_ERROR_INVALID, advance ctx 1)) := by
  obtain ⟨fs, hl, k1, k2⟩ := kinds_calls P m n _ ctx [] obs ⟨rfl, rfl, rfl⟩ h
  refine ⟨fs, hl, k1, ?_, ?_, fun h0 rest hat => next_e_top P h0 hat⟩
  · rw [hl.2.1]
    simpa using k2
  · intro r ctx1 hn
    obtain ⟨_, _, fs1, _, hstep⟩ := step_frames P hl hn
    obtain ⟨_, _, k3, k4⟩ := kinds_step hstep
    have k5 : open_kinds (obs.map Prod.fst) = fs.map (fun f => f.flags.dict) := k1.symm
    rw [k5]
    exact ⟨k3, k4⟩

/-- C12 (witness): `lee` after `ListBegin` and `ListEnd`; the second `e` is invalid. -/
theorem C12_end_tokens_are_paired_witness :
    calls lp64 (bytes "lee") 2 (bencode_init (bytes "lee").length) =
      some ([(BENCODE_LIST_BEGIN, []), (BENCODE_LIST_END, [])],
        ⟨none, 0, 2, 1, some (List.replicate 64 lp64.junk), 0, 0⟩) ∧
    bencode_next lp64 (bytes "lee") ⟨none, 0, 2, 1, some (List.replicate 64 lp64.junk), 0, 0⟩ =
      some (BENCODE_ERROR_INVALID,
        advance ⟨none, 0, 2, 1, some (List.replicate 64 lp64.junk), 0, 0⟩ 1) :=
  ⟨by decide,
   (C12_end_tokens_are_paired lp64 (bytes "lee") 2
      [(BENCODE_LIST_BEGIN, []), (BENCODE_LIST_END, [])]
      ⟨none, 0, 2, 1, some (List.replicate 64 lp64.junk), 0, 0⟩ (by decide)).choose_spec.2.2.2.2
    rfl [] ⟨by decide, by decide⟩⟩


/-! # Evaluations -/

/-- C13 (failing input): after decoding `le` (which allocates the stack block),
`bencode_reinit` on `le` and one call give `BENCODE_ERROR_OOM`, where a fresh
decoder on `le` gives `BENCODE_LIST_BEGIN`: with `size = cap = 0` and a
non-null stack, `bencode_push` computes the new capacity `0 * 2` and fails. -/
theorem C13_reinit_then_push_fails :
    decode "le" 2 = some [(BENCODE_LIST_BEGIN, []), (BENCODE_LIST_END, [])] ∧
    redecode "le" 2 "le" 1 = some [(BENCODE_ERROR_OOM, [])] ∧
    decode "le" 1 = some [(BENCODE_LIST_BEGIN, [])] := by
  decide

/-- Calling again after an error, which `bencode.h` excludes (errors are not
recoverable): on the buffer `i` the first call returns `BENCODE_ERROR_EOF`
and a second call would return `BENCODE_DONE`, since `bencode_integer` sets
`tok` before it reads. -/
theorem done_after_an_error :
    decode "i" 2 = some [(BENCODE_ERROR_EOF, []), (BENCODE_DONE, [])] := by
  decide

/-- C15 (failing input): on ` i0e` the call returns `BENCODE_ERROR_INVALID`
with the cursor at offset 1, behind the invalid byte at offset 0; on `i0e `
the second call returns it with the cursor at offset 4, behind the invalid
byte at offset 3. -/
theorem C15_cursor_is_past_the_invalid_byte :
    cursor_after " i0e" 1 = some ([(BENCODE_ERROR_INVALID, [])], 1) ∧
    cursor_after "i0e " 2 =
      some ([(BENCODE_INTEGER, bytes "0"), (BENCODE_ERROR_INVALID, [])], 4) := by
  decide

/-- C18 (failing input): the first push on a fresh decoder returns index 0 and
leaves the recorded capacity at 0 with one frame on the stack. -/
theorem C18_capacity_is_never_recorded :
    (bencode_push lp64 (bencode_init 0)).map (fun p => (p.1, p.2.cap, p.2.size)) =
      some (0, 0, 1) := by
  decide


/-! # Bounds -/

theorem get_in_bounds {m : List Nat} {ctx : bencode} (hc : ctx.buf + ctx.buflen = m.length) :
    (ctx.buflen = 0 → bencode_get m ctx = some (-1, ctx) ∧ bencode_peek m ctx = some (-1)) ∧
    (ctx.buflen ≠ 0 → ∃ b, m[ctx.buf]? = some b ∧ bencode_peek m ctx = some (b : Int) ∧
      bencode_get m ctx =
        some ((b : Int), { ctx with buflen := ctx.buflen - 1, buf := ctx.buf + 1 })) := by
  constructor
  · intro h0
    unfold bencode_get bencode_peek
    rw [if_pos h0, if_pos h0]
    exact ⟨rfl, rfl⟩
  · intro h0
    have hlt : ctx.buf < m.length := by omega
    refine ⟨m[ctx.buf], List.getElem?_eq_getElem hlt, ?_, ?_⟩
    · unfold bencode_peek
      rw [if_neg h0, List.getElem?_eq_getElem hlt]
    · unfold bencode_get
      rw [if_neg h0, List.getElem?_eq_getElem hlt]

/-- C16: after every run of calls on a fresh decoder over a buffer of
`m.length` bytes, the cursor offset plus the remaining length is `m.length`;
`bencode_get` and `bencode_peek` return `-1` without moving when nothing
remains and otherwise read a byte of the buffer; the next call moves the
cursor forward only and keeps the sum; and a view returned with
`BENCODE_INTEGER` or `BENCODE_STRING` starts at or after the old cursor and
ends at or before the new one, inside the buffer. -/
theorem C16_bounds_safety (P : Platform) (m : List Nat) (n : Nat)
    (obs : List (Int × List Nat)) (ctx : bencode)
    (h : calls P m n (bencode_init m.length) = some (obs, ctx)) :
    ctx.buf + ctx.buflen = m.length ∧
    (ctx.buflen = 0 → bencode_get m ctx = some (-1, ctx) ∧ bencode_peek m ctx = some (-1)) ∧
    (ctx.buflen ≠ 0 → ∃ b, m[ctx.buf]? = some b ∧ bencode_peek m ctx = some (b : Int) ∧
      bencode_get m ctx =
        some ((b : Int), { ctx with buflen := ctx.buflen - 1, buf := ctx.buf + 1 })) ∧
    (∀ r ctx1, bencode_next P m ctx = some (r, ctx1) →
      ctx1.buf + ctx1.buflen = m.length ∧ ctx.buf ≤ ctx1.buf ∧
      (r = BENCODE_INTEGER ∨ r = BENCODE_STRING →
        ∃ t, ctx1.tok = some t ∧ ctx.buf ≤ t ∧ t + ctx1.toklen ≤ ctx1.buf ∧
          ctx1.buf ≤ m.length ∧ (view m ctx1).length = ctx1.toklen)) := by
  obtain ⟨fs, hc, hl, _⟩ := runInv_calls P m n _ ctx [] obs (runInv_init m) h
  obtain ⟨g1, g2⟩ := get_in_bounds hc
  refine ⟨hc, g1, g2, ?_⟩
  intro r ctx1 hn
  obtain ⟨a1, a2, _⟩ := step_frames P hl hn
  have hc1 : ctx1.buf + ctx1.buflen = m.length := by rw [a1]; exact hc
  refine ⟨hc1, a2, ?_⟩
  intro hr
  obtain ⟨t, t1, t2, t3⟩ := step_view P hn hr
  refine ⟨t, t1, t2, t3, by omega, ?_⟩
  rw [view_of_tok t1]
  exact slice_length (by omega)

/-- C16 (witness): the buffer `5:hello` before the first call. -/
theorem C16_bounds_safety_witness :
    calls lp64 (bytes "5:hello") 0 (bencode_init (bytes "5:hello").length) =
      some ([], bencode_init 7) ∧
    ∀ r ctx1, bencode_next lp64 (bytes "5:hello") (bencode_init 7) = some (r, ctx1) →
      ctx1.buf + ctx1.buflen = (bytes "5:hello").length ∧ (bencode_init 7).buf ≤ ctx1.buf ∧
      (r = BENCODE_INTEGER ∨ r = BENCODE_STRING →
        ∃ t, ctx1.tok = some t ∧ (bencode_init 7).buf ≤ t ∧ t + ctx1.toklen ≤ ctx1.buf ∧
          ctx1.buf ≤ (bytes "5:hello").length ∧
          (view (bytes "5:hello") ctx1).length = ctx1.toklen) :=
  ⟨rfl, (C16_bounds_safety lp64 (bytes "5:hello") 0 [] (bencode_init 7) rfl).2.2.2⟩


/-! # The view of a rejected key -/


/-- C17: when `bencode_next` returns `BENCODE_ERROR_BAD_KEY`, the top frame is
a dictionary in key position that has a stored key; the state returned is
the one in which the `switch` left the key string just parsed, so `tok` and
`toklen` are its payload, which ends at the cursor; the frames keep their
keys (only the flags of the top frame are rewritten); and, the buffer being
the rest of the input, the payload does not sort after the stored key and
is the offending key itself: the input at the cursor of the call is a
numeral `ds`, a `:` and the bytes `s`, the view starts right behind the `:`
and holds exactly `s`, whose number is what the length loop makes of `ds`
(its value whenever that fits `size_t`), and the cursor ends behind `s`. -/
theorem C17_bad_key_view (P : Platform) (m : List Nat) (ctx ctx1 : bencode)
    (fs : List Frame) (hl : Live ctx fs)
    (hn : bencode_next P m ctx = some (BENCODE_ERROR_BAD_KEY, ctx1)) :
    ∃ fs0 f cx k t, fs = fs0 ++ [f] ∧ f.flags.dict = true ∧ f.flags.expect_value = false ∧
      next_enter m ctx = some (.go cx (some fs0.length)) ∧
      next_switch P m cx = some (true, BENCODE_STRING, ctx1) ∧
      Live ctx1 (fs0 ++ [{ f with flags := ⟨false, true, true⟩ }]) ∧
      f.key = some k ∧ ctx1.tok = some t ∧ ctx.buf ≤ t ∧ t + ctx1.toklen = ctx1.buf ∧
      (ctx.buf + ctx.buflen = m.length → k + f.keylen ≤ m.length →
        ¬ (m.drop k).take f.keylen < view m ctx1) ∧
      (ctx.buf + ctx.buflen = m.length →
        ∃ ds s rest, At m ctx (ds ++ 0x3a :: (s ++ rest)) ∧ canon_nat ds = true ∧
          t = ctx.buf + (ds.length + 1) ∧ ctx1.toklen = s.length ∧ view m ctx1 = s ∧
          At m ctx1 rest ∧ wrap_len P ds 0 = (true, s.length) ∧
          (decval ds < 2 ^ P.w → decval ds = s.length)) := by
  rcases next_unfold P hn with he | ⟨cx, kp, b, r0, c2, he, hs, hfin⟩
  · obtain ⟨h1, _⟩ := enter_ret_code he
    rcases h1 with h1 | h1 | h1 <;> exact absurd h1 (by decide)
  · have hsw := switch_cases P hs
    have hne := switch_code hsw
    obtain ⟨e1, e2, _, _, hcase⟩ := enter_go hl he
    have hk : b = true ∧ r0 = BENCODE_STRING ∧ ctx1 = c2 ∧
        next_key m kp BENCODE_STRING c2 = some (BENCODE_ERROR_BAD_KEY, c2) := by
      rcases hfin with ⟨_, a, _⟩ | ⟨hb, a⟩
      · exact absurd a.symm hne
      · rcases (next_key_code a).1 with h1 | ⟨_, h2, h3⟩
        · exact absurd h1.symm hne
        · subst h2
          subst h3
          exact ⟨hb, rfl, rfl, a⟩
    obtain ⟨rfl, rfl, rfl, hkey⟩ := hk
    rcases hcase with ⟨rfl, _⟩ | ⟨fs0, f, c, rfl, hd, hev, rfl, hl1, hp, hc⟩
    · simp only [next_key, Option.some.injEq, Prod.mk.injEq] at hkey
      exact absurd hkey.1 (by decide)
    · obtain ⟨blk, tok, f1, hstk, htok, hf1, hcs⟩ := next_key_inv hkey
      cases hsw with
      | leaf _ _ _ hm hr hb hx =>
        rcases hr with h0 | h0 | h0 | h0 | ⟨_, _, t, t1, t2, t3⟩
        · exact absurd h0 (by decide)
        · exact absurd h0 (by decide)
        · exact absurd h0 (by decide)
        · exact absurd h0 (by decide)
        · have hlive := hl1.moved hm
          obtain ⟨hcap, hsz, junk, hstk1⟩ := hlive.top_frame
          rw [hstk] at hstk1
          have hblk : blk = fs0 ++ { f with flags := ⟨false, true, true⟩ } :: junk :=
            Option.some.inj hstk1
          have hf2 : f1 = { f with flags := ⟨false, true, true⟩ } := by
            rw [hblk, getElem?_mid] at hf1
            exact (Option.some.inj hf1).symm
          have htt : tok = t := by
            rw [htok] at t1
            exact Option.some.inj t1
          subst htt
          rcases hcs with ⟨h1, _⟩ | ⟨_, _, key, hk1⟩
          · exact absurd h1 (by decide)
          · have hk2 : f.key = some key := by rw [hf2] at hk1; exact hk1
            refine ⟨fs0, f, cx, key, tok, rfl, hd, hev, he, hs, hlive, hk2, htok,
              by rw [← e1]; exact t3, t2, ?_, ?_⟩
            · intro hcur hkb hlt
              have hin : tok + ctx1.toklen ≤ m.length := by
                have := hm.2.2.2.1
                omega
              have hkb1 : key + f1.keylen ≤ m.length := by rw [hf2]; exact hkb
              have hx1 := next_key_some (m := m) fs0.length tok key hstk htok hf1 hk1 hin hkb1
              rw [hx1] at hkey
              have hb4 : f1.keylen = f.keylen := by rw [hf2]
              rw [view_of_tok htok] at hlt
              rw [hb4, if_pos hlt] at hkey
              simp only [Option.some.injEq, Prod.mk.injEq] at hkey
              exact absurd hkey.1 (by decide)
            · intro hcur
              obtain ⟨ds, s, rest, s1, s2, s3, s4, s5, s6, s7⟩ :=
                next_string_shape P hcur hn (Or.inr rfl)
              refine ⟨ds, s, rest, s1, s2, ?_, s5, s4, s7, s3, wrap_decval P s2 s3⟩
              rw [htok] at s6
              exact Option.some.inj s6

/-- C17 (witness): the duplicate key of `d1:ai0e1:a`, in the state after the
first entry: the call returns `BENCODE_ERROR_BAD_KEY` with the view on the
second `a`. -/
theorem C17_bad_key_view_witness :
    bencode_next lp64 (bytes "d1:ai0e1:a") after_first_entry =
      some (BENCODE_ERROR_BAD_KEY, ⟨some 9, 1, 10, 0,
        some ((⟨some 3, 1, ⟨false, true, true⟩⟩ : Frame) :: List.replicate 63 lp64.junk), 0, 1⟩) ∧
    view (bytes "d1:ai0e1:a") ⟨some 9, 1, 10, 0,
        some ((⟨some 3, 1, ⟨false, true, true⟩⟩ : Frame) :: List.replicate 63 lp64.junk), 0, 1⟩ =
      bytes "a" ∧
    ∃ fs0 f cx k t, [(⟨some 3, 1, ⟨false, true, false⟩⟩ : Frame)] = fs0 ++ [f] ∧
      f.flags.dict = true ∧ f.flags.expect_value = false ∧
      next_enter (bytes "d1:ai0e1:a") after_first_entry = some (.go cx (some fs0.length)) ∧
      next_switch lp64 (bytes "d1:ai0e1:a") cx = some (true, BENCODE_STRING, ⟨some 9, 1, 10, 0,
        some ((⟨some 3, 1, ⟨false, true, true⟩⟩ : Frame) :: List.replicate 63 lp64.junk), 0, 1⟩) ∧
      Live (⟨some 9, 1, 10, 0,
        some ((⟨some 3, 1, ⟨false, true, true⟩⟩ : Frame) :: List.replicate 63 lp64.junk), 0, 1⟩ :
          bencode) (fs0 ++ [{ f with flags := ⟨false, true, true⟩ }]) ∧
      f.key = some k ∧ (some 9 : Option Nat) = some t ∧ after_first_entry.buf ≤ t ∧
      t + 1 = 10 ∧
      (after_first_entry.buf + after_first_entry.buflen = (bytes "d1:ai0e1:a").length →
        k + f.keylen ≤ (bytes "d1:ai0e1:a").length →
        ¬ ((bytes "d1:ai0e1:a").drop k).take f.keylen < view (bytes "d1:ai0e1:a") ⟨some 9, 1, 10, 0,
          some ((⟨some 3, 1, ⟨false, true, true⟩⟩ : Frame) :: List.replicate 63 lp64.junk),
          0, 1⟩) ∧
      (after_first_entry.buf + after_first_entry.buflen = (bytes "d1:ai0e1:a").length →
        ∃ ds s rest, At (bytes "d1:ai0e1:a") after_first_entry (ds ++ 0x3a :: (s ++ rest)) ∧
          canon_nat ds = true ∧ t = after_first_entry.buf + (ds.length + 1) ∧
          1 = s.length ∧
          view (bytes "d1:ai0e1:a") ⟨some 9, 1, 10, 0,
            some ((⟨some 3, 1, ⟨false, true, true⟩⟩ : Frame) :: List.replicate 63 lp64.junk),
            0, 1⟩ = s ∧
          At (bytes "d1:ai0e1:a") (⟨some 9, 1, 10, 0,
            some ((⟨some 3, 1, ⟨false, true, true⟩⟩ : Frame) :: List.replicate 63 lp64.junk),
            0, 1⟩ : bencode) rest ∧
          wrap_len lp64 ds 0 = (true, s.length) ∧
          (decval ds < 2 ^ lp64.w → decval ds = s.length)) :=
  ⟨by decide, by decide,
   C17_bad_key_view lp64 (bytes "d1:ai0e1:a") after_first_entry _
    [⟨some 3, 1, ⟨false, true, false⟩⟩] ⟨rfl, rfl, List.replicate 63 lp64.junk, rfl⟩
    (by decide)⟩


/-! # Frames below the top -/

/-- C19: one call of `bencode_next` leaves every frame below the top frame as
it is; it pops the top frame (on an End token), or keeps its kind and either
keeps its key or, for a string accepted in key position, replaces it by the
view; and on a Begin token it pushes one frame on top, which for a
dictionary has no key. With no frame open the call can only push one. -/
theorem C19_only_the_top_frame_changes (P : Platform) (m : List Nat) (ctx ctx1 : bencode)
    (fs : List Frame) (r : Int) (hl : Live ctx fs)
    (hn : bencode_next P m ctx = some (r, ctx1)) :
    ∃ fs1, Live ctx1 fs1 ∧
      (fs = [] → fs1 = [] ∨
        (r = BENCODE_LIST_BEGIN ∧
          ∃ old : Frame, fs1 = [{ old with flags := ⟨true, false, false⟩ }]) ∨
        (r = BENCODE_DICT_BEGIN ∧ fs1 = [⟨none, 0, ⟨true, true, false⟩⟩])) ∧
      (∀ fs0 f, fs = fs0 ++ [f] →
        ((r = BENCODE_LIST_END ∨ r = BENCODE_DICT_END) ∧ fs1 = fs0) ∨
        (∃ g : Frame, fs1 = fs0 ++ [g] ∧ g.flags.dict = f.flags.dict ∧
          ((g.key = f.key ∧ g.keylen = f.keylen) ∨
            (r = BENCODE_STRING ∧ f.flags.dict = true ∧ f.flags.expect_value = false ∧
              g.key = ctx1.tok ∧ g.keylen = ctx1.toklen))) ∨
        (∃ g new : Frame, fs1 = fs0 ++ [g, new] ∧ g.key = f.key ∧ g.keylen = f.keylen ∧
          g.flags.dict = f.flags.dict ∧
          ((r = BENCODE_DICT_BEGIN ∧ new = ⟨none, 0, ⟨true, true, false⟩⟩) ∨
            (r = BENCODE_LIST_BEGIN ∧ new.flags = ⟨true, false, false⟩)))) := by
  obtain ⟨_, _, fs1, hl1, hstep⟩ := step_frames P hl hn
  refine ⟨fs1, hl1, ?_, ?_⟩
  · intro hnil
    subst hnil
    rcases frameStep_nil hstep with ⟨_, h1⟩ | h1 | h1
    · exact Or.inl h1
    · exact Or.inr (Or.inl h1)
    · exact Or.inr (Or.inr h1)
  · intro fs0 f hfs
    subst hfs
    obtain ⟨c1, c2, c3, _⟩ := entered_value_facts f
    rcases frameStep_top hstep with ⟨_, g, h1, h2, h3, h4, _⟩ | ⟨_, _, h1⟩ |
      ⟨h0, hd, he, t, ht, _, h1⟩ | ⟨h0, _, old, h1⟩ | ⟨h0, _, h1⟩ | ⟨h0, _, h1⟩ |
      ⟨h0, _, _, h1⟩
    · exact Or.inr (Or.inl ⟨g, h1, h4, Or.inl ⟨h2, h3⟩⟩)
    · exact Or.inr (Or.inl ⟨_, h1, c3, Or.inl ⟨c1, c2⟩⟩)
    · exact Or.inr (Or.inl ⟨_, h1, hd.symm, Or.inr ⟨h0, hd, he, ht.symm, rfl⟩⟩)
    · exact Or.inr (Or.inr ⟨_, _, h1, c1, c2, c3, Or.inr ⟨h0, rfl⟩⟩)
    · exact Or.inr (Or.inr ⟨_, _, h1, c1, c2, c3, Or.inl ⟨h0, rfl⟩⟩)
    · exact Or.inl ⟨Or.inl h0, h1⟩
    · exact Or.inl ⟨Or.inr h0, h1⟩

/-- C19 (witness): `d1:ad1:bi0ee1:c` after the inner dictionary got its key
`b`; the call that returns its value leaves the outer frame, with its key
`a`, as it is. -/
theorem C19_only_the_top_frame_changes_witness :
    (calls lp64 (bytes "d1:ad1:bi0ee1:c") 4 (bencode_init 15)).map Prod.snd =
      some ⟨some 7, 1, 8, 7, some ((⟨some 3, 1, ⟨false, true, false⟩⟩ : Frame) ::
        (⟨some 7, 1, ⟨false, true, true⟩⟩ : Frame) :: List.replicate 62 lp64.junk), 0, 2⟩ ∧
    ∃ fs1, Live (⟨some 9, 1, 11, 4, some ((⟨some 3, 1, ⟨false, true, false⟩⟩ : Frame) ::
        (⟨some 7, 1, ⟨false, true, false⟩⟩ : Frame) :: List.replicate 62 lp64.junk), 0, 2⟩ :
          bencode) fs1 ∧
      ∀ fs0 f, [(⟨some 3, 1, ⟨false, true, false⟩⟩ : Frame),
          (⟨some 7, 1, ⟨false, true, true⟩⟩ : Frame)] = fs0 ++ [f] →
        ((BENCODE_INTEGER = BENCODE_LIST_END ∨ BENCODE_INTEGER = BENCODE_DICT_END) ∧
          fs1 = fs0) ∨
        (∃ g : Frame, fs1 = fs0 ++ [g] ∧ g.flags.dict = f.flags.dict ∧
          ((g.key = f.key ∧ g.keylen = f.keylen) ∨
            (BENCODE_INTEGER = BENCODE_STRING ∧ f.flags.dict = true ∧
              f.flags.expect_value = false ∧ g.key = some 9 ∧ g.keylen = 1))) ∨
        (∃ g new : Frame, fs1 = fs0 ++ [g, new] ∧ g.key = f.key ∧ g.keylen = f.keylen ∧
          g.flags.dict = f.flags.dict ∧
          ((BENCODE_INTEGER = BENCODE_DICT_BEGIN ∧ new = ⟨none, 0, ⟨true, true, false⟩⟩) ∨
            (BENCODE_INTEGER = BENCODE_LIST_BEGIN ∧ new.flags = ⟨true, false, false⟩))) :=
  ⟨by decide,
   (C19_only_the_top_frame_changes lp64 (bytes "d1:ad1:bi0ee1:c")
      ⟨some 7, 1, 8, 7, some ((⟨some 3, 1, ⟨false, true, false⟩⟩ : Frame) ::
        (⟨some 7, 1, ⟨false, true, true⟩⟩ : Frame) :: List.replicate 62 lp64.junk), 0, 2⟩
      ⟨some 9, 1, 11, 4, some ((⟨some 3, 1, ⟨false, true, false⟩⟩ : Frame) ::
        (⟨some 7, 1, ⟨false, true, false⟩⟩ : Frame) :: List.replicate 62 lp64.junk), 0, 2⟩
      [⟨some 3, 1, ⟨false, true, false⟩⟩, ⟨some 7, 1, ⟨false, true, true⟩⟩] BENCODE_INTEGER
      ⟨rfl, rfl, List.replicate 62 lp64.junk, rfl⟩ (by decide)).imp
    (fun _ h => ⟨h.1, h.2.2⟩)⟩


/-! # The helper macros -/

theorem macros_top {ctx : bencode} {fs0 : List Frame} {g : Frame}
    (hl : Live ctx (fs0 ++ [g])) :
    ctx.size ≠ 0 ∧ BENCODE_IS_VALUE ctx = some (g.flags.dict && g.flags.expect_value) ∧
      BENCODE_FIRST ctx = some g.flags.first ∧
      key_position ctx = some (g.flags.dict && !g.flags.expect_value) := by
  obtain ⟨_, hsz, junk, hstk⟩ := hl.top_frame
  have h1 : ctx.size ≠ 0 := by omega
  have h2 : ctx.size - 1 = fs0.length := by omega
  refine ⟨h1, is_value_top hstk hsz, ?_, ?_⟩
  · unfold BENCODE_FIRST
    rw [if_pos h1, hstk]
    simp only [h2, getElem?_mid, Option.map_some']
  · unfold key_position
    rw [if_pos h1, hstk]
    simp only [h2, getElem?_mid, Option.map_some']

theorem macros_nil {ctx : bencode} (hl : Live ctx []) :
    ctx.size = 0 ∧ BENCODE_IS_VALUE ctx = some false ∧ key_position ctx = some false := by
  have h0 : ctx.size = 0 := hl.2.1
  refine ⟨h0, is_value_zero h0, ?_⟩
  unfold key_position
  rw [if_neg (by simp [h0])]

theorem macros_settled {ctx : bencode} {fs : List Frame} (hl : Live ctx fs)
    (hs : ∀ f ∈ fs, Settled f) :
    BENCODE_IS_VALUE ctx = some false ∧ (ctx.size ≠ 0 → BENCODE_FIRST ctx = some false) := by
  rcases List.eq_nil_or_concat fs with rfl | ⟨fs0, g, rfl⟩
  · obtain ⟨h0, h1, _⟩ := macros_nil hl
    exact ⟨h1, fun h => absurd h0 h⟩
  · have e : fs0.concat g = fs0 ++ [g] := by simp
    rw [e] at hl hs
    obtain ⟨_, h1, h2, _⟩ := macros_top hl
    obtain ⟨s1, s2⟩ := hs g (by simp)
    rw [h1, h2, s1, s2]
    exact ⟨by simp, fun _ => rfl⟩

/-- C20: after every run of calls on a fresh decoder, when the next call
returns a token, (a) `BENCODE_IS_VALUE` then holds iff the token is a string
that was returned in key position of the top dictionary, and (b) inside a
container `BENCODE_FIRST` then holds iff the token is the Begin token that
pushed the top frame. -/
theorem C20_flag_invariants (P : Platform) (m : List Nat) (n : Nat)
    (obs : List (Int × List Nat)) (ctx : bencode)
    (h : calls P m n (bencode_init m.length) = some (obs, ctx)) :
    ∀ r ctx1, bencode_next P m ctx = some (r, ctx1) → 0 < r →
      (∃ b, BENCODE_IS_VALUE ctx1 = some b) ∧
      (BENCODE_IS_VALUE ctx1 = some true ↔
        (r = BENCODE_STRING ∧ key_position ctx = some true)) ∧
      (ctx1.size ≠ 0 → (∃ b, BENCODE_FIRST ctx1 = some b) ∧
        (BENCODE_FIRST ctx1 = some true ↔
          (r = BENCODE_LIST_BEGIN ∨ r = BENCODE_DICT_BEGIN))) := by
  obtain ⟨fs, hc, hl, ht⟩ := runInv_calls P m n _ ctx [] obs (runInv_init m) h
  intro r ctx1 hn hr
  obtain ⟨_, _, fs1, hl1, hstep⟩ := step_frames P hl hn
  have hnew : ∀ (fs2 : List Frame) (g : Frame), fs1 = fs2 ++ [g] →
      g.flags.first = true → g.flags.expect_value = false →
      (r = BENCODE_LIST_BEGIN ∨ r = BENCODE_DICT_BEGIN) →
      (∃ b, BENCODE_IS_VALUE ctx1 = some b) ∧
      (BENCODE_IS_VALUE ctx1 = some true ↔
        (r = BENCODE_STRING ∧ key_position ctx = some true)) ∧
      (ctx1.size ≠ 0 → (∃ b, BENCODE_FIRST ctx1 = some b) ∧
        (BENCODE_FIRST ctx1 = some true ↔
          (r = BENCODE_LIST_BEGIN ∨ r = BENCODE_DICT_BEGIN))) := by
    intro fs2 g e g1 g2 hb
    rw [e] at hl1
    obtain ⟨_, m1, m2, _⟩ := macros_top hl1
    rw [m1, m2, g1, g2]
    refine ⟨⟨_, rfl⟩, ⟨fun h => by simp at h, fun h => ?_⟩, fun _ => ⟨⟨_, rfl⟩, fun _ => hb, fun _ => rfl⟩⟩
    rcases hb with hb | hb <;> rw [hb] at h <;> exact absurd h.1 (by decide)
  have hold : (∀ f ∈ fs1, Settled f) → (r = BENCODE_LIST_END ∨ r = BENCODE_DICT_END) →
      (∃ b, BENCODE_IS_VALUE ctx1 = some b) ∧
      (BENCODE_IS_VALUE ctx1 = some true ↔
        (r = BENCODE_STRING ∧ key_position ctx = some true)) ∧
      (ctx1.size ≠ 0 → (∃ b, BENCODE_FIRST ctx1 = some b) ∧
        (BENCODE_FIRST ctx1 = some true ↔
          (r = BENCODE_LIST_BEGIN ∨ r = BENCODE_DICT_BEGIN))) := by
    intro hs he
    obtain ⟨m1, m2⟩ := macros_settled hl1 hs
    rw [m1]
    refine ⟨⟨_, rfl⟩, ⟨fun h => by simp at h, fun h => ?_⟩, fun hz => ?_⟩
    · rcases he with he | he <;> rw [he] at h <;> exact absurd h.1 (by decide)
    · rw [m2 hz]
      refine ⟨⟨_, rfl⟩, fun h => by simp at h, fun h => ?_⟩
      rcases he with he | he <;> rcases h with h | h <;> rw [he] at h <;>
        exact absurd h (by decide)
  rcases List.eq_nil_or_concat fs with rfl | ⟨fs0, f, rfl⟩
  · obtain ⟨_, _, k0⟩ := macros_nil hl
    rcases frameStep_nil hstep with ⟨h1, rfl⟩ | ⟨h0, old, h1⟩ | ⟨h0, h1⟩
    · obtain ⟨z0, z1, _⟩ := macros_nil hl1
      rw [z1, k0]
      refine ⟨⟨_, rfl⟩, ⟨fun h => by simp at h, fun h => by simp at h⟩, fun hz => absurd z0 hz⟩
    · exact hnew [] _ h1 rfl rfl (Or.inl h0)
    · exact hnew [] _ h1 rfl rfl (Or.inr h0)
  · have e : fs0.concat f = fs0 ++ [f] := by simp
    rw [e] at hl ht hstep
    obtain ⟨_, _, _, k0⟩ := macros_top hl
    obtain ⟨t1, t2⟩ := tidy_parts ht
    obtain ⟨c1, c2, c3, c4, c5, c6⟩ := entered_value_facts f
    rcases frameStep_top hstep with ⟨h0, _⟩ | ⟨h0, hv, h1⟩ |
      ⟨h0, hd, he, t, _, _, h1⟩ | ⟨h0, _, old, h1⟩ | ⟨h0, _, h1⟩ | ⟨h0, _, h1⟩ |
      ⟨h0, _, _, h1⟩
    · omega
    · rw [h1] at hl1
      obtain ⟨z0, z1, z2, _⟩ := macros_top hl1
      have hval : ((entered_value f).flags.dict && (entered_value f).flags.expect_value) =
          false := by
        rcases Bool.eq_false_or_eq_true f.flags.dict with hd | hd
        · rw [c6 hd]; simp
        · rw [c3, hd]; simp
      have hkey : (f.flags.dict && !f.flags.expect_value) = false := by
        rcases hv with hv | hv <;> rw [hv] <;> simp
      rw [z1, z2, hval, k0, hkey, c4]
      refine ⟨⟨_, rfl⟩, ⟨fun h => by simp at h, fun h => by simp at h⟩,
        fun _ => ⟨⟨_, rfl⟩, fun h => by simp at h, fun h => ?_⟩⟩
      rcases h0 with h0 | h0 <;> rcases h with h | h <;> rw [h0] at h <;>
        exact absurd h (by decide)
    · rw [h1] at hl1
      obtain ⟨z0, z1, z2, _⟩ := macros_top hl1
      rw [z1, z2, k0, hd, he]
      refine ⟨⟨_, rfl⟩, ⟨fun _ => ⟨h0, rfl⟩, fun _ => rfl⟩,
        fun _ => ⟨⟨_, rfl⟩, fun h => by simp at h, fun h => ?_⟩⟩
      rcases h with h | h <;> rw [h0] at h <;> exact absurd h (by decide)
    · exact hnew (fs0 ++ [entered_value f]) { old with flags := ⟨true, false, false⟩ }
        (by rw [h1]; simp) rfl rfl (Or.inl h0)
    · exact hnew (fs0 ++ [entered_value f]) ⟨none, 0, ⟨true, true, false⟩⟩
        (by rw [h1]; simp) rfl rfl (Or.inr h0)
    · exact hold (by rw [h1]; exact t1) (Or.inl h0)
    · exact hold (by rw [h1]; exact t1) (Or.inr h0)

/-- C20 (witness): `d1:ai0e1:b` after the first entry; the next call returns
the key `b`, after which `BENCODE_IS_VALUE` holds and `BENCODE_FIRST` does not. -/
theorem C20_flag_invariants_witness :
    calls lp64 (bytes "d1:ai0e1:b") 3 (bencode_init (bytes "d1:ai0e1:b").length) =
      some ([(BENCODE_DICT_BEGIN, []), (BENCODE_STRING, bytes "a"),
        (BENCODE_INTEGER, bytes "0")], after_first_entry) ∧
    ∀ r ctx1, bencode_next lp64 (bytes "d1:ai0e1:b") after_first_entry = some (r, ctx1) →
      0 < r →
      (∃ b, BENCODE_IS_VALUE ctx1 = some b) ∧
      (BENCODE_IS_VALUE ctx1 = some true ↔
        (r = BENCODE_STRING ∧ key_position after_first_entry = some true)) ∧
      (ctx1.size ≠ 0 → (∃ b, BENCODE_FIRST ctx1 = some b) ∧
        (BENCODE_FIRST ctx1 = some true ↔
          (r = BENCODE_LIST_BEGIN ∨ r = BENCODE_DICT_BEGIN))) :=
  ⟨by decide,
   C20_flag_invariants lp64 (bytes "d1:ai0e1:b") 3
    [(BENCODE_DICT_BEGIN, []), (BENCODE_STRING, bytes "a"), (BENCODE_INTEGER, bytes "0")]
    after_first_entry (by decide)⟩


/-! # Progress -/

theorem get_of_peek {m : List Nat} {ctx : bencode} {c : Int}
    (hp : bencode_peek m ctx = some c) (hc : c ≠ -1) :
    bencode_get m ctx =
      some (c, { ctx with buflen := ctx.buflen - 1, buf := ctx.buf + 1 }) := by
  unfold bencode_peek at hp
  unfold bencode_get
  by_cases hb : ctx.buflen = 0
  · rw [if_pos hb] at hp
    exact absurd (Option.some.inj hp).symm hc
  · rw [if_neg hb] at hp ⊢
    cases hm : m[ctx.buf]? with
    | none => rw [hm] at hp; cases hp
    | some x =>
      rw [hm] at hp
      simp only [Option.some.injEq] at hp
      simp only [hp]

/-- A `switch` entered on a digit moves the cursor. -/
theorem switch_digit_moves (P : Platform) {m : List Nat} {ctx c1 : bencode} {b : Bool}
    {r c : Int} (hp : bencode_peek m ctx = some c) (hd : 0x30 ≤ c ∧ c ≤ 0x39)
    (h : next_switch P m ctx = some (b, r, c1)) : ctx.buf < c1.buf := by
  have hg := get_of_peek hp (by omega)
  unfold next_switch at h
  rw [hg] at h
  simp only at h
  rw [if_neg (by omega), if_neg (by omega), if_neg (by omega), if_neg (by omega),
    if_neg (by omega)] at h
  by_cases h0 : c = 0x30
  · rw [if_pos h0] at h
    cases hg2 : bencode_get m { ctx with buflen := ctx.buflen - 1, buf := ctx.buf + 1 } with
    | none => rw [hg2] at h; cases h
    | some y =>
      obtain ⟨c', cy⟩ := y
      rw [hg2] at h
      simp only at h
      obtain ⟨k1, _⟩ := get_moved hg2
      have hle : ctx.buf + 1 ≤ cy.buf := k1.2.2.2.2
      by_cases d1 : c' = -1
      · rw [if_pos d1] at h
        simp only [Option.some.injEq, Prod.mk.injEq] at h
        obtain ⟨_, _, rfl⟩ := h
        omega
      rw [if_neg d1] at h
      by_cases d2 : c' ≠ 0x3a
      · rw [if_pos d2] at h
        simp only [Option.some.injEq, Prod.mk.injEq] at h
        obtain ⟨_, _, rfl⟩ := h
        omega
      rw [if_neg d2] at h
      simp only [Option.some.injEq, Prod.mk.injEq] at h
      obtain ⟨_, _, rfl⟩ := h
      show ctx.buf < cy.buf
      omega
  · rw [if_neg h0, if_pos ⟨by omega, hd.2⟩] at h
    cases hs : bencode_string P m { ctx with buflen := ctx.buflen - 1, buf := ctx.buf + 1 } with
    | none => rw [hs] at h; cases h
    | some y =>
      obtain ⟨r1, cy⟩ := y
      rw [hs] at h
      simp only [Option.some.injEq, Prod.mk.injEq] at h
      obtain ⟨_, _, rfl⟩ := h
      obtain ⟨i1, _⟩ := string_moved P hs
      have hle : ctx.buf + 1 ≤ cy.buf := i1.2.2.2.2
      omega

theorem enter_ret_cursor {m : List Nat} {ctx cx : bencode} {r : Int}
    (he : next_enter m ctx = some (.ret r cx)) :
    r ≤ 0 ∧ cx.buf = ctx.buf ∧ cx.buflen = ctx.buflen := by
  have hc := enter_cases he
  generalize hE : Entered.ret r cx = E at hc
  cases hc with
  | at_end h0 hb =>
    simp only [Entered.ret.injEq] at hE
    obtain ⟨rfl, rfl⟩ := hE
    refine ⟨?_, rfl, rfl⟩
    split <;> decide
  | top => cases hE
  | item => cases hE
  | value => cases hE
  | no_value blk f hz hs hf hd he' hp =>
    simp only [Entered.ret.injEq] at hE
    obtain ⟨rfl, rfl⟩ := hE
    exact ⟨by decide, rfl, rfl⟩
  | key => cases hE
  | no_key blk f c hz hs hf hd he' hp hc' =>
    simp only [Entered.ret.injEq] at hE
    obtain ⟨rfl, rfl⟩ := hE
    exact ⟨by decide, rfl, rfl⟩

/-- The `switch` keeps the sum of cursor and remaining length, moves the
cursor forward only, and moves it when it returns a token. -/
theorem switch_cursor (P : Platform) {m : List Nat} {cx c2 : bencode} {b : Bool} {r0 : Int}
    (hs : next_switch P m cx = some (b, r0, c2)) :
    c2.buf + c2.buflen = cx.buf + cx.buflen ∧ cx.buf ≤ c2.buf ∧ (0 < r0 → cx.buf < c2.buf) := by
  have hsw := switch_cases P hs
  cases hsw with
  | leaf _ _ _ hm hr hb hx =>
    refine ⟨hm.2.2.2.1, hm.2.2.2.2, ?_⟩
    intro hpos
    rcases hr with h0 | h0 | h0 | h0 | ⟨h0, _⟩
    · rw [h0] at hpos; exact absurd hpos (by decide)
    · rw [h0] at hpos; exact absurd hpos (by decide)
    · rw [h0] at hpos; exact absurd hpos (by decide)
    · obtain ⟨_, t, _, t2, t3⟩ := hx.1 h0
      omega
    · obtain ⟨c, hp, hd⟩ := hx.2.2 h0
      exact switch_digit_moves P hp hd hs
  | dict_begin cy stk blk old hg hp hst ho =>
    obtain ⟨g1, _, _, g4⟩ := get_moved hg
    have hb : cy.buf = cx.buf + 1 := by
      rcases g4 with ⟨g4, _⟩ | ⟨_, g4, _⟩
      · exact absurd g4 (by decide)
      · exact g4
    exact ⟨g1.2.2.2.1, g1.2.2.2.2, fun _ => by show cx.buf < cy.buf; omega⟩
  | list_begin cy stk blk old hg hp hst ho =>
    obtain ⟨g1, _, _, g4⟩ := get_moved hg
    have hb : cy.buf = cx.buf + 1 := by
      rcases g4 with ⟨g4, _⟩ | ⟨_, g4, _⟩
      · exact absurd g4 (by decide)
      · exact g4
    exact ⟨g1.2.2.2.1, g1.2.2.2.2, fun _ => by show cx.buf < cy.buf; omega⟩
  | container_end cy blk f hg hsz hst hf =>
    obtain ⟨g1, _, _, g4⟩ := get_moved hg
    have hb : cy.buf = cx.buf + 1 := by
      rcases g4 with ⟨g4, _⟩ | ⟨_, g4, _⟩
      · exact absurd g4 (by decide)
      · exact g4
    exact ⟨g1.2.2.2.1, g1.2.2.2.2, fun _ => by show cx.buf < cy.buf; omega⟩

/-- One call, from any state: the sum of cursor and remaining length is kept,
the cursor moves forward only, and it moves when a token is returned. -/
theorem step_cursor (P : Platform) {m : List Nat} {ctx ctx1 : bencode} {r : Int}
    (hn : bencode_next P m ctx = some (r, ctx1)) :
    ctx1.buf + ctx1.buflen = ctx.buf + ctx.buflen ∧ ctx.buf ≤ ctx1.buf ∧
      (0 < r → ctx.buf < ctx1.buf) := by
  rcases next_unfold P hn with he | ⟨cx, kp, b, r0, c2, he, hs, hfin⟩
  · obtain ⟨h1, h2, h3⟩ := enter_ret_cursor he
    exact ⟨by rw [h2, h3], by rw [h2], fun h => by omega⟩
  · obtain ⟨e1, e2⟩ := enter_go_cursor he
    obtain ⟨a1, a2, a3⟩ := switch_cursor P hs
    rcases hfin with ⟨_, rfl, rfl⟩ | ⟨_, hk⟩
    · exact ⟨by rw [a1, e1, e2], by rw [← e1]; exact a2, fun h => by rw [← e1]; exact a3 h⟩
    · obtain ⟨hcode, hst⟩ := next_key_code hk
      have b1 : ctx1.buf = c2.buf := by rw [hst]
      have b2 : ctx1.buflen = c2.buflen := by rw [hst]
      refine ⟨by rw [b1, b2, a1, e1, e2], by rw [b1, ← e1]; exact a2, ?_⟩
      intro hpos
      rcases hcode with rfl | ⟨h1, _⟩
      · rw [b1, ← e1]
        exact a3 hpos
      · rw [h1] at hpos
        exact absurd hpos (by decide)

theorem tokens_cons (o : Int × List Nat) (obs : List (Int × List Nat)) :
    tokens (o :: obs) = tokens obs + (if 0 < o.1 then 1 else 0) := by
  unfold tokens
  rw [List.countP_cons]
  simp

/-- Every token of a run costs at least one byte of the remaining input. -/
theorem tokens_calls (P : Platform) (m : List Nat) : ∀ (k : Nat) (ctx ctx1 : bencode)
    (obs : List (Int × List Nat)), calls P m k ctx = some (obs, ctx1) →
    tokens obs + ctx1.buflen ≤ ctx.buflen ∧ obs.length = k
  | 0, ctx, ctx1, obs, h => by
    simp only [calls, Option.some.injEq, Prod.mk.injEq] at h
    obtain ⟨rfl, rfl⟩ := h
    exact ⟨by simp [tokens], rfl⟩
  | k + 1, ctx, ctx1, obs, h => by
    simp only [calls] at h
    cases hn : bencode_next P m ctx with
    | none => rw [hn] at h; cases h
    | some x =>
      obtain ⟨r, cx⟩ := x
      rw [hn] at h
      simp only at h
      cases hc : calls P m k cx with
      | none => rw [hc] at h; cases h
      | some y =>
        obtain ⟨obs1, cy⟩ := y
        rw [hc] at h
        simp only [Option.some.injEq, Prod.mk.injEq] at h
        obtain ⟨rfl, rfl⟩ := h
        obtain ⟨a1, a2, a3⟩ := step_cursor P hn
        obtain ⟨i1, i2⟩ := tokens_calls P m k cx cy obs1 hc
        refine ⟨?_, by simp [i2]⟩
        rw [tokens_cons]
        have e : (observe m r cx).1 = r := rfl
        rw [e]
        by_cases hpos : 0 < r
        · have := a3 hpos
          rw [if_pos hpos]
          omega
        · rw [if_neg hpos]
          omega

/-- The driver loop needs at most one call more than bytes remain. -/
theorem drive_ends (P : Platform) (m : List Nat) : ∀ (fuel : Nat) (ctx : bencode)
    (res : Option Nat), ctx.buflen < fuel → drive P m fuel ctx = some res →
    ∃ k, res = some k ∧ k ≤ ctx.buflen + 1
  | 0, ctx, res, hf, _ => by omega
  | fuel + 1, ctx, res, hf, h => by
    simp only [drive] at h
    cases hn : bencode_next P m ctx with
    | none => rw [hn] at h; cases h
    | some x =>
      obtain ⟨r, cx⟩ := x
      rw [hn] at h
      simp only at h
      by_cases hr : r ≤ 0
      · rw [if_pos hr] at h
        simp only [Option.some.injEq] at h
        exact ⟨1, h.symm, by omega⟩
      · rw [if_neg hr] at h
        obtain ⟨a1, a2, a3⟩ := step_cursor P hn
        have hlt := a3 (by omega)
        cases hd : drive P m fuel cx with
        | none => rw [hd] at h; cases h
        | some res1 =>
          rw [hd] at h
          simp only [Option.map_some', Option.some.injEq] at h
          obtain ⟨k, hk, hle⟩ := drive_ends P m fuel cx res1 (by omega) hd
          subst hk
          exact ⟨k + 1, by rw [← h]; rfl, by omega⟩

/-- C21: a call never increases the remaining length, and a call that returns a
token decreases it by at least one byte; so in every run on a fresh decoder
the number of tokens returned plus the bytes still remaining is at most the
buffer length, and the driver loop that calls `bencode_next` until it
returns a value `≤ 0` stops within `m.length + 1` calls. -/
theorem C21_progress (P : Platform) (m : List Nat) :
    (∀ ctx r ctx1, bencode_next P m ctx = some (r, ctx1) →
      ctx1.buflen ≤ ctx.buflen ∧ (0 < r → ctx1.buflen + 1 ≤ ctx.buflen)) ∧
    (∀ k obs ctx1, calls P m k (bencode_init m.length) = some (obs, ctx1) →
      tokens obs + ctx1.buflen ≤ m.length ∧ tokens obs ≤ m.length) ∧
    (∀ res, drive P m (m.length + 1) (bencode_init m.length) = some res →
      ∃ k, res = some k ∧ k ≤ m.length + 1) := by
  refine ⟨?_, ?_, ?_⟩
  · intro ctx r ctx1 hn
    obtain ⟨a1, a2, a3⟩ := step_cursor P hn
    refine ⟨by omega, fun h => ?_⟩
    have := a3 h
    omega
  · intro k obs ctx1 h
    obtain ⟨h1, _⟩ := tokens_calls P m k _ ctx1 obs h
    have e : (bencode_init m.length).buflen = m.length := rfl
    rw [e] at h1
    exact ⟨h1, by omega⟩
  · intro res h
    exact drive_ends P m (m.length + 1) _ res (by show m.length < m.length + 1; omega) h

/-- C21 (witness): on `li1ee` the loop stops with the fourth call, which
returns `BENCODE_DONE`. -/
theorem C21_progress_witness :
    drive lp64 (bytes "li1ee") ((bytes "li1ee").length + 1)
        (bencode_init (bytes "li1ee").length) = some (some 4) ∧
    ∃ k, some 4 = some k ∧ k ≤ (bytes "li1ee").length + 1 :=
  ⟨by decide, (C21_progress lp64 (bytes "li1ee")).2.2 (some 4) (by decide)⟩


/-! # Completion -/

/-- C22: a call that returns `BENCODE_DONE` leaves the decoder state as it was,
and every further call returns `BENCODE_DONE` and leaves it so again. -/
theorem C22_completion_is_stable (P : Platform) (m : List Nat) (ctx ctx1 : bencode)
    (h : bencode_next P m ctx = some (BENCODE_DONE, ctx1)) :
    ctx1 = ctx ∧
    ∀ k, calls P m k ctx1 = some (List.replicate k (BENCODE_DONE, []), ctx) := by
  obtain ⟨_, _, _, e⟩ := next_done P h
  subst e
  refine ⟨rfl, ?_⟩
  intro k
  induction k with
  | zero => rfl
  | succ k ih =>
    simp only [calls, h, ih]
    rfl

/-- C22 (witness): `i0e` after its integer; the second call returns
`BENCODE_DONE`. -/
theorem C22_completion_is_stable_witness :
    decode "i0e" 2 = some [(BENCODE_INTEGER, bytes "0"), (BENCODE_DONE, [])] ∧
    ∀ k, calls lp64 (bytes "i0e") k ⟨some 1, 1, 3, 0, none, 0, 0⟩ =
      some (List.replicate k (BENCODE_DONE, []), ⟨some 1, 1, 3, 0, none, 0, 0⟩) :=
  ⟨by decide,
   (C22_completion_is_stable lp64 (bytes "i0e") ⟨some 1, 1, 3, 0, none, 0, 0⟩
      ⟨some 1, 1, 3, 0, none, 0, 0⟩ (by decide)).2⟩


/-! # Completion needs a token -/

theorem enter_go_tok {m : List Nat} {ctx cx : bencode} {kp : Option Nat}
    (he : next_enter m ctx = some (.go cx kp)) : cx.tok = ctx.tok := by
  have hc := enter_cases he
  generalize hE : Entered.go cx kp = E at hc
  cases hc with
  | at_end => cases hE
  | top h0 hb =>
    simp only [Entered.go.injEq] at hE
    obtain ⟨rfl, _⟩ := hE
    rfl
  | item blk f hz hs hf hd =>
    simp only [Entered.go.injEq] at hE
    obtain ⟨rfl, _⟩ := hE
    rfl
  | value blk f c hz hs hf hd he' hp hc' =>
    simp only [Entered.go.injEq] at hE
    obtain ⟨rfl, _⟩ := hE
    rfl
  | no_value => cases hE
  | key blk f c hz hs hf hd he' hp hc' =>
    simp only [Entered.go.injEq] at hE
    obtain ⟨rfl, _⟩ := hE
    rfl
  | no_key => cases hE

theorem enter_ret_tok {m : List Nat} {ctx cx : bencode} {r : Int}
    (he : next_enter m ctx = some (.ret r cx)) : cx.tok = ctx.tok := by
  have hc := enter_cases he
  generalize hE : Entered.ret r cx = E at hc
  cases hc with
  | at_end h0 hb =>
    simp only [Entered.ret.injEq] at hE
    obtain ⟨_, rfl⟩ := hE
    rfl
  | top => cases hE
  | item => cases hE
  | value => cases hE
  | no_value blk f hz hs hf hd he' hp =>
    simp only [Entered.ret.injEq] at hE
    obtain ⟨_, rfl⟩ := hE
    rfl
  | key => cases hE
  | no_key blk f c hz hs hf hd he' hp hc' =>
    simp only [Entered.ret.injEq] at hE
    obtain ⟨_, rfl⟩ := hE
    rfl

/-- The `switch` leaves the token view alone unless it fails or returns an
integer or a string. -/
theorem switch_tok (P : Platform) {m : List Nat} {cx c2 : bencode} {b : Bool} {r0 : Int}
    (hs : next_switch P m cx = some (b, r0, c2)) :
    c2.tok = cx.tok ∨ r0 < 0 ∨ r0 = BENCODE_INTEGER ∨ r0 = BENCODE_STRING := by
  have hsw := switch_cases P hs
  cases hsw with
  | leaf _ _ _ hm hr hb hx =>
    rcases hr with h0 | h0 | h0 | h0 | ⟨h0, _⟩
    · exact Or.inr (Or.inl (by rw [h0]; decide))
    · exact Or.inr (Or.inl (by rw [h0]; decide))
    · exact Or.inr (Or.inl (by rw [h0]; decide))
    · exact Or.inr (Or.inr (Or.inl h0))
    · exact Or.inr (Or.inr (Or.inr h0))
  | dict_begin cy stk blk old hg hp hst ho =>
    obtain ⟨_, g2, _, _⟩ := get_moved hg
    exact Or.inl g2
  | list_begin cy stk blk old hg hp hst ho =>
    obtain ⟨_, g2, _, _⟩ := get_moved hg
    exact Or.inl g2
  | container_end cy blk f hg hsz hst hf =>
    obtain ⟨_, g2, _, _⟩ := get_moved hg
    exact Or.inl g2

/-- One call, from any state: the token view is left alone unless the call
fails or returns an integer or a string. -/
theorem step_tok (P : Platform) {m : List Nat} {ctx ctx1 : bencode} {r : Int}
    (hn : bencode_next P m ctx = some (r, ctx1)) :
    ctx1.tok = ctx.tok ∨ r < 0 ∨ r = BENCODE_INTEGER ∨ r = BENCODE_STRING := by
  rcases next_unfold P hn with he | ⟨cx, kp, b, r0, c2, he, hs, hfin⟩
  · exact Or.inl (enter_ret_tok he)
  · have e1 := enter_go_tok he
    rcases hfin with ⟨_, rfl, rfl⟩ | ⟨_, hk⟩
    · rcases switch_tok P hs with h | h
      · exact Or.inl (by rw [h, e1])
      · exact Or.inr h
    · obtain ⟨hcode, hst⟩ := next_key_code hk
      have b1 : ctx1.tok = c2.tok := by rw [hst]
      rcases hcode with h1 | ⟨h1, _, _⟩
      · rcases switch_tok P hs with h | h
        · exact Or.inl (by rw [b1, h, e1])
        · exact Or.inr (by rw [h1]; exact h)
      · exact Or.inr (Or.inl (by rw [h1]; decide))

/-- Over a run without an error, the token view is set only once an integer
or a string has been returned. -/
theorem calls_tok (P : Platform) (m : List Nat) : ∀ (n : Nat) (ctx ctx1 : bencode)
    (obs : List (Int × List Nat)), calls P m n ctx = some (obs, ctx1) →
    (∀ o ∈ obs, 0 ≤ o.1) → ctx1.tok.isSome = true →
    ctx.tok.isSome = true ∨ ∃ o ∈ obs, o.1 = BENCODE_INTEGER ∨ o.1 = BENCODE_STRING
  | 0, ctx, ctx1, obs, h, _, ht => by
    simp only [calls, Option.some.injEq, Prod.mk.injEq] at h
    obtain ⟨_, rfl⟩ := h
    exact Or.inl ht
  | n + 1, ctx, ctx1, obs, h, hok, ht => by
    simp only [calls] at h
    cases hn : bencode_next P m ctx with
    | none => rw [hn] at h; cases h
    | some x =>
      obtain ⟨r, cx⟩ := x
      rw [hn] at h
      simp only at h
      cases hc : calls P m n cx with
      | none => rw [hc] at h; cases h
      | some y =>
        obtain ⟨obs1, c2⟩ := y
        rw [hc] at h
        simp only [Option.some.injEq, Prod.mk.injEq] at h
        obtain ⟨rfl, rfl⟩ := h
        have hr : 0 ≤ r := hok (observe m r cx) (List.mem_cons_self _ _)
        have hok1 : ∀ o ∈ obs1, 0 ≤ o.1 := fun o ho => hok o (List.mem_cons_of_mem _ ho)
        rcases calls_tok P m n cx c2 obs1 hc hok1 ht with h1 | ⟨o, ho, h1⟩
        · rcases step_tok P hn with h2 | h2 | h2
          · exact Or.inl (by rw [← h2]; exact h1)
          · exact absurd hr (not_le.2 h2)
          · exact Or.inr ⟨observe m r cx, List.mem_cons_self _ _, h2⟩
        · exact Or.inr ⟨o, List.mem_cons_of_mem _ ho, h1⟩

/-- C14: in a run of calls on a fresh decoder in which no call has returned
an error (after an error the decoder must not be called again), a call
returns `BENCODE_DONE` only when the stack is empty, no byte remains, and an
earlier call returned a token, in fact `BENCODE_INTEGER` or `BENCODE_STRING`;
the call leaves the state as it was. -/
theorem C14_done_needs_a_token (P : Platform) (m : List Nat) (n : Nat) (ctx ctx1 : bencode)
    (obs : List (Int × List Nat))
    (h : calls P m n (bencode_init m.length) = some (obs, ctx))
    (hok : ∀ o ∈ obs, 0 ≤ o.1)
    (hd : bencode_next P m ctx = some (BENCODE_DONE, ctx1)) :
    ctx.size = 0 ∧ ctx.buflen = 0 ∧ ctx1 = ctx ∧
      ∃ o ∈ obs, (o.1 = BENCODE_INTEGER ∨ o.1 = BENCODE_STRING) ∧ 0 ≤ o.1 ∧
        o.1 ≠ BENCODE_DONE := by
  obtain ⟨h1, h2, h3, h4⟩ := next_done P hd
  refine ⟨h1, h2, h4, ?_⟩
  rcases calls_tok P m n _ ctx obs h hok h3 with h5 | ⟨o, ho, h5⟩
  · cases h5
  · refine ⟨o, ho, h5, hok o ho, ?_⟩
    rcases h5 with h5 | h5 <;> rw [h5] <;> decide

/-- C14 (witness): `i0e`, whose second call returns `BENCODE_DONE` after the
integer of the first. -/
theorem C14_done_needs_a_token_witness :
    calls lp64 (bytes "i0e") 1 (bencode_init (bytes "i0e").length) =
      some ([(BENCODE_INTEGER, bytes "0")], ⟨some 1, 1, 3, 0, none, 0, 0⟩) ∧
    bencode_next lp64 (bytes "i0e") ⟨some 1, 1, 3, 0, none, 0, 0⟩ =
      some (BENCODE_DONE, ⟨some 1, 1, 3, 0, none, 0, 0⟩) ∧
    ((⟨some 1, 1, 3, 0, none, 0, 0⟩ : bencode).size = 0 ∧
      (⟨some 1, 1, 3, 0, none, 0, 0⟩ : bencode).buflen = 0 ∧
      (⟨some 1, 1, 3, 0, none, 0, 0⟩ : bencode) = ⟨some 1, 1, 3, 0, none, 0, 0⟩ ∧
      ∃ o ∈ [(BENCODE_INTEGER, bytes "0")],
        (o.1 = BENCODE_INTEGER ∨ o.1 = BENCODE_STRING) ∧ 0 ≤ o.1 ∧ o.1 ≠ BENCODE_DONE) :=
  ⟨by decide, by decide,
    C14_done_needs_a_token lp64 (bytes "i0e") 1 ⟨some 1, 1, 3, 0, none, 0, 0⟩
      ⟨some 1, 1, 3, 0, none, 0, 0⟩ [(BENCODE_INTEGER, bytes "0")] (by decide) (by decide)
      (by decide)⟩


/-! # Dictionary keys ascend -/

